import Mathlib

/-!
Verification of the trade-rs core: fixed-point tick conversion, the Binance
wire-message normalizer and book-snapshot handshake state machine
(`src/api/binance/client.rs`), and the price-time-priority matching engine
(`src/matching_engine/mod.rs`).

Decimal strings are modelled as `List Char`; machine integers (`u64`/`usize`)
are modelled as `Nat` — every place where wrap-around could differ from `Nat`
arithmetic is flagged at its definition, and the claims about them are settled
against explicitly wrapped variants where it matters.
-/

namespace TradeRS

/-! ### Tick: decimal string ↔ integer tick count

Modelled from the spec: the `tick` module is not among the sources (only its
callers `benches/tick.rs` and `api/binance/client.rs` are), so the conversion
is modelled from spec §4.B/§6.  A `Tick` is constructed with a positive
integer `unit` encoding the minimum representable fraction; the spec fixes
the decimal-string wire format (optional fractional part, no exponent, no
sign) and states `unit 1000 ⇒ three decimal places`, so units are powers of
ten and we carry the exponent: a `Tick` with `decimals = d` has
`unit = 10^d`.  `ticked` (the spec's `to_ticks`, called `convert_unticked`
at the client call sites) parses a decimal string and fails if it is
malformed or not an exact multiple of `1/unit`; `unticked` (the spec's
`from_ticks`) prints the canonical decimal string, with no trailing zeros. -/

structure Tick where
  decimals : Nat
deriving DecidableEq

/-- Character for the decimal digit `d`. -/
def digitChar (d : Nat) : Char := Char.ofNat (48 + d)

/-- Is `c` one of `'0'..'9'`? -/
def isDigitChar (c : Char) : Bool := decide (48 ≤ c.toNat) && decide (c.toNat ≤ 57)

/-- Numeric value of a digit character. -/
def digitVal (c : Char) : Nat := c.toNat - 48

/-- Value of a big-endian string of digit characters. -/
def digitsVal (l : List Char) : Nat := l.foldl (fun a c => 10 * a + digitVal c) 0

/-- Split a string at the first `'.'`: returns the part before it and,
if a dot is present, the part after it. -/
def splitDot : List Char → List Char × Option (List Char)
  | [] => ([], none)
  | c :: rest =>
    if c = '.' then ([], some rest)
    else
      let p := splitDot rest
      (c :: p.1, p.2)

/-- Little-endian base-10 digits, with `fuel` bounding the recursion depth
(structural recursion so that concrete values reduce in the kernel). -/
def digitsLEAux : Nat → Nat → List Nat
  | 0, _ => []
  | fuel + 1, n => if n = 0 then [] else n % 10 :: digitsLEAux fuel (n / 10)

/-- Little-endian base-10 digits of `n` (`digitsLE 0 = []`). -/
def digitsLE (n : Nat) : List Nat := digitsLEAux n n

/-- Little-endian base-10 digits of `n`, zero-padded to length `k`
(when `n < 10^k`). -/
def padLE (k n : Nat) : List Nat :=
  digitsLE n ++ List.replicate (k - (digitsLE n).length) 0

/-- Canonical decimal print of a natural number (no leading zeros,
`0` prints as `"0"`). -/
def natChars (n : Nat) : List Char :=
  if n = 0 then ['0'] else ((digitsLE n).map digitChar).reverse

namespace Tick

/-- The unit of a tick: `10^decimals`. -/
def unit (t : Tick) : Nat := 10 ^ t.decimals

/-- Core of `ticked`: the string parsed as integer part `I` and fraction
part `F` (empty when there is no dot) has value `N/10^F.length` with
`N = digitsVal I * 10^F.length + digitsVal F`; it converts exactly when
`N * unit / 10^F.length` is an integer. -/
def tickedFrac (t : Tick) (I F : List Char) : Option Nat :=
  let f := F.length
  let N := digitsVal I * 10 ^ f + digitsVal F
  if f ≤ t.decimals then some (N * 10 ^ (t.decimals - f))
  else if 10 ^ (f - t.decimals) ∣ N then some (N / 10 ^ (f - t.decimals)) else none

/-- Parse a decimal string into a tick count (the spec's `to_ticks`; the
bench calls it `ticked`, the client calls it `convert_unticked`).  Fails on
a malformed string (empty parts, a non-digit, more than one dot — a second
dot lands in `F` and fails the digit test) and on a value that is not an
exact multiple of `1/unit`. -/
def ticked (t : Tick) (s : List Char) : Option Nat :=
  match splitDot s with
  | (I, none) =>
    if I ≠ [] ∧ I.all isDigitChar then t.tickedFrac I [] else none
  | (I, some F) =>
    if I ≠ [] ∧ F ≠ [] ∧ I.all isDigitChar ∧ F.all isDigitChar then t.tickedFrac I F
    else none

/-- Print a tick count as a canonical decimal string (the spec's
`from_ticks`; the bench calls it `unticked`): integer part `n / unit`,
fraction part `n % unit` padded to `decimals` digits with its trailing
zeros stripped, and no dot at all when the fraction is zero.  With a
power-of-ten unit every count is representable, so this is total. -/
def unticked (t : Tick) (n : Nat) : List Char :=
  let intPart := natChars (n / 10 ^ t.decimals)
  let fracLE := (padLE t.decimals (n % 10 ^ t.decimals)).dropWhile (· = 0)
  if fracLE = [] then intPart
  else intPart ++ '.' :: (fracLE.map digitChar).reverse

/-- Strip the trailing `'0'` characters of a fraction part. -/
def stripTrailingZeros (F : List Char) : List Char :=
  (F.reverse.dropWhile (· = '0')).reverse

/-- The canonical form of a decimal string (the spec's `canonical(s)`):
leading zeros of the integer part and trailing zeros of the fraction part
removed, the dot removed when the fraction vanishes.  Only meaningful on
strings `ticked` accepts. -/
def canonical (s : List Char) : List Char :=
  match splitDot s with
  | (I, none) => natChars (digitsVal I)
  | (I, some F) =>
    let F2 := stripTrailingZeros F
    natChars (digitsVal I) ++ (if F2 = [] then [] else '.' :: F2)

end Tick

/-! ### Tick: supporting lemmas -/

theorem char_toNat_inj {a b : Char} (h : a.toNat = b.toNat) : a = b := by
  apply Char.eq_of_val_eq
  apply UInt32.eq_of_val_eq
  unfold Char.toNat UInt32.toNat at h
  exact Fin.eq_of_val_eq h

theorem digitsLEAux_eq {fuel n : Nat} (h : n ≤ fuel) : digitsLEAux fuel n = Nat.digits 10 n := by
  induction fuel generalizing n with
  | zero => interval_cases n; simp [digitsLEAux]
  | succ fuel ih =>
    by_cases h0 : n = 0
    · simp [digitsLEAux, h0]
    · have hlt : n / 10 ≤ fuel := by
        have := Nat.div_lt_self (Nat.pos_of_ne_zero h0) (by norm_num : (1:Nat) < 10)
        omega
      simp only [digitsLEAux, if_neg h0, ih hlt]
      exact (Nat.digits_def' (by norm_num) (Nat.pos_of_ne_zero h0)).symm

theorem digitsLE_eq (n : Nat) : digitsLE n = Nat.digits 10 n := digitsLEAux_eq le_rfl

theorem toNat_digitChar {d : Nat} (h : d < 10) : (digitChar d).toNat = 48 + d := by
  interval_cases d <;> decide

theorem digitVal_digitChar {d : Nat} (h : d < 10) : digitVal (digitChar d) = d := by
  simp [digitVal, toNat_digitChar h]

theorem isDigitChar_digitChar {d : Nat} (h : d < 10) : isDigitChar (digitChar d) = true := by
  simp only [isDigitChar, toNat_digitChar h]
  simp; omega

theorem digitChar_ne_dot {d : Nat} (h : d < 10) : digitChar d ≠ '.' := by
  interval_cases d <;> decide

theorem digitChar_eq_zero_iff {d : Nat} (h : d < 10) : digitChar d = '0' ↔ d = 0 := by
  interval_cases d <;> decide

theorem isDigitChar_toNat {c : Char} (h : isDigitChar c = true) :
    48 ≤ c.toNat ∧ c.toNat ≤ 57 := by
  simpa [isDigitChar] using h

theorem digitVal_lt_ten {c : Char} (h : isDigitChar c = true) : digitVal c < 10 := by
  have := isDigitChar_toNat h
  simp only [digitVal]; omega

theorem digitChar_digitVal {c : Char} (h : isDigitChar c = true) : digitChar (digitVal c) = c := by
  have hb := isDigitChar_toNat h
  apply char_toNat_inj
  rw [toNat_digitChar (digitVal_lt_ten h)]
  simp only [digitVal]; omega

theorem foldl_digitsVal (a : Nat) (l : List Char) :
    l.foldl (fun a c => 10 * a + digitVal c) a = a * 10 ^ l.length + digitsVal l := by
  induction l generalizing a with
  | nil => simp [digitsVal]
  | cons c l ih =>
    show l.foldl _ (10 * a + digitVal c) = _
    rw [ih]
    have h2 : digitsVal (c :: l) = (10 * 0 + digitVal c) * 10 ^ l.length + digitsVal l := by
      show l.foldl _ (10 * 0 + digitVal c) = _
      rw [ih]
    rw [h2]
    simp [List.length_cons]
    ring

theorem digitsVal_append (A B : List Char) :
    digitsVal (A ++ B) = digitsVal A * 10 ^ B.length + digitsVal B := by
  show (A ++ B).foldl _ 0 = _
  rw [List.foldl_append]
  exact foldl_digitsVal _ _

theorem digitsVal_eq_ofDigits (I : List Char) :
    digitsVal I = Nat.ofDigits 10 ((I.map digitVal).reverse) := by
  induction I with
  | nil => simp [digitsVal, Nat.ofDigits]
  | cons c I ih =>
    have h1 : digitsVal (c :: I) = digitVal c * 10 ^ I.length + digitsVal I := by
      show I.foldl _ (10 * 0 + digitVal c) = _
      rw [foldl_digitsVal]; ring_nf
    rw [h1, ih]
    simp only [List.map_cons, List.reverse_cons, Nat.ofDigits_append]
    simp [Nat.ofDigits]
    ring

theorem digitsVal_revMap {L : List Nat} :
    digitsVal ((L.map digitChar).reverse) = Nat.ofDigits 10 (L.map (fun d => digitVal (digitChar d))) := by
  rw [digitsVal_eq_ofDigits, List.map_reverse, List.reverse_reverse, List.map_map]
  rfl

theorem digitsVal_revMap_of_lt {L : List Nat} (h : ∀ x ∈ L, x < 10) :
    digitsVal ((L.map digitChar).reverse) = Nat.ofDigits 10 L := by
  rw [digitsVal_revMap]
  congr 1
  calc L.map (fun d => digitVal (digitChar d)) = L.map id :=
        List.map_congr_left fun x hx => digitVal_digitChar (h x hx)
    _ = L := List.map_id L

theorem splitDot_no_dot {s : List Char} (h : '.' ∉ s) : splitDot s = (s, none) := by
  induction s with
  | nil => rfl
  | cons c rest ih =>
    rw [List.mem_cons, not_or] at h
    have hc : ¬ c = '.' := fun e => h.1 e.symm
    simp only [splitDot, if_neg hc, ih h.2]

theorem splitDot_append {A B : List Char} (h : '.' ∉ A) :
    splitDot (A ++ '.' :: B) = (A, some B) := by
  induction A with
  | nil => simp [splitDot]
  | cons a A ih =>
    rw [List.mem_cons, not_or] at h
    have ha : ¬ a = '.' := fun e => h.1 e.symm
    simp only [List.cons_append, splitDot, if_neg ha]
    rw [show A.append ('.' :: B) = A ++ '.' :: B from rfl, ih h.2]

theorem natChars_ne_nil (n : Nat) : natChars n ≠ [] := by
  unfold natChars
  split
  · simp
  · simp [Nat.digits_ne_nil_iff_ne_zero, digitsLE_eq, *]

theorem mem_natChars {n : Nat} {c : Char} (hc : c ∈ natChars n) : ∃ d, d < 10 ∧ c = digitChar d := by
  unfold natChars at hc
  split at hc
  · exact ⟨0, by norm_num, by simpa using hc⟩
  · rw [List.mem_reverse, List.mem_map] at hc
    obtain ⟨d, hd, rfl⟩ := hc
    exact ⟨d, Nat.digits_lt_base (by norm_num) (by rwa [digitsLE_eq] at hd), rfl⟩

theorem natChars_all_digits (n : Nat) : (natChars n).all isDigitChar = true := by
  rw [List.all_eq_true]
  intro c hc
  obtain ⟨d, hd, rfl⟩ := mem_natChars hc
  exact isDigitChar_digitChar hd

theorem dot_not_mem_natChars (n : Nat) : '.' ∉ natChars n := by
  intro hmem
  obtain ⟨d, hd, he⟩ := mem_natChars hmem
  exact digitChar_ne_dot hd he.symm

theorem digitsVal_natChars (n : Nat) : digitsVal (natChars n) = n := by
  unfold natChars
  split
  · subst n; decide
  · rw [digitsLE_eq, digitsVal_revMap_of_lt (fun x hx => Nat.digits_lt_base (by norm_num) hx),
      Nat.ofDigits_digits]

theorem ofDigits_replicate_zero (k : Nat) : Nat.ofDigits 10 (List.replicate k 0) = 0 := by
  induction k with
  | zero => simp [Nat.ofDigits]
  | succ k ih => simp [List.replicate_succ, Nat.ofDigits, ih]

theorem ofDigits_all_zero {L : List Nat} (h : ∀ x ∈ L, x = 0) : Nat.ofDigits 10 L = 0 := by
  induction L with
  | nil => simp [Nat.ofDigits]
  | cons x L ih =>
    rw [Nat.ofDigits_cons, h x (by simp), ih fun y hy => h y (by simp [hy])]

theorem mem_padLE_lt {k n x : Nat} (hx : x ∈ padLE k n) : x < 10 := by
  unfold padLE at hx
  rw [List.mem_append] at hx
  rcases hx with hx | hx
  · exact Nat.digits_lt_base (by norm_num) (by rwa [digitsLE_eq] at hx)
  · have := List.eq_of_mem_replicate hx
    omega

theorem digitsLE_length_le {k n : Nat} (h : n < 10 ^ k) : (digitsLE n).length ≤ k := by
  rw [digitsLE_eq]
  rcases Nat.eq_zero_or_pos n with rfl | hn
  · simp
  · rw [Nat.digits_len 10 n (by norm_num) hn.ne.symm]
    have := Nat.log_lt_of_lt_pow hn.ne.symm h
    omega

theorem padLE_length {k n : Nat} (h : n < 10 ^ k) : (padLE k n).length = k := by
  unfold padLE
  have := digitsLE_length_le h
  rw [List.length_append, List.length_replicate]
  omega

theorem ofDigits_padLE (k n : Nat) : Nat.ofDigits 10 (padLE k n) = n := by
  unfold padLE
  rw [Nat.ofDigits_append, ofDigits_replicate_zero, digitsLE_eq, Nat.ofDigits_digits]
  simp

theorem padLE_unique {L : List Nat} (h : ∀ x ∈ L, x < 10) :
    padLE L.length (Nat.ofDigits 10 L) = L := by
  induction L with
  | nil => simp [padLE, digitsLE, digitsLEAux, Nat.ofDigits]
  | cons x L ih =>
    have hx : x < 10 := h x (by simp)
    have hL : ∀ y ∈ L, y < 10 := fun y hy => h y (by simp [hy])
    rw [Nat.ofDigits_cons]
    by_cases h0 : (x : Nat) + 10 * Nat.ofDigits 10 L = 0
    · have hx0 : x = 0 := by omega
      have hw0 : Nat.ofDigits 10 L = 0 := by omega
      have hL0 : L = List.replicate L.length 0 := by
        have := ih hL
        rw [hw0] at this
        simpa [padLE, digitsLE, digitsLEAux] using this.symm
      rw [h0]
      simp only [padLE, digitsLE, digitsLEAux, List.nil_append, List.length_nil, Nat.sub_zero,
        List.length_cons]
      rw [List.replicate_succ, hx0]
      exact congrArg (0 :: ·) hL0.symm
    · have hpos : 0 < x + 10 * Nat.ofDigits 10 L := Nat.pos_of_ne_zero h0
      have hmod : (x + 10 * Nat.ofDigits 10 L) % 10 = x := by omega
      have hdiv : (x + 10 * Nat.ofDigits 10 L) / 10 = Nat.ofDigits 10 L := by omega
      unfold padLE
      rw [digitsLE_eq, Nat.digits_def' (by norm_num : (1:Nat) < 10) hpos, hmod, hdiv]
      have ihe := ih hL
      unfold padLE at ihe
      rw [digitsLE_eq] at ihe
      rw [List.length_cons, List.cons_append]
      rw [List.length_cons]
      have harith : L.length + 1 - ((Nat.digits 10 (Nat.ofDigits 10 L)).length + 1)
          = L.length - (Nat.digits 10 (Nat.ofDigits 10 L)).length := by omega
      rw [harith]
      exact congrArg (x :: ·) ihe

theorem dropWhile_replicate_append {α : Type} (p : α → Bool) (a : α) (hp : p a = true)
    (k : Nat) (l : List α) :
    List.dropWhile p (List.replicate k a ++ l) = List.dropWhile p l := by
  induction k with
  | zero => simp
  | succ k ih => rw [List.replicate_succ, List.cons_append, List.dropWhile_cons_of_pos hp, ih]

theorem dropWhile_map {α β : Type} (f : α → β) (p : β → Bool) (q : α → Bool) (l : List α)
    (h : ∀ x ∈ l, p (f x) = q x) :
    List.dropWhile p (l.map f) = (List.dropWhile q l).map f := by
  induction l with
  | nil => simp
  | cons x l ih =>
    have hx := h x (by simp)
    rw [List.map_cons]
    by_cases hq : q x = true
    · rw [List.dropWhile_cons_of_pos (by rw [hx, hq]), List.dropWhile_cons_of_pos hq,
        ih fun y hy => h y (by simp [hy])]
    · rw [List.dropWhile_cons_of_neg (by rw [hx]; simpa using hq),
        List.dropWhile_cons_of_neg (by simpa using hq), List.map_cons]

theorem dropWhile_replicate {α : Type} (p : α → Bool) (a : α) (hp : p a = true) (k : Nat) :
    List.dropWhile p (List.replicate k a) = [] := by
  have := dropWhile_replicate_append p a hp k []
  simpa using this

theorem mem_of_mem_dropWhile {α : Type} {p : α → Bool} {l : List α} {x : α}
    (h : x ∈ List.dropWhile p l) : x ∈ l := by
  induction l with
  | nil => simpa using h
  | cons y l ih =>
    by_cases hy : p y = true
    · rw [List.dropWhile_cons_of_pos hy] at h
      exact List.mem_cons_of_mem _ (ih h)
    · rw [List.dropWhile_cons_of_neg (by simpa using hy)] at h
      exact h

/-- Unfolded form of `unticked`, for rewriting. -/
theorem unticked_eq (t : Tick) (n : Nat) :
    t.unticked n =
      (if (padLE t.decimals (n % 10 ^ t.decimals)).dropWhile (· = 0) = []
       then natChars (n / 10 ^ t.decimals)
       else natChars (n / 10 ^ t.decimals) ++
            '.' :: (((padLE t.decimals (n % 10 ^ t.decimals)).dropWhile (· = 0)).map
              digitChar).reverse) := rfl

/-- Unfolded form of `ticked` when the string has no dot. -/
theorem ticked_of_splitDot_none {t : Tick} {s : List Char} {I : List Char}
    (h : splitDot s = (I, none)) :
    t.ticked s = if I ≠ [] ∧ I.all isDigitChar then t.tickedFrac I [] else none := by
  rw [Tick.ticked, h]

/-- Unfolded form of `ticked` when the string has a dot. -/
theorem ticked_of_splitDot_some {t : Tick} {s : List Char} {I F : List Char}
    (h : splitDot s = (I, some F)) :
    t.ticked s =
      if I ≠ [] ∧ F ≠ [] ∧ I.all isDigitChar ∧ F.all isDigitChar then t.tickedFrac I F
      else none := by
  rw [Tick.ticked, h]

/-- Printing then parsing is the identity on tick counts:
the second round-trip law of spec §4.B. -/
theorem ticked_unticked (t : Tick) (n : Nat) : t.ticked (t.unticked n) = some n := by
  have hpow : 0 < 10 ^ t.decimals := pow_pos (by norm_num) _
  set d := t.decimals with hd
  set q := n / 10 ^ d with hq
  set r := n % 10 ^ d with hr
  have hrlt : r < 10 ^ d := Nat.mod_lt _ hpow
  have hn : 10 ^ d * q + r = n := Nat.div_add_mod n (10 ^ d)
  set P := padLE d r with hP
  set Z := P.takeWhile (· = 0) with hZ
  set fracLE := P.dropWhile (· = 0) with hfrac
  have hPZ : Z ++ fracLE = P := List.takeWhile_append_dropWhile _ _
  have hZ0 : ∀ x ∈ Z, x = 0 := fun x hx => by
    have := List.mem_takeWhile_imp hx
    simpa using this
  have hOf : Nat.ofDigits 10 P = r := ofDigits_padLE d r
  have hlenP : P.length = d := padLE_length hrlt
  have hsum : Z.length + fracLE.length = d := by
    rw [← hlenP, ← hPZ, List.length_append]
  have hrval : r = 10 ^ Z.length * Nat.ofDigits 10 fracLE := by
    rw [← hOf, ← hPZ, Nat.ofDigits_append, ofDigits_all_zero hZ0, zero_add]
  by_cases hE : fracLE = []
  · have hr0 : r = 0 := by rw [hrval, hE]; simp [Nat.ofDigits]
    rw [unticked_eq, ← hd, ← hr, ← hq, ← hP, ← hfrac, if_pos hE]
    rw [ticked_of_splitDot_none (splitDot_no_dot (dot_not_mem_natChars q)),
      if_pos ⟨natChars_ne_nil q, natChars_all_digits q⟩]
    simp only [Tick.tickedFrac, List.length_nil, Nat.zero_le, if_pos, digitsVal_natChars]
    have hgoal : (q * 10 ^ 0 + digitsVal []) * 10 ^ (d - 0) = n := by
      have hnil : digitsVal [] = 0 := rfl
      rw [hnil, pow_zero, mul_one, add_zero, Nat.sub_zero, mul_comm]
      omega
    rw [hgoal]
  · have hFdig : ∀ x ∈ fracLE, x < 10 := fun x hx =>
      mem_padLE_lt (hP ▸ mem_of_mem_dropWhile (hfrac ▸ hx))
    set Fc := (fracLE.map digitChar).reverse with hFc
    have hFcne : Fc ≠ [] := by
      simp only [hFc, ne_eq, List.reverse_eq_nil_iff, List.map_eq_nil]
      exact hE
    have hFcdig : Fc.all isDigitChar = true := by
      rw [List.all_eq_true]
      intro c hc
      rw [hFc, List.mem_reverse, List.mem_map] at hc
      obtain ⟨x, hx, rfl⟩ := hc
      exact isDigitChar_digitChar (hFdig x hx)
    have hflen : Fc.length = fracLE.length := by
      rw [hFc, List.length_reverse, List.length_map]
    rw [unticked_eq, ← hd, ← hr, ← hq, ← hP, ← hfrac, if_neg hE, ← hFc]
    rw [ticked_of_splitDot_some (splitDot_append (dot_not_mem_natChars q)),
      if_pos ⟨natChars_ne_nil q, hFcne, natChars_all_digits q, hFcdig⟩]
    simp only [Tick.tickedFrac, hflen, digitsVal_natChars]
    rw [if_pos (by omega : fracLE.length ≤ d)]
    congr 1
    rw [hFc, digitsVal_revMap_of_lt hFdig]
    have hdf : d - fracLE.length = Z.length := by omega
    rw [hdf]
    calc (q * 10 ^ fracLE.length + Nat.ofDigits 10 fracLE) * 10 ^ Z.length
        = q * (10 ^ fracLE.length * 10 ^ Z.length) +
            10 ^ Z.length * Nat.ofDigits 10 fracLE := by ring
      _ = 10 ^ d * q + r := by
          rw [← pow_add, ← hrval, show fracLE.length + Z.length = d by omega]
          ring
      _ = n := hn

/-- Shifting a value up by `j` decimal places prepends `j` zeros to its
little-endian padded digits. -/
theorem padLE_shift {k j v : Nat} (hv : v < 10 ^ k) :
    padLE (k + j) (v * 10 ^ j) = List.replicate j 0 ++ padLE k v := by
  have hlt : ∀ x ∈ List.replicate j 0 ++ padLE k v, x < 10 := by
    intro x hx
    rw [List.mem_append] at hx
    rcases hx with hx | hx
    · have := List.eq_of_mem_replicate hx; omega
    · exact mem_padLE_lt hx
  have hlen : (List.replicate j 0 ++ padLE k v).length = k + j := by
    rw [List.length_append, List.length_replicate, padLE_length hv]
    omega
  have hof : Nat.ofDigits 10 (List.replicate j 0 ++ padLE k v) = v * 10 ^ j := by
    rw [Nat.ofDigits_append, ofDigits_replicate_zero, List.length_replicate, ofDigits_padLE,
      zero_add, mul_comm]
  calc padLE (k + j) (v * 10 ^ j)
      = padLE (List.replicate j 0 ++ padLE k v).length
          (Nat.ofDigits 10 (List.replicate j 0 ++ padLE k v)) := by rw [hlen, hof]
    _ = List.replicate j 0 ++ padLE k v := padLE_unique hlt

/-- Dividing and taking the remainder by `10^d` inverts the decomposition
`vI * 10^d + r`. -/
theorem div_mod_decomp (vI : Nat) {r d : Nat} (hr : r < 10 ^ d) :
    (vI * 10 ^ d + r) / 10 ^ d = vI ∧ (vI * 10 ^ d + r) % 10 ^ d = r := by
  have hpow : 0 < 10 ^ d := pow_pos (by norm_num) _
  constructor
  · rw [mul_comm, Nat.mul_add_div hpow, Nat.div_eq_of_lt hr, add_zero]
  · rw [mul_comm, Nat.mul_add_mod, Nat.mod_eq_of_lt hr]

/-- Unfolded form of `canonical` when the string has a dot. -/
theorem canonical_of_splitDot_some {s I F : List Char} (h : splitDot s = (I, some F)) :
    Tick.canonical s =
      natChars (digitsVal I) ++
        (if Tick.stripTrailingZeros F = [] then [] else '.' :: Tick.stripTrailingZeros F) := by
  rw [Tick.canonical, h]

/-- Parsing then printing canonicalizes: the first round-trip law of
spec §4.B, for every string `ticked` accepts. -/
theorem ticked_canonical {t : Tick} {s : List Char} {n : Nat} (h : t.ticked s = some n) :
    t.unticked n = Tick.canonical s := by
  have hpow : 0 < 10 ^ t.decimals := pow_pos (by norm_num) _
  set d := t.decimals with hd
  rcases hsplit : splitDot s with ⟨I, Fopt⟩
  cases Fopt with
  | none =>
    rw [ticked_of_splitDot_none hsplit] at h
    rw [Tick.canonical, hsplit]
    split at h
    case isFalse => exact absurd h (by simp)
    case isTrue hcond =>
      simp only [Tick.tickedFrac, List.length_nil, Nat.zero_le, if_pos] at h
      have hnil : digitsVal ([] : List Char) = 0 := rfl
      rw [hnil, pow_zero, mul_one, add_zero, Nat.sub_zero] at h
      have hn : n = digitsVal I * 10 ^ d := by
        cases h; rfl
      rw [unticked_eq, ← hd, hn]
      have hqv : digitsVal I * 10 ^ d / 10 ^ d = digitsVal I := Nat.mul_div_cancel _ hpow
      have hrv : digitsVal I * 10 ^ d % 10 ^ d = 0 := Nat.mul_mod_left _ _
      rw [hqv, hrv]
      have hpz : padLE d 0 = List.replicate d 0 := by
        simp [padLE, digitsLE, digitsLEAux]
      rw [hpz, dropWhile_replicate _ 0 (by simp) d, if_pos rfl]
  | some F =>
    rw [ticked_of_splitDot_some hsplit] at h
    split at h
    case isFalse => exact absurd h (by simp)
    case isTrue hcond =>
      obtain ⟨hI, hF, hIdig, hFdig⟩ := hcond
      set f := F.length with hf
      set vI := digitsVal I with hvI
      set vF := digitsVal F with hvF
      set FLE := (F.map digitVal).reverse with hFLE
      have hFLElt : ∀ x ∈ FLE, x < 10 := by
        intro x hx
        rw [hFLE, List.mem_reverse, List.mem_map] at hx
        obtain ⟨c, hc, rfl⟩ := hx
        exact digitVal_lt_ten (by rw [List.all_eq_true] at hFdig; exact hFdig c hc)
      have hFLElen : FLE.length = f := by
        rw [hFLE, List.length_reverse, List.length_map]
      have hvFle : vF = Nat.ofDigits 10 FLE := digitsVal_eq_ofDigits F
      have hvFlt : vF < 10 ^ f := by
        rw [hvFle, ← hFLElen]
        exact Nat.ofDigits_lt_base_pow_length (by norm_num) hFLElt
      have hFLEuniq : padLE f vF = FLE := by
        rw [hvFle, ← hFLElen]
        exact padLE_unique hFLElt
      -- In both branches of `tickedFrac` the result decomposes as
      -- `n = vI * 10^d + r` with `r < 10^d` and
      -- `padLE d r` agreeing with `FLE` after dropping low-order zeros.
      have key : n / 10 ^ d = vI ∧
          (padLE d (n % 10 ^ d)).dropWhile (· = 0) = FLE.dropWhile (· = 0) := by
        simp only [Tick.tickedFrac, ← hf, ← hvI, ← hvF, ← hd] at h
        split at h
        case isTrue hfle =>
          have hn : n = vI * 10 ^ d + vF * 10 ^ (d - f) := by
            have he := (Option.some.inj h).symm
            rw [he]
            calc (vI * 10 ^ f + vF) * 10 ^ (d - f)
                = vI * (10 ^ f * 10 ^ (d - f)) + vF * 10 ^ (d - f) := by ring
              _ = vI * 10 ^ d + vF * 10 ^ (d - f) := by
                  rw [← pow_add, show f + (d - f) = d by omega]
          have hrlt : vF * 10 ^ (d - f) < 10 ^ d := by
            calc vF * 10 ^ (d - f) < 10 ^ f * 10 ^ (d - f) :=
                  (Nat.mul_lt_mul_right (pow_pos (by norm_num) _)).mpr hvFlt
              _ = 10 ^ d := by rw [← pow_add, show f + (d - f) = d by omega]
          obtain ⟨hqv, hrv⟩ := div_mod_decomp vI hrlt
          refine ⟨by rw [hn, hqv], ?_⟩
          rw [hn, hrv]
          have hpd : padLE d (vF * 10 ^ (d - f)) = List.replicate (d - f) 0 ++ FLE := by
            have := padLE_shift (j := d - f) hvFlt
            rw [show f + (d - f) = d by omega, hFLEuniq] at this
            exact this
          rw [hpd, dropWhile_replicate_append _ 0 (by simp) _ _]
        case isFalse hfgt =>
          split at h
          case isFalse => exact absurd h (by simp)
          case isTrue hdvd =>
            have hdvdvF : 10 ^ (f - d) ∣ vF := by
              have hdvd10f : (10 : Nat) ^ (f - d) ∣ 10 ^ f :=
                pow_dvd_pow 10 (by omega)
              exact (Nat.dvd_add_right (hdvd10f.mul_left vI)).mp hdvd
            set w := vF / 10 ^ (f - d) with hw
            have hwm : 10 ^ (f - d) * w = vF := Nat.mul_div_cancel' hdvdvF
            have hpowfd : (10 : Nat) ^ f = 10 ^ (f - d) * 10 ^ d := by
              rw [← pow_add]
              congr 1
              omega
            have hNfact : vI * 10 ^ f + vF = 10 ^ (f - d) * (vI * 10 ^ d + w) := by
              rw [← hwm, hpowfd]
              ring
            have hn : n = vI * 10 ^ d + w := by
              have he := (Option.some.inj h).symm
              rw [he, hNfact, Nat.mul_div_cancel_left _ (pow_pos (by norm_num) _)]
            have hwlt : w < 10 ^ d := by
              have h1 : 10 ^ (f - d) * w < 10 ^ (f - d) * 10 ^ d := by
                rw [hwm, ← hpowfd]
                exact hvFlt
              exact Nat.lt_of_mul_lt_mul_left h1
            obtain ⟨hqv, hrv⟩ := div_mod_decomp vI hwlt
            refine ⟨by rw [hn, hqv], ?_⟩
            rw [hn, hrv]
            have hFLEM : FLE = List.replicate (f - d) 0 ++ padLE d w := by
              rw [← hFLEuniq, ← hwm, mul_comm]
              have := padLE_shift (j := f - d) hwlt
              rw [show d + (f - d) = f by omega] at this
              exact this
            rw [hFLEM, dropWhile_replicate_append _ 0 (by simp) _ _]
      obtain ⟨hqv, hfrac⟩ := key
      rw [unticked_eq, ← hd, hqv, hfrac]
      -- Character-level: the stripped fraction of `F` is the printed form
      -- of `FLE.dropWhile (· = 0)`.
      have hrevF : FLE.map digitChar = F.reverse := by
        rw [hFLE, ← List.map_reverse, List.map_map]
        calc F.reverse.map (digitChar ∘ digitVal) = F.reverse.map id := by
              apply List.map_congr_left
              intro c hc
              rw [List.mem_reverse] at hc
              exact digitChar_digitVal (by rw [List.all_eq_true] at hFdig; exact hFdig c hc)
          _ = F.reverse := List.map_id _
      have hstrip : Tick.stripTrailingZeros F = ((FLE.dropWhile (· = 0)).map digitChar).reverse := by
        rw [Tick.stripTrailingZeros, ← hrevF]
        rw [dropWhile_map digitChar (fun c => c = '0') (fun x => x = 0) FLE
          (fun x hx => by
            simp only [decide_eq_decide]
            exact digitChar_eq_zero_iff (hFLElt x hx))]
      rw [canonical_of_splitDot_some hsplit, ← hvI, hstrip]
      by_cases hfe : FLE.dropWhile (· = 0) = []
      · rw [if_pos hfe,
          if_pos (show ((FLE.dropWhile (· = 0)).map digitChar).reverse = [] by simp [hfe]),
          List.append_nil]
      · rw [if_neg hfe,
          if_neg (show ¬((FLE.dropWhile (· = 0)).map digitChar).reverse = [] by simp [hfe])]

/-- C7: the tick conversion round-trips in both directions: for every decimal
string `s` accepted by `to_ticks`, `from_ticks (to_ticks s)` is the canonical
form of `s` (no trailing zeros beyond the implied precision); for every tick
count `n`, `to_ticks (from_ticks n) = n`; and with unit 1000,
`to_ticks "1278.853" = 1278853` and `from_ticks 1278853 = "1278.853"`
exactly. -/
theorem C7_tick_roundtrip (t : Tick) :
    (∀ s n, t.ticked s = some n → t.unticked n = Tick.canonical s) ∧
    (∀ n, t.ticked (t.unticked n) = some n) ∧
    (t.unit = 1000 →
      t.ticked "1278.853".toList = some 1278853 ∧
      t.unticked 1278853 = "1278.853".toList) := by
  refine ⟨fun s n h => ticked_canonical h, fun n => ticked_unticked t n, fun hu => ?_⟩
  have hd3 : t.decimals = 3 := by
    have h10 : (10 : Nat) ^ t.decimals = 10 ^ 3 := by
      rw [Tick.unit] at hu
      rw [hu]
      norm_num
    exact Nat.pow_right_injective (by norm_num) h10
  cases t
  simp only at hd3
  subst hd3
  constructor <;> decide

/-- Closed witness for C7 at unit 1000 and the concrete values of the claim. -/
theorem C7_tick_roundtrip_witness :
    Tick.unit ⟨3⟩ = 1000 ∧
    (Tick.ticked ⟨3⟩ "1278.853".toList = some 1278853 ∧
     Tick.unticked ⟨3⟩ 1278853 = "1278.853".toList) ∧
    Tick.ticked ⟨3⟩ (Tick.unticked ⟨3⟩ 1278853) = some 1278853 ∧
    Tick.unticked ⟨3⟩ 1278853 = Tick.canonical "1278.8530".toList :=
  ⟨by norm_num [Tick.unit],
   (C7_tick_roundtrip ⟨3⟩).2.2 (by norm_num [Tick.unit]),
   (C7_tick_roundtrip ⟨3⟩).2.1 1278853,
   (C7_tick_roundtrip ⟨3⟩).1 "1278.8530".toList 1278853 (by decide)⟩

/-! ### Binance client: wire types and the handler state machine

Embedded from `src/api/binance/client.rs`.  The WebSocket/HTTP transport,
timers and the notification channel are external ports; the handler state
that the sources mutate (`book_snapshot_state`, `previous_u`) is threaded
explicitly, and "send to the consumer" is modelled by returning the list of
notifications emitted by the handler call, in order.  A JSON payload is
modelled already deserialized (`WireMessage`): serde failures and messages
whose `e` field is neither `"trade"` nor `"depthUpdate"` are the `malformed`
and `other` cases. -/

/-- Side of a resting limit (`order_book::Side`; the module is not among the
sources, the two variants are fixed by the call sites). -/
inductive Side where
  | Bid
  | Ask
deriving DecidableEq

/-- A normalized limit update (`order_book::LimitUpdate`; fields fixed by
the construction site `convert_binance_update`). -/
structure LimitUpdate where
  side : Side
  price : Nat
  size : Nat
deriving DecidableEq

/-- The normalized trade record, exactly the fields the client constructs
(`notify::Trade` is not among the sources; the construction site at
client.rs:232-238 fixes them: `size`, `time`, `price`, `buyer_id`,
`seller_id` — and nothing else). -/
structure Trade where
  size : Nat
  time : Nat
  price : Nat
  buyer_id : Nat
  seller_id : Nat
deriving DecidableEq

/-- The notification variants the client produces (the full enum has more,
produced by the out-of-scope order-placement collaborator). -/
inductive Notification where
  | Trade (t : Trade)
  | LimitUpdates (updates : List LimitUpdate)
deriving DecidableEq

/-- JSON representation of a trade sent by binance (client.rs:157-169). -/
structure BinanceTrade where
  e : List Char
  E : Nat
  s : List Char
  t : Nat
  p : List Char
  q : List Char
  b : Nat
  a : Nat
  T : Nat
  m : Bool
  M : Bool
deriving DecidableEq

/-- JSON representation of one limit update (client.rs:173-177). -/
structure BinanceLimitUpdate where
  price : List Char
  size : List Char
  _ignore : List Int
deriving DecidableEq

/-- JSON representation of a depth update (client.rs:182-190). -/
structure BinanceDepthUpdate where
  e : List Char
  E : Nat
  s : List Char
  U : Nat
  u : Nat
  b : List BinanceLimitUpdate
  a : List BinanceLimitUpdate
deriving DecidableEq

/-- JSON representation of a book snapshot (client.rs:195-199). -/
structure BinanceBookSnapshot where
  lastUpdateId : Nat
  bids : List BinanceLimitUpdate
  asks : List BinanceLimitUpdate
deriving DecidableEq

/-- Internal buffered event: updates tagged with their binance `u`
(client.rs:116-119). -/
structure LimitUpdates where
  u : Nat
  updates : List LimitUpdate
deriving DecidableEq

/-- Client parameters (client.rs:16-31; addresses and symbol are opaque). -/
structure Params where
  symbol : List Char
  ws_address : List Char
  http_address : List Char
  price_tick : Tick
  size_tick : Tick
deriving DecidableEq

/-- State of the book snapshot request (client.rs:128-135).  The `Receiver`
of the pending snapshot is an external port; its completion is delivered to
`on_book_snapshot_ready`. -/
inductive BookSnapshotState where
  | None
  | Waiting (events : List LimitUpdates)
  | Ok
deriving DecidableEq

/-- The handler fields the embedded fragment tracks (client.rs:138-152);
`out`, `snd` and the timeout handle are transport ports. -/
structure Handler where
  params : Params
  book_snapshot_state : BookSnapshotState
  previous_u : Option Nat
deriving DecidableEq

/-- Errors surfaced by `parse_message`/`process_book_snapshot`: serde
failures, the sequence-coherence `bail!`, and tick `ConversionError`. -/
inductive ClientError where
  | parseError
  | sequenceGap
  | conversionError
deriving DecidableEq

/-- An inbound WebSocket text message, already deserialized. -/
inductive WireMessage where
  | trade (t : BinanceTrade)
  | depthUpdate (d : BinanceDepthUpdate)
  | other
  | malformed
deriving DecidableEq

deriving instance DecidableEq for Except

/-- Tick conversion as a fallible step (`convert_unticked` with `?`). -/
def tickedE (t : Tick) (s : List Char) : Except ClientError Nat :=
  match t.ticked s with
  | some n => .ok n
  | none => .error .conversionError

/-- Convert a `BinanceLimitUpdate` into a `LimitUpdate`
(client.rs:212-222). -/
def convert_binance_update (params : Params) (l : BinanceLimitUpdate) (side : Side) :
    Except ClientError LimitUpdate := do
  let price ← tickedE params.price_tick l.price
  let size ← tickedE params.size_tick l.size
  pure { side, price, size }

/-- Collect a sequence of fallible conversions, stopping at the first error
(Rust's `collect::<Result<Vec<_>, _>>()`). -/
def collectExcept : List (Except ClientError LimitUpdate) →
    Except ClientError (List LimitUpdate)
  | [] => .ok []
  | x :: rest => do
    let v ← x
    let vs ← collectExcept rest
    pure (v :: vs)

/-- Depth-update branch of `parse_message`, after the coherence check: set
`previous_u` to the message's `u`, then convert bids then asks
(client.rs:250-259).  The conversion runs — and can fail — only after
`previous_u` has been advanced. -/
def parse_depth (h : Handler) (d : BinanceDepthUpdate) :
    Except ClientError (Option Notification) × Handler :=
  let h2 := { h with previous_u := some d.u }
  let bid := d.b.map (fun l => convert_binance_update h2.params l .Bid)
  let ask := d.a.map (fun l => convert_binance_update h2.params l .Ask)
  match collectExcept (bid ++ ask) with
  | .ok updates => (.ok (some (.LimitUpdates updates)), h2)
  | .error e => (.error e, h2)

/-- Parse one message (client.rs:225-265).  For a depth update, first the
sequence-coherence check: if `previous_u` is set and `previous_u + 1 ≠ U`,
`bail!` — the error is returned and the handler state is NOT changed (in
particular `previous_u` keeps its old value and the session object is left
as it was; there is no shutdown here, see the `FIXME` at client.rs:246). -/
def parse_message (h : Handler) (msg : WireMessage) :
    Except ClientError (Option Notification) × Handler :=
  match msg with
  | .malformed => (.error .parseError, h)
  | .other => (.ok none, h)
  | .trade t =>
    let r : Except ClientError Notification := do
      let size ← tickedE h.params.size_tick t.q
      let price ← tickedE h.params.price_tick t.p
      pure (.Trade { size, time := t.T, price, buyer_id := t.b, seller_id := t.a })
    (r.map some, h)
  | .depthUpdate d =>
    match h.previous_u with
    | some pu =>
      if pu + 1 ≠ d.U then (.error .sequenceGap, h)
      else parse_depth h d
    | none => parse_depth h d

/-- Process a completed book-snapshot request (client.rs:267-294): convert
the snapshot rows, emit one `LimitUpdates` notification with the full
bids++asks, then the buffered events with `u > lastUpdateId` in arrival
order, and move to the `Ok` state.  On any error nothing is sent and the
state is left as given. -/
def process_book_snapshot (h : Handler) (snapshot : Except ClientError BinanceBookSnapshot)
    (passed_events : List LimitUpdates) :
    Except ClientError Unit × Handler × List Notification :=
  match snapshot with
  | .error e => (.error e, h, [])
  | .ok snap =>
    let bid := snap.bids.map (fun l => convert_binance_update h.params l .Bid)
    let ask := snap.asks.map (fun l => convert_binance_update h.params l .Ask)
    match collectExcept (bid ++ ask) with
    | .error e => (.error e, h, [])
    | .ok updates =>
      let notifs := Notification.LimitUpdates updates ::
        (passed_events.filter (fun update => snap.lastUpdateId < update.u)).map
          (fun update => Notification.LimitUpdates update.updates)
      (.ok (), { h with book_snapshot_state := .Ok }, notifs)

/-- Handle one inbound message (client.rs:380-460).  Returns the new handler
state and the notifications sent to the consumer, in order.  A parse error
is logged and dropped — the session continues.  `previous_u.unwrap()` at the
buffering sites is total in the source because the depth path has just set
it; modelled with `getD 0`. -/
def on_message (h : Handler) (msg : WireMessage) : Handler × List Notification :=
  match parse_message h msg with
  | (.ok (some (Notification.Trade t)), h2) => (h2, [Notification.Trade t])
  | (.ok (some (Notification.LimitUpdates updates)), h2) =>
    match h2.book_snapshot_state with
    | .None =>
      ({ h2 with book_snapshot_state :=
          .Waiting [{ u := h2.previous_u.getD 0, updates }] }, [])
    | .Waiting events =>
      ({ h2 with book_snapshot_state :=
          .Waiting (events ++ [{ u := h2.previous_u.getD 0, updates }]) }, [])
    | .Ok => (h2, [Notification.LimitUpdates updates])
  | (.ok none, h2) => (h2, [])
  | (.error _, h2) => (h2, [])

/-- The `BOOK_SNAPSHOT` timeout firing with the request complete
(client.rs:319-358, the `Waiting`/`Some` path): process the snapshot; on
error the session shuts down (third component `true`).  In the `None`/`Ok`
states the source panics (its comment: the timeout only runs in `Waiting`);
modelled as shutdown with nothing sent. -/
def on_book_snapshot_ready (h : Handler) (result : Except ClientError BinanceBookSnapshot) :
    Handler × List Notification × Bool :=
  match h.book_snapshot_state with
  | .Waiting events =>
    let h2 := { h with book_snapshot_state := .None }
    match process_book_snapshot h2 result events with
    | (.ok _, h3, notifs) => (h3, notifs, false)
    | (.error _, h3, notifs) => (h3, notifs, true)
  | _ => (h, [], true)

/-- Process a list of messages, concatenating the emitted notifications in
order. -/
def run (h : Handler) (msgs : List WireMessage) : Handler × List Notification :=
  match msgs with
  | [] => (h, [])
  | m :: rest =>
    let (h2, out) := on_message h m
    let (h3, outs) := run h2 rest
    (h3, out ++ outs)

/-! ### Concrete fixtures for witnesses and counterexamples -/

/-- Parameters with three-decimal price and size ticks (unit 1000). -/
def params0 : Params :=
  { symbol := "trxbtc".toList, ws_address := [], http_address := [],
    price_tick := ⟨3⟩, size_tick := ⟨3⟩ }

/-- A wire row that converts: price 110 ticks, size 5000 ticks. -/
def row1 : BinanceLimitUpdate := { price := "0.110".toList, size := "5.000".toList, _ignore := [] }

/-- A wire row whose price is not tick-aligned at three decimals. -/
def rowBad : BinanceLimitUpdate :=
  { price := "0.1105".toList, size := "5.000".toList, _ignore := [] }

/-- A handler past the snapshot handshake, cursor at `u = 15`. -/
def hOk : Handler := { params := params0, book_snapshot_state := .Ok, previous_u := some 15 }

/-- A concrete trade message (`m = true`). -/
def trade1 : BinanceTrade :=
  { e := "trade".toList, E := 0, s := "trxbtc".toList, t := 1, p := "0.110".toList,
    q := "5.000".toList, b := 7, a := 8, T := 123, m := true, M := true }

/-- C1 gap input: `previous_u = 15` but `U = 18`. -/
def depthGap : BinanceDepthUpdate :=
  { e := "depthUpdate".toList, E := 0, s := "trxbtc".toList, U := 18, u := 19,
    b := [row1], a := [] }

/-! ### Claims C1, C2, C8, C9, C10 -/

/-- C1 (divergence witness): on a sequence gap (`previous_u = 15`,
`U = 18`) the coherence check fires — `parse_message` returns the
`sequenceGap` error — but `on_message` merely logs it: the handler state is
unchanged, the session is not closed, and a later trade message is still
delivered to the consumer.  The claim's `closes the session and emits no
further notifications` is what the spec resolves the source's `FIXME`
(client.rs:246) to, not what the code does. -/
theorem C1_gap_session_continues :
    (parse_message hOk (.depthUpdate depthGap)).1 = .error .sequenceGap ∧
    on_message hOk (.depthUpdate depthGap) = (hOk, []) ∧
    (run hOk [.depthUpdate depthGap, .trade trade1]).2 =
      [.Trade { size := 5000, time := 123, price := 110, buyer_id := 7, seller_id := 8 }] := by
  decide

/-- C2: when the snapshot fetch completes with `lastUpdateId = L` while the
session is `Waiting` with buffered events, exactly one `LimitUpdates`
notification with the snapshot's full bids++asks is emitted, followed in
arrival order by the buffered events with `u > L` (the rest are dropped),
and the session moves to the `Ok` state (and does not shut down). -/
theorem C2_snapshot_reconciliation (h : Handler) (snap : BinanceBookSnapshot)
    (events : List LimitUpdates) (updates : List LimitUpdate)
    (hw : h.book_snapshot_state = .Waiting events)
    (hconv : collectExcept
        ((snap.bids.map (fun l => convert_binance_update h.params l .Bid)) ++
         (snap.asks.map (fun l => convert_binance_update h.params l .Ask))) = .ok updates) :
    on_book_snapshot_ready h (.ok snap) =
      ({ h with book_snapshot_state := .Ok },
       Notification.LimitUpdates updates ::
         (events.filter (fun e2 => snap.lastUpdateId < e2.u)).map
           (fun e2 => Notification.LimitUpdates e2.updates),
       false) := by
  simp only [on_book_snapshot_ready, hw, process_book_snapshot, hconv]

/-- Closed witness for C2, the spec's concrete handshake scenario: buffered
events tagged `u = 12` and `u = 15`, snapshot `lastUpdateId = 13`; the
`u = 12` event is dropped, the `u = 15` event is re-emitted after the
snapshot. -/
theorem C2_snapshot_reconciliation_witness :
    (Handler.mk params0
        (.Waiting [⟨12, [⟨.Ask, 200, 1000⟩]⟩, ⟨15, [⟨.Ask, 210, 2000⟩]⟩])
        (some 15)).book_snapshot_state =
      BookSnapshotState.Waiting [⟨12, [⟨.Ask, 200, 1000⟩]⟩, ⟨15, [⟨.Ask, 210, 2000⟩]⟩] ∧
    on_book_snapshot_ready
        (Handler.mk params0
          (.Waiting [⟨12, [⟨.Ask, 200, 1000⟩]⟩, ⟨15, [⟨.Ask, 210, 2000⟩]⟩])
          (some 15))
        (.ok ⟨13, [row1], []⟩) =
      (Handler.mk params0 .Ok (some 15),
       [.LimitUpdates [⟨.Bid, 110, 5000⟩], .LimitUpdates [⟨.Ask, 210, 2000⟩]],
       false) :=
  ⟨rfl, by
    rw [C2_snapshot_reconciliation
      (Handler.mk params0
        (.Waiting [⟨12, [⟨.Ask, 200, 1000⟩]⟩, ⟨15, [⟨.Ask, 210, 2000⟩]⟩])
        (some 15))
      ⟨13, [row1], []⟩
      [⟨12, [⟨.Ask, 200, 1000⟩]⟩, ⟨15, [⟨.Ask, 210, 2000⟩]⟩]
      [⟨.Bid, 110, 5000⟩] rfl (by decide)]
    decide⟩

/-- C8 (amended): for a venue trade message whose `p` and `q` convert, the
notification is a `Trade` with `price = to_ticks p`, `size = to_ticks q`,
`time = T`, `buyer_id = b`, `seller_id = a` — and nothing else: the
constructed record has no `maker_side` field, and the `m` flag does not
influence the output. -/
theorem C8_trade_normalization (h : Handler) (t : BinanceTrade) (p sz : Nat)
    (hq : h.params.size_tick.ticked t.q = some sz)
    (hp : h.params.price_tick.ticked t.p = some p) :
    parse_message h (.trade t) =
      (.ok (some (.Trade { size := sz, time := t.T, price := p,
                           buyer_id := t.b, seller_id := t.a })), h) := by
  simp only [parse_message, tickedE, hq, hp]
  rfl

/-- Closed witness for C8's amended statement at a concrete trade. -/
theorem C8_trade_normalization_witness :
    params0.size_tick.ticked trade1.q = some 5000 ∧
    params0.price_tick.ticked trade1.p = some 110 ∧
    parse_message hOk (.trade trade1) =
      (.ok (some (.Trade { size := 5000, time := 123, price := 110,
                           buyer_id := 7, seller_id := 8 })), hOk) :=
  ⟨by decide, by decide, C8_trade_normalization hOk trade1 110 5000 (by decide) (by decide)⟩

/-- C8 counterexample: the venue's `m` flag is parsed but never used — two
trade messages differing only in `m` produce identical notifications, so
the notification does not carry a `maker_side` taken from `m` (the
constructed `Trade` has no such field at all). -/
theorem C8_counterexample_m_ignored :
    trade1.m = true ∧ ({ trade1 with m := false } : BinanceTrade).m = false ∧
    parse_message hOk (.trade trade1) =
      parse_message hOk (.trade { trade1 with m := false }) := by
  decide

/-- C9 (amended): once the session is in the `Ok` snapshot state, messages
are delivered in arrival order: a coherent depth update followed by a trade
yields exactly the depth notification then the trade notification. -/
theorem C9_ok_state_order (h : Handler) (d : BinanceDepthUpdate) (t : BinanceTrade)
    (updates : List LimitUpdate) (p sz : Nat)
    (hok : h.book_snapshot_state = .Ok)
    (hseq : ∀ pu, h.previous_u = some pu → pu + 1 = d.U)
    (hconv : collectExcept
        ((d.b.map (fun l => convert_binance_update h.params l .Bid)) ++
         (d.a.map (fun l => convert_binance_update h.params l .Ask))) = .ok updates)
    (hq : h.params.size_tick.ticked t.q = some sz)
    (hp : h.params.price_tick.ticked t.p = some p) :
    (run h [.depthUpdate d, .trade t]).2 =
      [.LimitUpdates updates,
       .Trade { size := sz, time := t.T, price := p, buyer_id := t.b, seller_id := t.a }] := by
  have hdepth : parse_message h (.depthUpdate d) =
      (.ok (some (.LimitUpdates updates)), { h with previous_u := some d.u }) := by
    cases hpu : h.previous_u with
    | none => simp [parse_message, hpu, parse_depth, hconv]
    | some pu =>
      have := hseq pu hpu
      simp [parse_message, hpu, this, parse_depth, hconv]
  have htr : parse_message { h with previous_u := some d.u } (.trade t) =
      (.ok (some (.Trade { size := sz, time := t.T, price := p,
                           buyer_id := t.b, seller_id := t.a })),
       { h with previous_u := some d.u }) := by
    simp only [parse_message, tickedE, hq, hp]
    rfl
  rw [hok] at hdepth htr
  simp [run, on_message, hdepth, htr]

/-- Closed witness for C9's amended statement. -/
theorem C9_ok_state_order_witness :
    hOk.book_snapshot_state = .Ok ∧
    (run hOk [.depthUpdate { depthGap with U := 16, u := 16 }, .trade trade1]).2 =
      [.LimitUpdates [⟨.Bid, 110, 5000⟩],
       .Trade { size := 5000, time := 123, price := 110, buyer_id := 7, seller_id := 8 }] :=
  ⟨rfl, C9_ok_state_order hOk { depthGap with U := 16, u := 16 } trade1
    [⟨.Bid, 110, 5000⟩] 110 5000 rfl
    (fun pu hpu => by cases hpu; rfl) (by decide) (by decide) (by decide)⟩

/-- C9 counterexample: in the `Waiting` state a depth update is buffered
(nothing emitted) while a later trade passes straight through, so the
consumer receives the trade before the notification carrying the depth
update's changes — the order guarantee fails during the handshake. -/
theorem C9_counterexample_waiting_reorders :
    (on_message (Handler.mk params0 (.Waiting []) (some 15))
        (.depthUpdate { depthGap with U := 16, u := 16 })).2 = [] ∧
    (run (Handler.mk params0 (.Waiting []) (some 15))
        [.depthUpdate { depthGap with U := 16, u := 16 }, .trade trade1]).2 =
      [.Trade { size := 5000, time := 123, price := 110, buyer_id := 7, seller_id := 8 }] := by
  decide

/-- C10: if the coherence check passes but a price or size fails tick
conversion, `previous_u` has already advanced to the message's `u` when the
error comes back: the error and the advanced cursor appear together, the
updates are dropped with no notification, the session stays open, and the
next contiguous message (`U = u + 1`) passes the coherence check. -/
theorem C10_conversion_failure_advances_cursor (h : Handler) (d : BinanceDepthUpdate)
    (hseq : ∀ pu, h.previous_u = some pu → pu + 1 = d.U)
    (hconv : collectExcept
        ((d.b.map (fun l => convert_binance_update h.params l .Bid)) ++
         (d.a.map (fun l => convert_binance_update h.params l .Ask))) =
      .error .conversionError) :
    parse_message h (.depthUpdate d) =
      (.error .conversionError, { h with previous_u := some d.u }) ∧
    on_message h (.depthUpdate d) = ({ h with previous_u := some d.u }, []) ∧
    (∀ d2 : BinanceDepthUpdate, d2.U = d.u + 1 →
      parse_message { h with previous_u := some d.u } (.depthUpdate d2) =
        parse_depth { h with previous_u := some d.u } d2) := by
  have hparse : parse_message h (.depthUpdate d) =
      (.error .conversionError, { h with previous_u := some d.u }) := by
    cases hpu : h.previous_u with
    | none => simp [parse_message, hpu, parse_depth, hconv]
    | some pu =>
      have := hseq pu hpu
      simp [parse_message, hpu, this, parse_depth, hconv]
  refine ⟨hparse, ?_, ?_⟩
  · simp [on_message, hparse]
  · intro d2 hU
    simp [parse_message, hU]

/-- Closed witness for C10: cursor 15, message `U = 16, u = 17` with a
misaligned price; the cursor advances to 17 and `U = 18` then passes. -/
theorem C10_conversion_failure_advances_cursor_witness :
    collectExcept
        ((({ depthGap with U := 16, u := 17, b := [rowBad] } :
            BinanceDepthUpdate).b.map (fun l => convert_binance_update hOk.params l .Bid)) ++
         (({ depthGap with U := 16, u := 17, b := [rowBad] } :
            BinanceDepthUpdate).a.map (fun l => convert_binance_update hOk.params l .Ask))) =
      .error .conversionError ∧
    parse_message hOk (.depthUpdate { depthGap with U := 16, u := 17, b := [rowBad] }) =
      (.error .conversionError, { hOk with previous_u := some 17 }) ∧
    on_message hOk (.depthUpdate { depthGap with U := 16, u := 17, b := [rowBad] }) =
      ({ hOk with previous_u := some 17 }, []) :=
  ⟨by decide,
   (C10_conversion_failure_advances_cursor hOk
      { depthGap with U := 16, u := 17, b := [rowBad] }
      (fun pu hpu => by cases hpu; rfl) (by decide)).1,
   (C10_conversion_failure_advances_cursor hOk
      { depthGap with U := 16, u := 17, b := [rowBad] }
      (fun pu hpu => by cases hpu; rfl) (by decide)).2.1⟩

/-! ### Matching engine

Embedded from `src/matching_engine/mod.rs`.  `Price` is an unsigned machine
integer (`Price::max_value()` is the "no ask" sentinel); modelled as `Nat`
with `PMAX = 2^64 - 1`.  The two places whose machine arithmetic could wrap
(`order.price + 1` / `order.price - 1` in `exec_range`, for orders at the
ends of the price domain) are modelled with `Nat` truncated subtraction; the
wrapped-arithmetic variant and its agreement with this model on
boundary-valid orders is claim C6.  The arena module is not among the
sources and is modelled from spec §4.A. -/

namespace ME

/- The source aliases `Price`, `TraderId`, `EntryId` and arena `Index`
(their defining module is not among the sources; `Price::max_value()` and
the `usize` uses fix them as unsigned machine integers) are all written
`Nat` here. -/

/-- Modelled from the spec: the crate root defining `Price` is not among the
sources; spec §3 makes it a u64, so `Price::max_value()` — the "no ask"
sentinel — is `2^64 - 1`. -/
def PMAX : Nat := 2 ^ 64 - 1

/-- Side of an order (matching_engine's own enum). -/
inductive Side where
  | Buy
  | Sell
deriving DecidableEq

/-- An order (mod.rs:21-33). -/
structure Order where
  price : Nat
  size : Nat
  side : Side
  owner : Nat
deriving DecidableEq

/-- The boundary contract on orders (spec §3/§7): positive size, price
strictly inside the sentinel range. -/
def validOrder (o : Order) : Prop := 0 < o.size ∧ 0 < o.price ∧ o.price < PMAX

instance (o : Order) : Decidable (validOrder o) := by
  unfold validOrder
  infer_instance

/-- A limit order resting in the book (mod.rs:40-49). -/
structure BookEntry where
  size : Nat
  next : Option Nat
  id : Nat
deriving DecidableEq

/-- Pointers to begin and end of a book-entry list (mod.rs:53-56). -/
structure Link where
  head : Nat
  tail : Nat
deriving DecidableEq

/-- A price limit of the order book (mod.rs:60-64): `link = none` means the
limit is empty. -/
structure PriceLimit where
  link : Option Link
deriving DecidableEq

/-- Modelled from the spec: the arena module (`matching_engine/arena.rs`) is
not among the sources; spec §4.A fixes it: a growable indexed pool with O(1)
alloc/free, freed slots reused through a free list.  A slot holds `none`
when free; `get` on a freed or out-of-range index (undefined behavior in the
spec) totalizes to `none`. -/
structure Arena (α : Type) where
  slots : List (Option α)
  freeList : List Nat
deriving DecidableEq

namespace Arena

/-- Fresh arena (`capacity` only pre-allocates; semantically irrelevant). -/
def new (α : Type) (capacity : Nat) : Arena α := ⟨[], []⟩

def get (a : Arena α) (i : Nat) : Option α := a.slots.getD i none

def set (a : Arena α) (i : Nat) (v : α) : Arena α :=
  { a with slots := a.slots.set i (some v) }

def alloc (a : Arena α) (v : α) : Nat × Arena α :=
  match a.freeList with
  | i :: rest => (i, { slots := a.slots.set i (some v), freeList := rest })
  | [] => (a.slots.length, { slots := a.slots ++ [some v], freeList := [] })

def free (a : Arena α) (i : Nat) : Arena α :=
  { slots := a.slots.set i none, freeList := i :: a.freeList }

end Arena

abbrev BookEntries := Arena BookEntry

/-- The ordered price map (`BTreeMap<Nat, PriceLimit>`): an association
list kept sorted strictly ascending by price. -/
abbrev PriceLimits := List (Nat × PriceLimit)

namespace PriceLimits

/-- Key lookup (`BTreeMap::get`). -/
def get (pl : PriceLimits) (p : Nat) : Option PriceLimit :=
  match pl with
  | [] => none
  | r :: rest => if r.1 = p then some r.2 else get rest p

/-- Replace the value at an existing key (in-place mutation through
`range_mut`/`get_mut`). -/
def setVal (pl : PriceLimits) (p : Nat) (l : PriceLimit) : PriceLimits :=
  pl.map (fun q => if q.1 = p then (p, l) else q)

/-- Sorted insertion of a fresh key (`entry(..).or_insert_with` when the
key is absent). -/
def insertSorted (pl : PriceLimits) (p : Nat) (l : PriceLimit) : PriceLimits :=
  match pl with
  | [] => [(p, l)]
  | r :: rest =>
    if p < r.1 then (p, l) :: r :: rest
    else if p = r.1 then (p, l) :: rest
    else r :: insertSorted rest p l

/-- The keys in the inclusive range `[lo, hi]`, in map (ascending) order
(`range_mut((Included lo, Included hi))`). -/
def rangeKeys (pl : PriceLimits) (lo hi : Nat) : List Nat :=
  (pl.filter (fun q => decide (lo ≤ q.1) && decide (q.1 ≤ hi))).map (fun q => q.1)

/-- First key in `[lo, hi]` (ascending) whose limit is non-empty
(the best-ask repair's `find`). -/
def findBestAsc (pl : PriceLimits) (lo hi : Nat) : Option Nat :=
  ((pl.filter (fun q => decide (lo ≤ q.1) && decide (q.1 ≤ hi))).find?
    (fun q => q.2.link.isSome)).map (fun q => q.1)

/-- Last key in `[lo, hi]` (descending scan) whose limit is non-empty
(the best-bid repair's `rev().find`). -/
def findBestDesc (pl : PriceLimits) (lo hi : Nat) : Option Nat :=
  (((pl.filter (fun q => decide (lo ≤ q.1) && decide (q.1 ≤ hi))).reverse).find?
    (fun q => q.2.link.isSome)).map (fun q => q.1)

end PriceLimits

/-- Result of crossing through a range of limits (mod.rs:88-91). -/
inductive ExecResult where
  | Filled (order : Order)
  | NotExecuted
deriving DecidableEq

/-- One pass of `Executor::exec` (mod.rs:107-129): walk the entry list from
an index, consuming entries head-first; exhausted entries are zeroed and
freed; a partially consumed entry stops the walk.  `fuel` bounds the walk —
for the well-formed states reachable by the engine the chain is acyclic and
shorter than the slot count, so the fuel is never exhausted. -/
def execGo (a : BookEntries) : Nat → Option Nat → Order →
    Option Nat × Order × BookEntries
  | _, none, order => (none, order, a)
  | 0, some i, order => (some i, order, a)
  | fuel + 1, some index, order =>
    match a.get index with
    | none => (some index, order, a)
    | some entry =>
      if entry.size ≤ order.size then
        execGo ((a.set index { entry with size := 0 }).free index) fuel entry.next
          { order with size := order.size - entry.size }
      else
        (some index, { order with size := 0 },
         a.set index { entry with size := entry.size - order.size })

/-- Cross an order through one price limit (mod.rs:107-129). -/
def exec (a : BookEntries) (link : Link) (order : Order) :
    Option Nat × Order × BookEntries :=
  execGo a a.slots.length (some link.head) order

/-- The u64 `+ 1` / usize `- 1` at the end of `exec_range` (mod.rs:165-168),
in ideal `Nat` arithmetic (truncated subtraction).  Claim C6 relates this to
the machine's wrapping semantics. -/
def exitPrice (order : Order) : Nat :=
  match order.side with
  | .Buy => order.price + 1
  | .Sell => order.price - 1

/-- `Executor::exec_range` (mod.rs:137-169) over the key list of the range:
for each non-empty limit, cross; if the crossing stopped inside the list,
update the limit's head and return its price; otherwise mark the limit
empty and continue.  Falling off the range returns `exitPrice`. -/
def execRangeGo (a : BookEntries) (order : Order) (res : ExecResult)
    (prices : List Nat) (pl : PriceLimits) :
    Nat × ExecResult × BookEntries × PriceLimits :=
  match prices with
  | [] => (exitPrice order, res, a, pl)
  | p :: rest =>
    match PriceLimits.get pl p with
    | none => execRangeGo a order res rest pl
    | some lim =>
      match lim.link with
      | none => execRangeGo a order res rest pl
      | some link =>
        match exec a link order with
        | (maybeIndex, order2, a2) =>
          match maybeIndex with
          | some index =>
            (p, .Filled order2, a2,
             PriceLimits.setVal pl p { link := some { head := index, tail := link.tail } })
          | none =>
            execRangeGo a2 order2 (.Filled order2) rest
              (PriceLimits.setVal pl p { link := none })

/-- The matching engine (mod.rs:71-85). -/
structure MatchingEngine where
  price_limits : PriceLimits
  entries : BookEntries
  best_bid : Nat
  best_ask : Nat
  max_entry_id : Nat
deriving DecidableEq

namespace MatchingEngine

/-- `MatchingEngine::new` (mod.rs:174-182). -/
def new (capacity : Nat) : MatchingEngine :=
  { price_limits := [], entries := Arena.new BookEntry capacity,
    best_bid := 0, best_ask := PMAX, max_entry_id := 0 }

/-- `best_limits` (mod.rs:185-187). -/
def best_limits (me : MatchingEngine) : Nat × Nat := (me.best_bid, me.best_ask)

/-- Chain walk summing entry sizes (mod.rs:197-211), fueled like `execGo`. -/
def sizeAtLimitGo (a : BookEntries) : Nat → Option Nat → Nat
  | _, none => 0
  | 0, some _ => 0
  | fuel + 1, some i =>
    match a.get i with
    | none => 0
    | some e => e.size + sizeAtLimitGo a fuel e.next

/-- `size_at_limit` (mod.rs:197-211). -/
def size_at_limit (me : MatchingEngine) (limit : PriceLimit) : Nat :=
  match limit.link with
  | some link => sizeAtLimitGo me.entries me.entries.slots.length (some link.head)
  | none => 0

/-- `size_at_price` (mod.rs:189-194). -/
def size_at_price (me : MatchingEngine) (price : Nat) : Nat :=
  match PriceLimits.get me.price_limits price with
  | some limit => me.size_at_limit limit
  | none => 0

/-- `insert_order` (mod.rs:214-251): allocate the entry with the next id,
append it at the tail of its price limit (creating the limit if needed),
and raise the touched best limit.  The `usize` id increment is modelled
unwrapped: it cannot overflow in any feasible run. -/
def insert_order (me : MatchingEngine) (order : Order) : Nat × MatchingEngine :=
  let id := me.max_entry_id
  let av := me.entries.alloc { size := order.size, next := none, id := id }
  let index := av.1
  let entries := av.2
  let max_entry_id := me.max_entry_id + 1
  let pl :=
    match PriceLimits.get me.price_limits order.price with
    | some _ => me.price_limits
    | none => PriceLimits.insertSorted me.price_limits order.price { link := none }
  let lim := (PriceLimits.get pl order.price).getD { link := none }
  let ep :=
    match lim.link with
    | some link =>
      ((match entries.get link.tail with
        | some tailEntry => entries.set link.tail { tailEntry with next := some index }
        | none => entries),
       PriceLimits.setVal pl order.price { link := some { head := link.head, tail := index } })
    | none =>
      (entries, PriceLimits.setVal pl order.price { link := some { head := index, tail := index } })
  let best_bid :=
    match order.side with
    | .Buy => if me.best_bid < order.price then order.price else me.best_bid
    | .Sell => me.best_bid
  let best_ask :=
    match order.side with
    | .Sell => if order.price < me.best_ask then order.price else me.best_ask
    | .Buy => me.best_ask
  (id, { price_limits := ep.2, entries := ep.1, best_bid := best_bid,
         best_ask := best_ask, max_entry_id := max_entry_id })

/-- `limit` (mod.rs:255-311): match a marketable order against the opposite
range, repair the crossed side's best limit, insert any remainder. -/
def limit (me : MatchingEngine) (order : Order) : Option Nat × MatchingEngine :=
  let step :=
    match order.side with
    | .Buy =>
      if me.best_ask ≤ order.price then
        execRangeGo me.entries order .NotExecuted
          (PriceLimits.rangeKeys me.price_limits me.best_ask order.price) me.price_limits
      else (0, .NotExecuted, me.entries, me.price_limits)
    | .Sell =>
      if order.price ≤ me.best_bid then
        execRangeGo me.entries order .NotExecuted
          ((PriceLimits.rangeKeys me.price_limits order.price me.best_bid).reverse)
          me.price_limits
      else (0, .NotExecuted, me.entries, me.price_limits)
  let new_price := step.1
  let exec_result := step.2.1
  let me1 : MatchingEngine := { me with entries := step.2.2.1, price_limits := step.2.2.2 }
  match exec_result with
  | .NotExecuted =>
    let im := insert_order me1 order
    (some im.1, im.2)
  | .Filled updated_order =>
    let me2 :=
      match order.side with
      | .Buy =>
        match PriceLimits.findBestAsc me1.price_limits new_price PMAX with
        | some best_price => { me1 with best_ask := best_price }
        | none => { me1 with best_ask := PMAX }
      | .Sell =>
        match PriceLimits.findBestDesc me1.price_limits 0 new_price with
        | some best_price => { me1 with best_bid := best_price }
        | none => { me1 with best_bid := 0 }
    if 0 < updated_order.size then
      let im := insert_order me2 updated_order
      (some im.1, im.2)
    else (none, me2)

end MatchingEngine

/-! ### Matching engine: chain extraction

A per-limit entry list is a chain of arena indices following `next`.
`chainGo` extracts it with the same fuel discipline as `execGo`; success
implies the walk terminates, which (since `next` is a function of the slot)
implies the chain has no duplicates. -/

def chainGo (a : BookEntries) : Nat → Option Nat → Option (List Nat)
  | _, none => some []
  | 0, some _ => none
  | fuel + 1, some i =>
    match a.get i with
    | none => none
    | some e => (chainGo a fuel e.next).map (fun c => i :: c)

/-- The chain from a head pointer, with the canonical fuel. -/
def chain (a : BookEntries) (mi : Option Nat) : Option (List Nat) :=
  chainGo a a.slots.length mi

theorem chainGo_none (a : BookEntries) (fuel : Nat) : chainGo a fuel none = some [] := by
  cases fuel <;> rfl

theorem chainGo_cons_inv {a : BookEntries} {fuel : Nat} {i : Nat} {c : List Nat}
    (h : chainGo a fuel (some i) = some c) :
    ∃ f0 e c0, fuel = f0 + 1 ∧ a.get i = some e ∧ chainGo a f0 e.next = some c0 ∧
      c = i :: c0 := by
  cases fuel with
  | zero => simp [chainGo] at h
  | succ f0 =>
    rw [chainGo] at h
    cases hg : a.get i with
    | none => rw [hg] at h; simp at h
    | some e =>
      rw [hg] at h
      simp only [Option.map_eq_some'] at h
      obtain ⟨c0, hc, hcc⟩ := h
      exact ⟨f0, e, c0, rfl, rfl, hc, hcc.symm⟩

theorem chainGo_fuel_mono {a : BookEntries} {f1 f2 : Nat} {mi : Option Nat}
    {c : List Nat} (hf : f1 ≤ f2) (h : chainGo a f1 mi = some c) :
    chainGo a f2 mi = some c := by
  induction f1 generalizing f2 mi c with
  | zero =>
    cases mi with
    | none => rw [chainGo_none] at h; rw [chainGo_none]; exact h
    | some i => exact absurd h (by simp [chainGo])
  | succ f1 ih =>
    cases mi with
    | none => rw [chainGo_none] at h; rw [chainGo_none]; exact h
    | some i =>
      obtain ⟨f0, e, c0, hf0, hg, hc, rfl⟩ := chainGo_cons_inv h
      have hf0e : f0 = f1 := by omega
      subst hf0e
      obtain ⟨f2m, rfl⟩ : ∃ k, f2 = k + 1 := ⟨f2 - 1, by omega⟩
      have h2 : chainGo a f2m e.next = some c0 := ih (by omega) hc
      simp [chainGo, hg, h2]

theorem chainGo_deterministic {a : BookEntries} {f1 f2 : Nat} {mi : Option Nat}
    {c1 c2 : List Nat} (h1 : chainGo a f1 mi = some c1) (h2 : chainGo a f2 mi = some c2) :
    c1 = c2 := by
  rcases le_total f1 f2 with hf | hf
  · have h3 := chainGo_fuel_mono hf h1
    rw [h3] at h2
    exact Option.some.inj h2
  · have h3 := chainGo_fuel_mono hf h2
    rw [h3] at h1
    exact (Option.some.inj h1).symm

theorem chainGo_head {a : BookEntries} {fuel : Nat} {mi : Option Nat} {c : List Nat}
    (h : chainGo a fuel mi = some c) : mi = c.head? := by
  cases mi with
  | none => rw [chainGo_none] at h; cases h; rfl
  | some i =>
    obtain ⟨f0, e, c0, rfl, hg, hc, rfl⟩ := chainGo_cons_inv h
    rfl

theorem chainGo_mem_get {a : BookEntries} {fuel : Nat} {mi : Option Nat} {c : List Nat}
    (h : chainGo a fuel mi = some c) {x : Nat} (hx : x ∈ c) : ∃ e, a.get x = some e := by
  induction fuel generalizing mi c with
  | zero =>
    cases mi with
    | none => rw [chainGo_none] at h; cases h; simp at hx
    | some i => exact absurd h (by simp [chainGo])
  | succ fuel ih =>
    cases mi with
    | none => rw [chainGo_none] at h; cases h; simp at hx
    | some i =>
      obtain ⟨f0, e, c0, hf, hg, hc, rfl⟩ := chainGo_cons_inv h
      cases hf
      rcases List.mem_cons.mp hx with rfl | hx0
      · exact ⟨e, hg⟩
      · exact ih hc hx0

theorem chainGo_mem_lt {a : BookEntries} {fuel : Nat} {mi : Option Nat} {c : List Nat}
    (h : chainGo a fuel mi = some c) {x : Nat} (hx : x ∈ c) : x < a.slots.length := by
  obtain ⟨e, he⟩ := chainGo_mem_get h hx
  by_contra hge
  push_neg at hge
  rw [Arena.get, List.getD_eq_getElem?_getD, List.getElem?_eq_none hge] at he
  simp at he

theorem chainGo_mem_suffix {a : BookEntries} {fuel : Nat} {mi : Option Nat} {c : List Nat}
    (h : chainGo a fuel mi = some c) {x : Nat} (hx : x ∈ c) :
    ∃ f2 c2, f2 ≤ fuel ∧ chainGo a f2 (some x) = some c2 ∧ c2.length ≤ c.length := by
  induction fuel generalizing mi c with
  | zero =>
    cases mi with
    | none => rw [chainGo_none] at h; cases h; simp at hx
    | some i => exact absurd h (by simp [chainGo])
  | succ fuel ih =>
    cases mi with
    | none => rw [chainGo_none] at h; cases h; simp at hx
    | some i =>
      obtain ⟨f0, e, c0, hf, hg, hc, rfl⟩ := chainGo_cons_inv h
      cases hf
      rcases List.mem_cons.mp hx with rfl | hx0
      · exact ⟨fuel + 1, x :: c0, le_rfl, h, le_rfl⟩
      · obtain ⟨f2, c2, hf2, hc2, hl2⟩ := ih hc hx0
        exact ⟨f2, c2, by omega, hc2, by simpa using Nat.le_succ_of_le hl2⟩

theorem chainGo_nodup {a : BookEntries} {fuel : Nat} {mi : Option Nat} {c : List Nat}
    (h : chainGo a fuel mi = some c) : c.Nodup := by
  induction fuel generalizing mi c with
  | zero =>
    cases mi with
    | none => rw [chainGo_none] at h; cases h; simp
    | some i => exact absurd h (by simp [chainGo])
  | succ fuel ih =>
    cases mi with
    | none => rw [chainGo_none] at h; cases h; simp
    | some i =>
      obtain ⟨f0, e, c0, hf, hg, hc, rfl⟩ := chainGo_cons_inv h
      cases hf
      refine List.nodup_cons.mpr ⟨?_, ih hc⟩
      intro hmem
      obtain ⟨f2, c2, hf2, hc2, hl2⟩ := chainGo_mem_suffix hc hmem
      have := chainGo_deterministic (chainGo_fuel_mono (by omega : f2 ≤ fuel + 1) hc2) h
      subst this
      simp at hl2

theorem chainGo_frame {a a2 : BookEntries} {fuel : Nat} {mi : Option Nat} {c : List Nat}
    (h : chainGo a fuel mi = some c) (hsame : ∀ j ∈ c, a2.get j = a.get j) :
    chainGo a2 fuel mi = some c := by
  induction fuel generalizing mi c with
  | zero =>
    cases mi with
    | none => rw [chainGo_none] at h ⊢; exact h
    | some i => exact absurd h (by simp [chainGo])
  | succ fuel ih =>
    cases mi with
    | none => rw [chainGo_none] at h ⊢; exact h
    | some i =>
      obtain ⟨f0, e, c0, hf, hg, hc, rfl⟩ := chainGo_cons_inv h
      cases hf
      have hg2 : a2.get i = some e := by rw [hsame i (by simp), hg]
      have hrest : chainGo a2 fuel e.next = some c0 :=
        ih hc (fun j hj => hsame j (List.mem_cons_of_mem _ hj))
      simp [chainGo, hg2, hrest]

theorem chainGo_drop {a : BookEntries} {fuel : Nat} {mi : Option Nat} {c : List Nat}
    (h : chainGo a fuel mi = some c) (k : Nat) :
    chainGo a (fuel - k) ((c.drop k).head?) = some (c.drop k) := by
  induction k generalizing fuel mi c with
  | zero =>
    rw [Nat.sub_zero, List.drop_zero, ← chainGo_head h]
    exact h
  | succ k ih =>
    cases c with
    | nil => rw [List.drop_nil]; exact chainGo_none a _
    | cons i c0 =>
      have hmi : mi = some i := by rw [chainGo_head h]; rfl
      subst hmi
      obtain ⟨f0, e, c0x, hf, hg, hc, hcc⟩ := chainGo_cons_inv h
      have hcx : c0x = c0 := by injection hcc with h1 h2; exact h2.symm
      subst hcx
      subst hf
      rw [List.drop_succ_cons, show f0 + 1 - (k + 1) = f0 - k by omega]
      exact ih hc

/-! ### Arena primitive lemmas -/

theorem Arena.length_set (a : BookEntries) (i : Nat) (v : BookEntry) :
    (a.set i v).slots.length = a.slots.length := by
  simp [Arena.set]

theorem Arena.length_free (a : BookEntries) (i : Nat) :
    (a.free i).slots.length = a.slots.length := by
  simp [Arena.free]

theorem Arena.get_set_self {a : BookEntries} {i : Nat} (hi : i < a.slots.length)
    (v : BookEntry) : (a.set i v).get i = some v := by
  simp [Arena.set, Arena.get, List.getD_eq_getElem?_getD, List.getElem?_set_self hi]

theorem Arena.get_set_ne (a : BookEntries) {i j : Nat} (hne : j ≠ i) (v : BookEntry) :
    (a.set i v).get j = a.get j := by
  simp [Arena.set, Arena.get, List.getD_eq_getElem?_getD, List.getElem?_set_ne (Ne.symm hne)]

theorem Arena.get_free_self (a : BookEntries) (i : Nat) : (a.free i).get i = none := by
  by_cases hi : i < a.slots.length
  · simp [Arena.free, Arena.get, List.getD_eq_getElem?_getD, List.getElem?_set_self hi]
  · simp only [Arena.free, Arena.get, List.getD_eq_getElem?_getD]
    rw [List.getElem?_eq_none (by simpa using hi)]
    rfl

theorem Arena.get_free_ne (a : BookEntries) {i j : Nat} (hne : j ≠ i) :
    (a.free i).get j = a.get j := by
  simp [Arena.free, Arena.get, List.getD_eq_getElem?_getD, List.getElem?_set_ne (Ne.symm hne)]

theorem Arena.set_free_collapse (a : BookEntries) (i : Nat) (v : BookEntry) :
    (a.set i v).free i = a.free i := by
  simp [Arena.set, Arena.free, List.set_set]

/-- Free a list of indices, in order. -/
def freeAll (a : BookEntries) (idxs : List Nat) : BookEntries :=
  idxs.foldl Arena.free a

theorem freeAll_nil (a : BookEntries) : freeAll a [] = a := rfl

theorem freeAll_cons (a : BookEntries) (i : Nat) (idxs : List Nat) :
    freeAll a (i :: idxs) = freeAll (a.free i) idxs := rfl

theorem freeAll_length (a : BookEntries) (idxs : List Nat) :
    (freeAll a idxs).slots.length = a.slots.length := by
  induction idxs generalizing a with
  | nil => rfl
  | cons i idxs ih => rw [freeAll_cons, ih, Arena.length_free]

theorem freeAll_get_not_mem {a : BookEntries} {idxs : List Nat} {x : Nat}
    (hx : x ∉ idxs) : (freeAll a idxs).get x = a.get x := by
  induction idxs generalizing a with
  | nil => rfl
  | cons i idxs ih =>
    rw [List.mem_cons, not_or] at hx
    rw [freeAll_cons, ih hx.2, Arena.get_free_ne a hx.1]

theorem freeAll_get_mem {a : BookEntries} {idxs : List Nat} {x : Nat}
    (hnd : idxs.Nodup) (hx : x ∈ idxs) : (freeAll a idxs).get x = none := by
  induction idxs generalizing a with
  | nil => simp at hx
  | cons i idxs ih =>
    rw [List.nodup_cons] at hnd
    rcases List.mem_cons.mp hx with rfl | hx0
    · rw [freeAll_cons, freeAll_get_not_mem hnd.1, Arena.get_free_self]
    · rw [freeAll_cons, ih hnd.2 hx0]

theorem freeAll_freeList (a : BookEntries) (idxs : List Nat) :
    (freeAll a idxs).freeList = idxs.reverse ++ a.freeList := by
  induction idxs generalizing a with
  | nil => rfl
  | cons i idxs ih =>
    rw [freeAll_cons, ih]
    simp [Arena.free]

/-- Total entry size along a list of indices. -/
def sizeSum (a : BookEntries) (c : List Nat) : Nat :=
  (c.filterMap (fun i => (a.get i).map (fun e => e.size))).sum

theorem sizeSum_nil (a : BookEntries) : sizeSum a [] = 0 := rfl

theorem sizeSum_cons {a : BookEntries} {i : Nat} {e : BookEntry} (hg : a.get i = some e)
    (c : List Nat) : sizeSum a (i :: c) = e.size + sizeSum a c := by
  simp [sizeSum, hg]

theorem sizeSum_congr {a a2 : BookEntries} {c : List Nat}
    (h : ∀ x ∈ c, a2.get x = a.get x) : sizeSum a2 c = sizeSum a c := by
  unfold sizeSum
  congr 1
  apply List.filterMap_congr
  intro x hx
  rw [h x hx]

theorem sizeSum_append (a : BookEntries) (c1 c2 : List Nat) :
    sizeSum a (c1 ++ c2) = sizeSum a c1 + sizeSum a c2 := by
  simp [sizeSum]

/-! ### The crossing walk characterized on the chain

Given the chain of a limit, `execGo` either consumes the whole chain
(freeing every entry, returning the leftover order size) or stops at the
first entry the cumulative size cannot cover (freeing the strict prefix and
shrinking that entry). -/

theorem execGo_spec {fuel : Nat} {a : BookEntries} {mi : Option Nat} {c : List Nat}
    (order : Order) (hc : chainGo a fuel mi = some c) :
    (sizeSum a c ≤ order.size →
      execGo a fuel mi order =
        (none, { order with size := order.size - sizeSum a c }, freeAll a c)) ∧
    (order.size < sizeSum a c →
      ∃ pre j suf e,
        c = pre ++ j :: suf ∧
        a.get j = some e ∧
        sizeSum a pre ≤ order.size ∧
        order.size - sizeSum a pre < e.size ∧
        execGo a fuel mi order =
          (some j, { order with size := 0 },
           (freeAll a pre).set j { e with size := e.size - (order.size - sizeSum a pre) })) := by
  induction fuel generalizing a mi c order with
  | zero =>
    cases mi with
    | none =>
      rw [chainGo_none] at hc
      cases hc
      constructor
      · intro h
        simp [execGo, sizeSum_nil, freeAll_nil]
      · intro h
        rw [sizeSum_nil] at h
        omega
    | some i => exact absurd hc (by simp [chainGo])
  | succ fuel ih =>
    cases mi with
    | none =>
      rw [chainGo_none] at hc
      cases hc
      constructor
      · intro h
        simp [execGo, sizeSum_nil, freeAll_nil]
      · intro h
        rw [sizeSum_nil] at h
        omega
    | some i =>
      obtain ⟨f0, e, c0, hf, hg, hc0, rfl⟩ := chainGo_cons_inv hc
      obtain rfl : fuel = f0 := by omega
      have hnd := chainGo_nodup hc
      have hinotc0 : i ∉ c0 := (List.nodup_cons.mp hnd).1
      have hssc : sizeSum a (i :: c0) = e.size + sizeSum a c0 := sizeSum_cons hg c0
      by_cases hle : e.size ≤ order.size
      · have hcoll : (a.set i { e with size := 0 }).free i = a.free i :=
          Arena.set_free_collapse a i _
        have hsame : ∀ j ∈ c0, (a.free i).get j = a.get j := fun j hj =>
          Arena.get_free_ne a (fun hji => hinotc0 (hji ▸ hj))
        have hc0f : chainGo (a.free i) fuel e.next = some c0 := chainGo_frame hc0 hsame
        have hss0 : sizeSum (a.free i) c0 = sizeSum a c0 := sizeSum_congr hsame
        have hexec : execGo a (fuel + 1) (some i) order =
            execGo (a.free i) fuel e.next { order with size := order.size - e.size } := by
          simp [execGo, hg, if_pos hle, hcoll]
        obtain ⟨ihall, ihstop⟩ := ih { order with size := order.size - e.size } hc0f
        constructor
        · intro htot
          rw [hssc] at htot
          have h1 : sizeSum (a.free i) c0 ≤ order.size - e.size := by rw [hss0]; omega
          rw [hexec, ihall h1]
          have harith : order.size - e.size - sizeSum (a.free i) c0
              = order.size - sizeSum a (i :: c0) := by rw [hss0, hssc]; omega
          rw [show freeAll a (i :: c0) = freeAll (a.free i) c0 from rfl]
          simp [harith]
        · intro hlt
          rw [hssc] at hlt
          have h2 : ({ order with size := order.size - e.size } : Order).size
              < sizeSum (a.free i) c0 := by
            simp only [hss0]
            omega
          obtain ⟨pre0, j, suf, e2, hdec, hgj, hpre, hrem, hres⟩ := ihstop h2
          have hjc0 : j ∈ c0 := by rw [hdec]; simp
          have hjnei : j ≠ i := fun hji => hinotc0 (hji ▸ hjc0)
          have hprec0 : ∀ x ∈ pre0, x ∈ c0 := fun x hx => by rw [hdec]; simp [hx]
          have hgja : a.get j = some e2 := by
            rw [Arena.get_free_ne a hjnei] at hgj
            exact hgj
          have hsspre : sizeSum (a.free i) pre0 = sizeSum a pre0 :=
            sizeSum_congr (fun x hx => hsame x (hprec0 x hx))
          have hsspre2 : sizeSum a (i :: pre0) = e.size + sizeSum a pre0 := sizeSum_cons hg pre0
          simp only [hsspre] at hpre hrem hres
          refine ⟨i :: pre0, j, suf, e2, by simp [hdec], hgja, ?_, ?_, ?_⟩
          · rw [hsspre2]
            omega
          · rw [hsspre2]
            omega
          · rw [hexec, hres]
            have harith2 : order.size - e.size - sizeSum a pre0
                = order.size - sizeSum a (i :: pre0) := by rw [hsspre2]; omega
            rw [show freeAll a (i :: pre0) = freeAll (a.free i) pre0 from rfl]
            simp [harith2]
      · push_neg at hle
        have hexec : execGo a (fuel + 1) (some i) order =
            (some i, { order with size := 0 },
             a.set i { e with size := e.size - order.size }) := by
          simp [execGo, hg, if_neg (by omega : ¬ e.size ≤ order.size)]
        constructor
        · intro htot
          rw [hssc] at htot
          omega
        · intro hlt
          refine ⟨[], i, c0, e, by simp, hg, by simp [sizeSum_nil], ?_, ?_⟩
          · rw [sizeSum_nil]
            omega
          · rw [hexec]
            simp [freeAll_nil, sizeSum_nil]

/-! ### Sorted price-map lemmas -/

namespace PriceLimits

/-- The key list of the map. -/
def keys (pl : PriceLimits) : List Nat := pl.map (fun q => q.1)

theorem get_some_mem {pl : PriceLimits} {p : Nat} {lim : PriceLimit}
    (h : get pl p = some lim) : (p, lim) ∈ pl := by
  induction pl with
  | nil => simp [get] at h
  | cons q rest ih =>
    rw [get] at h
    by_cases hq : q.1 = p
    · rw [if_pos hq] at h
      have hql : q.2 = lim := Option.some.inj h
      have : (p, lim) = q := by rw [← hq, ← hql]
      rw [this]
      exact List.mem_cons_self q rest
    · rw [if_neg hq] at h
      exact List.mem_cons_of_mem _ (ih h)

theorem get_some_key {pl : PriceLimits} {p : Nat} {lim : PriceLimit}
    (h : get pl p = some lim) : p ∈ keys pl := by
  have := get_some_mem h
  exact List.mem_map.mpr ⟨(p, lim), this, rfl⟩

theorem get_none_iff {pl : PriceLimits} {p : Nat} :
    get pl p = none ↔ p ∉ keys pl := by
  induction pl with
  | nil => simp [get, keys]
  | cons q rest ih =>
    rw [get, keys, List.map_cons, List.mem_cons]
    by_cases hq : q.1 = p
    · simp [if_pos hq, hq]
    · rw [if_neg hq]
      rw [show (List.map (fun q => q.1) rest) = keys rest from rfl]
      rw [ih]
      constructor
      · intro h hk
        rcases hk with hk | hk
        · exact hq hk.symm
        · exact h hk
      · intro h hk
        exact h (Or.inr hk)

theorem get_mem_keys {pl : PriceLimits} {p : Nat} (h : p ∈ keys pl) :
    ∃ lim, get pl p = some lim := by
  cases hg : get pl p with
  | none => exact absurd h (get_none_iff.mp hg)
  | some lim => exact ⟨lim, rfl⟩

theorem keys_setVal (pl : PriceLimits) (p : Nat) (l : PriceLimit) :
    keys (setVal pl p l) = keys pl := by
  unfold keys setVal
  rw [List.map_map]
  apply List.map_congr_left
  intro q hq
  by_cases h : q.1 = p
  · simp [h]
  · simp [h]

theorem get_setVal_self {pl : PriceLimits} {p : Nat} (hp : p ∈ keys pl) (l : PriceLimit) :
    get (setVal pl p l) p = some l := by
  induction pl with
  | nil => simp [keys] at hp
  | cons q rest ih =>
    rw [keys, List.map_cons, List.mem_cons] at hp
    unfold setVal
    rw [List.map_cons]
    by_cases hq : q.1 = p
    · rw [if_pos hq, get, if_pos rfl]
    · rw [if_neg hq, get, if_neg hq]
      rcases hp with hp | hp
      · exact absurd hp.symm hq
      · exact ih hp

theorem get_setVal_ne {pl : PriceLimits} {p q : Nat} (hne : q ≠ p) (l : PriceLimit) :
    get (setVal pl p l) q = get pl q := by
  induction pl with
  | nil => rfl
  | cons r rest ih =>
    unfold setVal
    rw [List.map_cons]
    by_cases hr : r.1 = p
    · rw [if_pos hr, get, if_neg (fun h => hne (h.symm)), get,
        if_neg (fun h => hne ((hr ▸ h).symm))]
      exact ih
    · rw [if_neg hr, get, get]
      by_cases hrq : r.1 = q
      · rw [if_pos hrq, if_pos hrq]
      · rw [if_neg hrq, if_neg hrq]
        exact ih

theorem setVal_sorted {pl : PriceLimits} (hs : pl.Pairwise (fun x y => x.1 < y.1))
    (p : Nat) (l : PriceLimit) :
    (setVal pl p l).Pairwise (fun x y => x.1 < y.1) := by
  unfold setVal
  refine List.Pairwise.map _ ?_ hs
  intro x y h
  by_cases hx : x.1 = p
  · by_cases hy : y.1 = p
    · exact absurd h (by rw [hx, hy]; exact lt_irrefl p)
    · rw [if_pos hx, if_neg hy]
      exact hx ▸ h
  · by_cases hy : y.1 = p
    · rw [if_neg hx, if_pos hy]
      exact hy ▸ h
    · rw [if_neg hx, if_neg hy]
      exact h

theorem keys_insertSorted (pl : PriceLimits) (p : Nat) (l : PriceLimit) {q : Nat} :
    q ∈ keys (insertSorted pl p l) ↔ q = p ∨ q ∈ keys pl := by
  induction pl with
  | nil => simp [insertSorted, keys]
  | cons r rest ih =>
    unfold insertSorted
    by_cases h1 : p < r.1
    · rw [if_pos h1]
      simp only [keys, List.map_cons, List.mem_cons]
    · rw [if_neg h1]
      by_cases h2 : p = r.1
      · rw [if_pos h2]
        simp only [keys, List.map_cons, List.mem_cons, h2]
        rw [show (List.map (fun q => q.1) rest) = keys rest from rfl]
        tauto
      · rw [if_neg h2]
        simp only [keys, List.map_cons, List.mem_cons]
        rw [show (List.map (fun q => q.1) (insertSorted rest p l)) = keys (insertSorted rest p l) from rfl,
          show (List.map (fun q => q.1) rest) = keys rest from rfl, ih]
        tauto

theorem get_insertSorted_self (pl : PriceLimits) (p : Nat) (l : PriceLimit)
    (hp : p ∉ keys pl) : get (insertSorted pl p l) p = some l := by
  induction pl with
  | nil => simp [insertSorted, get]
  | cons r rest ih =>
    rw [keys, List.map_cons, List.mem_cons, not_or] at hp
    unfold insertSorted
    by_cases h1 : p < r.1
    · rw [if_pos h1, get, if_pos rfl]
    · rw [if_neg h1, if_neg (fun h => hp.1 h), get, if_neg (fun h => hp.1 h.symm)]
      exact ih hp.2

theorem get_insertSorted_ne (pl : PriceLimits) (p : Nat) (l : PriceLimit) {q : Nat}
    (hne : q ≠ p) : get (insertSorted pl p l) q = get pl q := by
  induction pl with
  | nil =>
    unfold insertSorted
    have hpl : ¬ (p, l).1 = q := fun h => hne h.symm
    simp [get, hpl]
  | cons r rest ih =>
    unfold insertSorted
    by_cases h1 : p < r.1
    · rw [if_pos h1, get, if_neg (fun h => hne h.symm)]
    · rw [if_neg h1]
      by_cases h2 : p = r.1
      · rw [if_pos h2, get, if_neg (fun h => hne h.symm), get,
          if_neg (fun h => hne (h2 ▸ h).symm)]
      · rw [if_neg h2, get, get]
        by_cases h3 : r.1 = q
        · rw [if_pos h3, if_pos h3]
        · rw [if_neg h3, if_neg h3]
          exact ih

theorem insertSorted_sorted {pl : PriceLimits} (hs : pl.Pairwise (fun x y => x.1 < y.1))
    {p : Nat} (hp : p ∉ keys pl) (l : PriceLimit) :
    (insertSorted pl p l).Pairwise (fun x y => x.1 < y.1) := by
  induction pl with
  | nil => simp [insertSorted]
  | cons r rest ih =>
    rw [keys, List.map_cons, List.mem_cons, not_or] at hp
    rw [List.pairwise_cons] at hs
    unfold insertSorted
    by_cases h1 : p < r.1
    · rw [if_pos h1, List.pairwise_cons]
      refine ⟨?_, List.pairwise_cons.mpr hs⟩
      intro x hx
      rcases List.mem_cons.mp hx with rfl | hx0
      · exact h1
      · exact lt_trans h1 (hs.1 x hx0)
    · rw [if_neg h1, if_neg (fun h => hp.1 h), List.pairwise_cons]
      constructor
      · intro x hx
        have hx2 : x.1 ∈ keys (insertSorted rest p l) := List.mem_map.mpr ⟨x, hx, rfl⟩
        rw [keys_insertSorted] at hx2
        rcases hx2 with hx2 | hx3
        · have hpr : ¬ p = r.1 := hp.1
          have h1n : ¬ p < r.1 := h1
          rw [hx2]
          omega
        · obtain ⟨lim2, hlim2⟩ := get_mem_keys hx3
          have hmem := get_some_mem hlim2
          have := hs.1 _ hmem
          simpa using this
      · exact ih hs.2 hp.2

theorem mem_get_of_sorted {pl : PriceLimits} (hs : pl.Pairwise (fun x y => x.1 < y.1))
    {p : Nat} {lim : PriceLimit} (h : (p, lim) ∈ pl) : get pl p = some lim := by
  induction pl with
  | nil => simp at h
  | cons r rest ih =>
    rw [List.pairwise_cons] at hs
    rcases List.mem_cons.mp h with rfl | h0
    · rw [get, if_pos rfl]
    · have hlt := hs.1 _ h0
      rw [get, if_neg (by simp at hlt; omega)]
      exact ih hs.2 h0

theorem mem_rangeKeys {pl : PriceLimits} {lo hi q : Nat} :
    q ∈ rangeKeys pl lo hi ↔ q ∈ keys pl ∧ lo ≤ q ∧ q ≤ hi := by
  unfold rangeKeys keys
  simp only [List.mem_map, List.mem_filter]
  constructor
  · rintro ⟨x, ⟨hx, hcond⟩, rfl⟩
    simp only [Bool.and_eq_true, decide_eq_true_eq] at hcond
    exact ⟨⟨x, hx, rfl⟩, hcond.1, hcond.2⟩
  · rintro ⟨⟨x, hx, rfl⟩, h1, h2⟩
    exact ⟨x, ⟨hx, by simp [h1, h2]⟩, rfl⟩

theorem rangeKeys_sorted {pl : PriceLimits} (hs : pl.Pairwise (fun x y => x.1 < y.1))
    (lo hi : Nat) : (rangeKeys pl lo hi).Pairwise (· < ·) := by
  unfold rangeKeys
  exact List.Pairwise.map _ (fun a b h => h) (hs.filter _)

theorem rangeKeys_setVal (pl : PriceLimits) (p : Nat) (l : PriceLimit) (lo hi : Nat) :
    rangeKeys (setVal pl p l) lo hi = rangeKeys pl lo hi := by
  induction pl with
  | nil => rfl
  | cons r rest ih =>
    unfold setVal at *
    unfold rangeKeys at *
    rw [List.map_cons]
    by_cases hr : r.1 = p
    · rw [if_pos hr]
      rw [List.filter_cons, List.filter_cons]
      have : (decide (lo ≤ (p, l).1) && decide ((p, l).1 ≤ hi))
          = (decide (lo ≤ r.1) && decide (r.1 ≤ hi)) := by rw [hr]
      rw [this]
      by_cases hc : (decide (lo ≤ r.1) && decide (r.1 ≤ hi)) = true
      · rw [if_pos hc, if_pos hc, List.map_cons, List.map_cons, ih]
        rw [show ((p, l).1 : Nat) = r.1 from hr.symm]
      · rw [if_neg hc, if_neg hc, ih]
    · rw [if_neg hr]
      rw [List.filter_cons, List.filter_cons]
      by_cases hc : (decide (lo ≤ r.1) && decide (r.1 ≤ hi)) = true
      · rw [if_pos hc, if_pos hc, List.map_cons, List.map_cons, ih]
      · rw [if_neg hc, if_neg hc, ih]

theorem find?_sorted_min {L : List (Nat × PriceLimit)}
    (hs : L.Pairwise (fun x y => x.1 < y.1)) {q : Nat × PriceLimit}
    (h : L.find? (fun x => x.2.link.isSome) = some q) :
    q ∈ L ∧ q.2.link.isSome = true ∧ ∀ r ∈ L, r.2.link.isSome = true → q.1 ≤ r.1 := by
  induction L with
  | nil => simp at h
  | cons x L ih =>
    rw [List.pairwise_cons] at hs
    by_cases hx : x.2.link.isSome = true
    · rw [List.find?_cons_of_pos (p := fun x => x.2.link.isSome) L hx] at h
      cases h
      refine ⟨by simp, hx, ?_⟩
      intro r hr hrs
      rcases List.mem_cons.mp hr with rfl | hr0
      · exact le_rfl
      · exact le_of_lt (hs.1 r hr0)
    · rw [List.find?_cons_of_neg (p := fun x => x.2.link.isSome) L (by simpa using hx)] at h
      obtain ⟨hq1, hq2, hq3⟩ := ih hs.2 h
      refine ⟨List.mem_cons_of_mem _ hq1, hq2, ?_⟩
      intro r hr hrs
      rcases List.mem_cons.mp hr with rfl | hr0
      · exact absurd hrs hx
      · exact hq3 r hr0 hrs

theorem find?_sorted_max {L : List (Nat × PriceLimit)}
    (hs : L.Pairwise (fun x y => y.1 < x.1)) {q : Nat × PriceLimit}
    (h : L.find? (fun x => x.2.link.isSome) = some q) :
    q ∈ L ∧ q.2.link.isSome = true ∧ ∀ r ∈ L, r.2.link.isSome = true → r.1 ≤ q.1 := by
  induction L with
  | nil => simp at h
  | cons x L ih =>
    rw [List.pairwise_cons] at hs
    by_cases hx : x.2.link.isSome = true
    · rw [List.find?_cons_of_pos (p := fun x => x.2.link.isSome) L hx] at h
      cases h
      refine ⟨by simp, hx, ?_⟩
      intro r hr hrs
      rcases List.mem_cons.mp hr with rfl | hr0
      · exact le_rfl
      · exact le_of_lt (hs.1 r hr0)
    · rw [List.find?_cons_of_neg (p := fun x => x.2.link.isSome) L (by simpa using hx)] at h
      obtain ⟨hq1, hq2, hq3⟩ := ih hs.2 h
      refine ⟨List.mem_cons_of_mem _ hq1, hq2, ?_⟩
      intro r hr hrs
      rcases List.mem_cons.mp hr with rfl | hr0
      · exact absurd hrs hx
      · exact hq3 r hr0 hrs

end PriceLimits

/-- The link of the limit at a price, `none` when the price is absent or
the limit empty. -/
def getLink (pl : PriceLimits) (p : Nat) : Option Link :=
  match PriceLimits.get pl p with
  | some lim => lim.link
  | none => none

theorem getLink_eq_some {pl : PriceLimits} {p : Nat} {lk : Link} :
    getLink pl p = some lk ↔ PriceLimits.get pl p = some { link := some lk } := by
  unfold getLink
  cases hg : PriceLimits.get pl p with
  | none => simp
  | some lim =>
    constructor
    · intro h
      congr 1
      cases lim
      cases h
      rfl
    · intro h
      rw [Option.some.inj h]

theorem getLink_ne_none {pl : PriceLimits} {p : Nat} (h : getLink pl p ≠ none) :
    ∃ lk, getLink pl p = some lk := by
  cases hg : getLink pl p with
  | none => exact absurd hg h
  | some lk => exact ⟨lk, rfl⟩

theorem findBestAsc_some {pl : PriceLimits} (hs : pl.Pairwise (fun x y => x.1 < y.1))
    {lo hi q : Nat} (h : PriceLimits.findBestAsc pl lo hi = some q) :
    lo ≤ q ∧ q ≤ hi ∧ getLink pl q ≠ none ∧
      ∀ r, lo ≤ r → r ≤ hi → r < q → getLink pl r = none := by
  unfold PriceLimits.findBestAsc at h
  rw [Option.map_eq_some'] at h
  obtain ⟨pr, hfind, rfl⟩ := h
  have hfs := PriceLimits.find?_sorted_min (hs.filter _) hfind
  obtain ⟨hmem, hsome, hmin⟩ := hfs
  rw [List.mem_filter] at hmem
  have hrange : lo ≤ pr.1 ∧ pr.1 ≤ hi := by
    have := hmem.2
    simp only [Bool.and_eq_true, decide_eq_true_eq] at this
    exact this
  have hget : PriceLimits.get pl pr.1 = some pr.2 :=
    PriceLimits.mem_get_of_sorted hs (by
      have := hmem.1
      exact (show ((pr.1, pr.2) : Nat × PriceLimit) = pr from rfl) ▸ this)
  refine ⟨hrange.1, hrange.2, ?_, ?_⟩
  · unfold getLink
    rw [hget]
    show pr.2.link ≠ none
    intro hnone
    rw [hnone] at hsome
    simp at hsome
  · intro r hlo hhi hlt
    by_contra hne
    obtain ⟨lk, hlk⟩ := getLink_ne_none hne
    rw [getLink_eq_some] at hlk
    have hmem2 : ((r, ({ link := some lk } : PriceLimit)) : Nat × PriceLimit) ∈
        pl.filter (fun q => decide (lo ≤ q.1) && decide (q.1 ≤ hi)) := by
      rw [List.mem_filter]
      exact ⟨PriceLimits.get_some_mem hlk, by simp [hlo, hhi]⟩
    have := hmin _ hmem2 (by simp)
    omega

theorem findBestAsc_none {pl : PriceLimits} {lo hi : Nat}
    (h : PriceLimits.findBestAsc pl lo hi = none) :
    ∀ r, lo ≤ r → r ≤ hi → getLink pl r = none := by
  intro r hlo hhi
  unfold PriceLimits.findBestAsc at h
  rw [Option.map_eq_none'] at h
  rw [List.find?_eq_none] at h
  by_contra hne
  obtain ⟨lk, hlk⟩ := getLink_ne_none hne
  rw [getLink_eq_some] at hlk
  have hmem2 : ((r, ({ link := some lk } : PriceLimit)) : Nat × PriceLimit) ∈
      pl.filter (fun q => decide (lo ≤ q.1) && decide (q.1 ≤ hi)) := by
    rw [List.mem_filter]
    exact ⟨PriceLimits.get_some_mem hlk, by simp [hlo, hhi]⟩
  exact absurd (by simp : ((r, ({ link := some lk } : PriceLimit)) : Nat × PriceLimit).2.link.isSome = true)
    (by simpa using h _ hmem2)

theorem findBestDesc_some {pl : PriceLimits} (hs : pl.Pairwise (fun x y => x.1 < y.1))
    {lo hi q : Nat} (h : PriceLimits.findBestDesc pl lo hi = some q) :
    lo ≤ q ∧ q ≤ hi ∧ getLink pl q ≠ none ∧
      ∀ r, lo ≤ r → r ≤ hi → q < r → getLink pl r = none := by
  unfold PriceLimits.findBestDesc at h
  rw [Option.map_eq_some'] at h
  obtain ⟨pr, hfind, rfl⟩ := h
  have hrs : (pl.filter (fun q => decide (lo ≤ q.1) && decide (q.1 ≤ hi))).reverse.Pairwise
      (fun x y => y.1 < x.1) := by
    rw [List.pairwise_reverse]
    exact hs.filter _
  have hfs := PriceLimits.find?_sorted_max hrs hfind
  obtain ⟨hmem, hsome, hmax⟩ := hfs
  rw [List.mem_reverse, List.mem_filter] at hmem
  have hrange : lo ≤ pr.1 ∧ pr.1 ≤ hi := by
    have := hmem.2
    simp only [Bool.and_eq_true, decide_eq_true_eq] at this
    exact this
  have hget : PriceLimits.get pl pr.1 = some pr.2 :=
    PriceLimits.mem_get_of_sorted hs hmem.1
  refine ⟨hrange.1, hrange.2, ?_, ?_⟩
  · unfold getLink
    rw [hget]
    show pr.2.link ≠ none
    intro hnone
    rw [hnone] at hsome
    simp at hsome
  · intro r hlo hhi hlt
    by_contra hne
    obtain ⟨lk, hlk⟩ := getLink_ne_none hne
    rw [getLink_eq_some] at hlk
    have hmem2 : ((r, ({ link := some lk } : PriceLimit)) : Nat × PriceLimit) ∈
        (pl.filter (fun q => decide (lo ≤ q.1) && decide (q.1 ≤ hi))).reverse := by
      rw [List.mem_reverse, List.mem_filter]
      exact ⟨PriceLimits.get_some_mem hlk, by simp [hlo, hhi]⟩
    have := hmax _ hmem2 (by simp)
    omega

theorem findBestDesc_none {pl : PriceLimits} {lo hi : Nat}
    (h : PriceLimits.findBestDesc pl lo hi = none) :
    ∀ r, lo ≤ r → r ≤ hi → getLink pl r = none := by
  intro r hlo hhi
  unfold PriceLimits.findBestDesc at h
  rw [Option.map_eq_none'] at h
  rw [List.find?_eq_none] at h
  by_contra hne
  obtain ⟨lk, hlk⟩ := getLink_ne_none hne
  rw [getLink_eq_some] at hlk
  have hmem2 : ((r, ({ link := some lk } : PriceLimit)) : Nat × PriceLimit) ∈
      (pl.filter (fun q => decide (lo ≤ q.1) && decide (q.1 ≤ hi))).reverse := by
    rw [List.mem_reverse, List.mem_filter]
    exact ⟨PriceLimits.get_some_mem hlk, by simp [hlo, hhi]⟩
  exact absurd (by simp : ((r, ({ link := some lk } : PriceLimit)) : Nat × PriceLimit).2.link.isSome = true)
    (by simpa using h _ hmem2)

/-! ### Fuel utilities -/

theorem chainGo_min_fuel {a : BookEntries} {fuel : Nat} {mi : Option Nat} {c : List Nat}
    (h : chainGo a fuel mi = some c) : chainGo a c.length mi = some c := by
  induction fuel generalizing mi c with
  | zero =>
    cases mi with
    | none => rw [chainGo_none] at h; cases h; exact chainGo_none a 0
    | some i => exact absurd h (by simp [chainGo])
  | succ fuel ih =>
    cases mi with
    | none => rw [chainGo_none] at h; cases h; exact chainGo_none a 0
    | some i =>
      obtain ⟨f0, e, c0, hf, hg, hc, rfl⟩ := chainGo_cons_inv h
      obtain rfl : fuel = f0 := by omega
      have := ih hc
      simp [chainGo, hg, this]

theorem nodup_lt_length_le {c : List Nat} {n : Nat} (hnd : c.Nodup)
    (hb : ∀ x ∈ c, x < n) : c.length ≤ n := by
  classical
  have h1 : c.toFinset.card = c.length := List.toFinset_card_of_nodup hnd
  have h2 : c.toFinset ⊆ Finset.range n := by
    intro x hx
    rw [List.mem_toFinset] at hx
    rw [Finset.mem_range]
    exact hb x hx
  have := Finset.card_le_card h2
  rw [h1, Finset.card_range] at this
  exact this

theorem chain_of_chainGo {a : BookEntries} {fuel : Nat} {mi : Option Nat} {c : List Nat}
    (h : chainGo a fuel mi = some c) : chain a mi = some c := by
  have hmin := chainGo_min_fuel h
  have hlen : c.length ≤ a.slots.length :=
    nodup_lt_length_le (chainGo_nodup h) (fun x hx => chainGo_mem_lt h hx)
  exact chainGo_fuel_mono hlen hmin

/-- Appending an entry at the tail: if `a2` agrees with `a` on a chain
except that the tail entry now points to a fresh index holding an entry
with no successor, the chain gains that index at the end. -/
theorem chainGo_snoc {a a2 : BookEntries} {fuel : Nat} {mi : Option Nat} {c : List Nat}
    {t idx : Nat} {te v : BookEntry}
    (hc : chainGo a fuel mi = some c) (hlast : c.getLast? = some t)
    (hte : a.get t = some te)
    (hsame : ∀ j ∈ c, j ≠ t → a2.get j = a.get j)
    (ht2 : a2.get t = some { te with next := some idx })
    (hidx : idx ∉ c)
    (hv : a2.get idx = some v) (hvn : v.next = none) :
    chainGo a2 (fuel + 1) mi = some (c ++ [idx]) := by
  induction fuel generalizing mi c with
  | zero =>
    cases mi with
    | none => rw [chainGo_none] at hc; cases hc; simp at hlast
    | some i => exact absurd hc (by simp [chainGo])
  | succ fuel ih =>
    cases mi with
    | none => rw [chainGo_none] at hc; cases hc; simp at hlast
    | some i =>
      obtain ⟨f0, e, c0, hf, hg, hc0, rfl⟩ := chainGo_cons_inv hc
      obtain rfl : fuel = f0 := by omega
      cases c0 with
      | nil =>
        have hit : i = t := by
          simp at hlast
          exact hlast
        subst hit
        have hete : e = te := by
          rw [hg] at hte
          exact Option.some.inj hte
        subst hete
        have hnone2 : chainGo a2 fuel v.next = some [] := by
          rw [hvn]; exact chainGo_none a2 fuel
        simp [chainGo, ht2, hv, hnone2]
      | cons j c1 =>
        have hlast0 : (j :: c1).getLast? = some t := by
          rw [List.getLast?_cons_cons] at hlast
          exact hlast
        have hit : i ≠ t := by
          intro hit
          subst hit
          have hopt : i ∈ (j :: c1).getLast? := by rw [Option.mem_def]; exact hlast0
          obtain ⟨hne2, heq⟩ := List.mem_getLast?_eq_getLast hopt
          have hmem : i ∈ j :: c1 := heq ▸ List.getLast_mem hne2
          exact (List.nodup_cons.mp (chainGo_nodup hc)).1 hmem
        have hgi2 : a2.get i = some e := by
          rw [hsame i (by simp) hit, hg]
        have hrec := ih hc0 hlast0
          (fun x hx hxt => hsame x (List.mem_cons_of_mem _ hx) hxt)
          (fun hx => hidx (List.mem_cons_of_mem _ hx))
        simp [chainGo, hgi2, hrec]

theorem sizeAtLimitGo_spec {a : BookEntries} {fuel : Nat} {mi : Option Nat} {c : List Nat}
    (h : chainGo a fuel mi = some c) :
    MatchingEngine.sizeAtLimitGo a fuel mi = sizeSum a c := by
  induction fuel generalizing mi c with
  | zero =>
    cases mi with
    | none => rw [chainGo_none] at h; cases h; rfl
    | some i => exact absurd h (by simp [chainGo])
  | succ fuel ih =>
    cases mi with
    | none => rw [chainGo_none] at h; cases h; rfl
    | some i =>
      obtain ⟨f0, e, c0, hf, hg, hc, rfl⟩ := chainGo_cons_inv h
      obtain rfl : fuel = f0 := by omega
      rw [sizeSum_cons hg]
      simp [MatchingEngine.sizeAtLimitGo, hg, ih hc]

/-- The ids of the entries along a chain. -/
def idsOf (a : BookEntries) (c : List Nat) : List Nat :=
  c.filterMap (fun i => (a.get i).map (fun e => e.id))

theorem idsOf_congr {a a2 : BookEntries} {c : List Nat}
    (h : ∀ x ∈ c, a2.get x = a.get x) : idsOf a2 c = idsOf a c := by
  unfold idsOf
  apply List.filterMap_congr
  intro x hx
  rw [h x hx]

theorem idsOf_append (a : BookEntries) (c1 c2 : List Nat) :
    idsOf a (c1 ++ c2) = idsOf a c1 ++ idsOf a c2 := by
  simp [idsOf]

/-! ### Well-formedness of the engine state -/

/-- Map-and-arena consistency: sorted key map with in-domain prices, every
non-empty limit carrying a terminated duplicate-free chain ending at its
tail, chains of distinct limits disjoint, every live entry of positive size
with an id below the allocation cursor, ids strictly increasing along every
chain (time priority), and a valid free list. -/
structure WFm (a : BookEntries) (pl : PriceLimits) (maxid : Nat) : Prop where
  sorted : pl.Pairwise (fun x y => x.1 < y.1)
  keys_pos : ∀ q ∈ pl, 0 < q.1 ∧ q.1 < PMAX
  chains : ∀ p lk, getLink pl p = some lk →
    ∃ c, chain a (some lk.head) = some c ∧ c ≠ [] ∧ c.getLast? = some lk.tail
  disj : ∀ p1 p2 lk1 lk2 c1 c2, p1 ≠ p2 →
    getLink pl p1 = some lk1 → getLink pl p2 = some lk2 →
    chain a (some lk1.head) = some c1 → chain a (some lk2.head) = some c2 →
    ∀ x ∈ c1, x ∉ c2
  sizes_pos : ∀ i e, a.get i = some e → 0 < e.size
  ids_lt : ∀ i e, a.get i = some e → e.id < maxid
  ids_incr : ∀ p lk c, getLink pl p = some lk → chain a (some lk.head) = some c →
    (idsOf a c).Pairwise (· < ·)
  free_valid : ∀ i ∈ a.freeList, a.get i = none ∧ i < a.slots.length
  free_nodup : a.freeList.Nodup

/-- Full well-formedness: map-and-arena consistency plus the four
best-limit invariants I1-I4 of the spec. -/
structure WF (me : MatchingEngine) : Prop where
  m : WFm me.entries me.price_limits me.max_entry_id
  i1 : me.best_bid ≠ 0 → getLink me.price_limits me.best_bid ≠ none
  i2 : me.best_ask ≠ PMAX → getLink me.price_limits me.best_ask ≠ none
  i3 : ∀ p lk, getLink me.price_limits p = some lk → p ≤ me.best_bid ∨ me.best_ask ≤ p
  i4 : me.best_bid < me.best_ask
  ask_le : me.best_ask ≤ PMAX

theorem WF_new (capacity : Nat) : WF (MatchingEngine.new capacity) := by
  refine ⟨⟨?_, ?_, ?_, ?_, ?_, ?_, ?_, ?_, ?_⟩, ?_, ?_, ?_, ?_, ?_⟩
  · simp [MatchingEngine.new]
  · simp [MatchingEngine.new]
  · intro p lk h
    simp [MatchingEngine.new, getLink, PriceLimits.get] at h
  · intro p1 p2 lk1 lk2 c1 c2 hne h1 h2
    simp [MatchingEngine.new, getLink, PriceLimits.get] at h1
  · intro i e h
    simp [MatchingEngine.new, Arena.new, Arena.get] at h
  · intro i e h
    simp [MatchingEngine.new, Arena.new, Arena.get] at h
  · intro p lk c h
    simp [MatchingEngine.new, getLink, PriceLimits.get] at h
  · intro i h
    simp [MatchingEngine.new, Arena.new] at h
  · simp [MatchingEngine.new, Arena.new]
  · intro h
    exact absurd rfl h
  · intro h
    exact absurd rfl h
  · intro p lk h
    simp [MatchingEngine.new, getLink, PriceLimits.get] at h
  · show 0 < PMAX
    norm_num [PMAX]
  · exact le_rfl

/-! ### Allocation -/

theorem alloc_spec (a : BookEntries) (v : BookEntry)
    (hfv : ∀ i ∈ a.freeList, a.get i = none ∧ i < a.slots.length)
    (hfn : a.freeList.Nodup) :
    (a.alloc v).2.get (a.alloc v).1 = some v ∧
    (∀ j, j ≠ (a.alloc v).1 → (a.alloc v).2.get j = a.get j) ∧
    a.get (a.alloc v).1 = none ∧
    (a.alloc v).1 < (a.alloc v).2.slots.length ∧
    a.slots.length ≤ (a.alloc v).2.slots.length ∧
    (∀ i ∈ (a.alloc v).2.freeList, (a.alloc v).2.get i = none ∧
      i < (a.alloc v).2.slots.length) ∧
    (a.alloc v).2.freeList.Nodup := by
  unfold Arena.alloc
  cases hfl : a.freeList with
  | cons i rest =>
    simp only []
    have hfree := hfv i (by rw [hfl]; simp)
    have hfn2 : (i :: rest).Nodup := by rw [← hfl]; exact hfn
    have hni : i ∉ rest := (List.nodup_cons.mp hfn2).1
    have hrest2 : rest.Nodup := (List.nodup_cons.mp hfn2).2
    refine ⟨?_, ?_, hfree.1, ?_, ?_, ?_, hrest2⟩
    · show ({ a with slots := a.slots.set i (some v) } : BookEntries).get i = some v
      show (a.slots.set i (some v)).getD i none = some v
      rw [List.getD_eq_getElem?_getD, List.getElem?_set_self hfree.2]
      rfl
    · intro j hj
      show (a.slots.set i (some v)).getD j none = a.slots.getD j none
      rw [List.getD_eq_getElem?_getD, List.getElem?_set_ne (Ne.symm hj),
        List.getD_eq_getElem?_getD]
    · show i < (a.slots.set i (some v)).length
      rw [List.length_set]
      exact hfree.2
    · show a.slots.length ≤ (a.slots.set i (some v)).length
      rw [List.length_set]
    · intro x hx
      have hx0 : x ∈ a.freeList := by rw [hfl]; exact List.mem_cons_of_mem _ hx
      have hxv := hfv x hx0
      have hxi : x ≠ i := fun hxi => hni (hxi ▸ hx)
      constructor
      · show (a.slots.set i (some v)).getD x none = none
        rw [List.getD_eq_getElem?_getD, List.getElem?_set_ne (Ne.symm hxi),
          ← List.getD_eq_getElem?_getD]
        exact hxv.1
      · show x < (a.slots.set i (some v)).length
        rw [List.length_set]
        exact hxv.2
  | nil =>
    simp only []
    refine ⟨?_, ?_, ?_, ?_, ?_, ?_, ?_⟩
    · show ((a.slots ++ [some v]).getD a.slots.length none) = some v
      rw [List.getD_eq_getElem?_getD, List.getElem?_concat_length]
      rfl
    · intro j hj
      show ((a.slots ++ [some v]).getD j none) = a.slots.getD j none
      rcases lt_or_ge j a.slots.length with hlt | hge
      · rw [List.getD_eq_getElem?_getD, List.getElem?_append_left hlt,
          List.getD_eq_getElem?_getD]
      · have hgt : a.slots.length < j := lt_of_le_of_ne hge (fun h => hj h.symm)
        rw [List.getD_eq_getElem?_getD, List.getElem?_eq_none (by simp; omega),
          List.getD_eq_getElem?_getD, List.getElem?_eq_none (by omega)]
    · show a.slots.getD a.slots.length none = none
      rw [List.getD_eq_getElem?_getD, List.getElem?_eq_none le_rfl]
      rfl
    · show a.slots.length < (a.slots ++ [some v]).length
      simp
    · show a.slots.length ≤ (a.slots ++ [some v]).length
      simp
    · intro x hx
      simp at hx
    · simp

theorem mem_setVal_cases {pl : PriceLimits} {p : Nat} {l : PriceLimit}
    {q : Nat × PriceLimit} (h : q ∈ PriceLimits.setVal pl p l) :
    q ∈ pl ∨ (q = (p, l) ∧ p ∈ PriceLimits.keys pl) := by
  unfold PriceLimits.setVal at h
  rw [List.mem_map] at h
  obtain ⟨r, hr, hrq⟩ := h
  by_cases hrp : r.1 = p
  · rw [if_pos hrp] at hrq
    right
    exact ⟨hrq.symm, hrp ▸ List.mem_map.mpr ⟨r, hr, rfl⟩⟩
  · rw [if_neg hrp] at hrq
    left
    exact hrq ▸ hr

theorem mem_insertSorted_cases {pl : PriceLimits} {p : Nat} {l : PriceLimit}
    {q : Nat × PriceLimit} (h : q ∈ PriceLimits.insertSorted pl p l) :
    q = (p, l) ∨ q ∈ pl := by
  induction pl with
  | nil => simpa [PriceLimits.insertSorted] using h
  | cons r rest ih =>
    unfold PriceLimits.insertSorted at h
    by_cases h1 : p < r.1
    · rw [if_pos h1] at h
      rcases List.mem_cons.mp h with rfl | h0
      · exact Or.inl rfl
      · exact Or.inr h0
    · rw [if_neg h1] at h
      by_cases h2 : p = r.1
      · rw [if_pos h2] at h
        rcases List.mem_cons.mp h with rfl | h0
        · exact Or.inl rfl
        · exact Or.inr (List.mem_cons_of_mem _ h0)
      · rw [if_neg h2] at h
        rcases List.mem_cons.mp h with rfl | h0
        · exact Or.inr (List.mem_cons_self _ _)
        · rcases ih h0 with h3 | h3
          · exact Or.inl h3
          · exact Or.inr (List.mem_cons_of_mem _ h3)

/-- Congruence for chain ids needing only the id projections to agree
(the tail entry changes its `next` on append, not its id). -/
theorem idsOf_congr_id {a a2 : BookEntries} {c : List Nat}
    (h : ∀ x ∈ c, (a2.get x).map (fun e => e.id) = (a.get x).map (fun e => e.id)) :
    idsOf a2 c = idsOf a c := by
  unfold idsOf
  apply List.filterMap_congr
  intro x hx
  exact h x hx

theorem mem_idsOf {a : BookEntries} {c : List Nat} {y : Nat} (h : y ∈ idsOf a c) :
    ∃ x ∈ c, ∃ e, a.get x = some e ∧ e.id = y := by
  unfold idsOf at h
  rw [List.mem_filterMap] at h
  obtain ⟨x, hx, hxy⟩ := h
  rw [Option.map_eq_some'] at hxy
  obtain ⟨e, he, hey⟩ := hxy
  exact ⟨x, hx, e, he, hey⟩

theorem idsOf_cons {a : BookEntries} {i : Nat} {e : BookEntry} (hg : a.get i = some e)
    (c : List Nat) : idsOf a (i :: c) = e.id :: idsOf a c := by
  simp [idsOf, hg]

/-! ### Insertion characterized -/

theorem mem_of_getLastQ {c : List Nat} {t : Nat} (h : c.getLast? = some t) : t ∈ c := by
  have hopt : t ∈ c.getLast? := by rw [Option.mem_def]; exact h
  obtain ⟨hne, heq⟩ := List.mem_getLast?_eq_getLast hopt
  exact heq ▸ List.getLast_mem hne

theorem chain_det {a : BookEntries} {mi : Option Nat} {c1 c2 : List Nat}
    (h1 : chain a mi = some c1) (h2 : chain a mi = some c2) : c1 = c2 := by
  rw [h1] at h2
  exact Option.some.inj h2

/-- A chain of the old arena survives any modification touching only a slot
that was free, and cannot contain that slot. -/
theorem chain_lift {a a1 : BookEntries} {idx : Nat} {mi : Option Nat} {c : List Nat}
    (hc : chain a mi = some c)
    (hA2 : ∀ j, j ≠ idx → a1.get j = a.get j)
    (hA3 : a.get idx = none) :
    chain a1 mi = some c ∧ idx ∉ c := by
  have hcg : chainGo a a.slots.length mi = some c := hc
  have hnot : idx ∉ c := by
    intro hmem
    obtain ⟨e, he⟩ := chainGo_mem_get hcg hmem
    rw [hA3] at he
    exact Option.noConfusion he
  have hfr : chainGo a1 a.slots.length mi = some c :=
    chainGo_frame hcg (fun j hj => hA2 j (fun hji => hnot (hji ▸ hj)))
  exact ⟨chain_of_chainGo hfr, hnot⟩

/-- A just-allocated terminal entry forms a one-element chain. -/
theorem chain_singleton {a1 : BookEntries} {idx : Nat} {e : BookEntry}
    (h : a1.get idx = some e) (hn : e.next = none) (hl : idx < a1.slots.length) :
    chain a1 (some idx) = some [idx] := by
  have h1 : chainGo a1 (0 + 1) (some idx) = some [idx] := by
    simp [chainGo, h, hn, chainGo_none]
  exact chainGo_fuel_mono (by omega) h1

/-- Inserting the first entry of a fresh (or empty) price limit preserves
map-and-arena consistency.  `plA` is the map after the `entry.or_insert`
step: it agrees with the original away from `price` and holds the key. -/
theorem WFm_insert_fresh {a a1 : BookEntries} {pl0 plA : PriceLimits}
    {maxid price sz idx : Nat}
    (hm : WFm a pl0 maxid)
    (hs : 0 < sz) (hpp : 0 < price) (hpm : price < PMAX)
    (hA1 : a1.get idx = some { size := sz, next := none, id := maxid })
    (hA2 : ∀ j, j ≠ idx → a1.get j = a.get j)
    (hA3 : a.get idx = none)
    (hA4 : idx < a1.slots.length)
    (hA6 : ∀ i ∈ a1.freeList, a1.get i = none ∧ i < a1.slots.length)
    (hA7 : a1.freeList.Nodup)
    (hglk : getLink pl0 price = none)
    (hsA : plA.Pairwise (fun x y => x.1 < y.1))
    (hkpA : ∀ q ∈ plA, 0 < q.1 ∧ q.1 < PMAX)
    (hgAne : ∀ q, q ≠ price → PriceLimits.get plA q = PriceLimits.get pl0 q)
    (hkA : price ∈ PriceLimits.keys plA) :
    WFm a1 (PriceLimits.setVal plA price { link := some { head := idx, tail := idx } })
      (maxid + 1) := by
  have hg2self : PriceLimits.get
      (PriceLimits.setVal plA price { link := some { head := idx, tail := idx } }) price
      = some { link := some { head := idx, tail := idx } } :=
    PriceLimits.get_setVal_self hkA _
  have hgl2self : getLink
      (PriceLimits.setVal plA price { link := some { head := idx, tail := idx } }) price
      = some { head := idx, tail := idx } := by
    unfold getLink
    rw [hg2self]
  have hgl2ne : ∀ q, q ≠ price →
      getLink (PriceLimits.setVal plA price { link := some { head := idx, tail := idx } }) q
      = getLink pl0 q := by
    intro q hq
    unfold getLink
    rw [PriceLimits.get_setVal_ne hq, hgAne q hq]
  have hsingle : chain a1 (some idx) = some [idx] := chain_singleton hA1 rfl hA4
  refine ⟨PriceLimits.setVal_sorted hsA _ _, ?_, ?_, ?_, ?_, ?_, ?_, hA6, hA7⟩
  · intro q hq
    rcases mem_setVal_cases hq with hq0 | ⟨rfl, _⟩
    · exact hkpA q hq0
    · exact ⟨hpp, hpm⟩
  · intro p lk hp
    by_cases hpq : p = price
    · subst hpq
      rw [hgl2self] at hp
      obtain rfl : lk = { head := idx, tail := idx } := (Option.some.inj hp).symm
      exact ⟨[idx], hsingle, by simp, by simp⟩
    · rw [hgl2ne p hpq] at hp
      obtain ⟨c, hc, hcne, hlastc⟩ := hm.chains p lk hp
      exact ⟨c, (chain_lift hc hA2 hA3).1, hcne, hlastc⟩
  · intro p1 p2 lk1 lk2 c1 c2 hne h1 h2 hc1 hc2
    by_cases hp1 : p1 = price
    · subst hp1
      rw [hgl2self] at h1
      obtain rfl : lk1 = { head := idx, tail := idx } := (Option.some.inj h1).symm
      have hc1x : chain a1 (some idx) = some c1 := hc1
      obtain rfl : c1 = [idx] := chain_det hc1x hsingle
      rw [hgl2ne p2 (fun h => hne h.symm)] at h2
      obtain ⟨c0, hc0, hc0ne, hc0last⟩ := hm.chains p2 lk2 h2
      obtain ⟨hlifted, hnotin⟩ := chain_lift hc0 hA2 hA3
      obtain rfl : c2 = c0 := chain_det hc2 hlifted
      intro x hx
      rw [List.mem_singleton] at hx
      subst hx
      exact hnotin
    · by_cases hp2 : p2 = price
      · subst hp2
        rw [hgl2self] at h2
        obtain rfl : lk2 = { head := idx, tail := idx } := (Option.some.inj h2).symm
        have hc2x : chain a1 (some idx) = some c2 := hc2
        obtain rfl : c2 = [idx] := chain_det hc2x hsingle
        rw [hgl2ne p1 hp1] at h1
        obtain ⟨c0, hc0, hc0ne, hc0last⟩ := hm.chains p1 lk1 h1
        obtain ⟨hlifted, hnotin⟩ := chain_lift hc0 hA2 hA3
        obtain rfl : c1 = c0 := chain_det hc1 hlifted
        intro x hx
        rw [List.mem_singleton]
        intro hxi
        exact hnotin (hxi ▸ hx)
      · rw [hgl2ne p1 hp1] at h1
        rw [hgl2ne p2 hp2] at h2
        obtain ⟨d1, hd1, hd1ne, hd1last⟩ := hm.chains p1 lk1 h1
        obtain ⟨d2, hd2, hd2ne, hd2last⟩ := hm.chains p2 lk2 h2
        obtain rfl : c1 = d1 := chain_det hc1 (chain_lift hd1 hA2 hA3).1
        obtain rfl : c2 = d2 := chain_det hc2 (chain_lift hd2 hA2 hA3).1
        exact hm.disj p1 p2 lk1 lk2 c1 c2 hne h1 h2 hd1 hd2
  · intro i e hi
    by_cases hii : i = idx
    · subst hii
      rw [hA1] at hi
      obtain rfl : e = { size := sz, next := none, id := maxid } :=
        (Option.some.inj hi).symm
      exact hs
    · rw [hA2 i hii] at hi
      exact hm.sizes_pos i e hi
  · intro i e hi
    by_cases hii : i = idx
    · subst hii
      rw [hA1] at hi
      obtain rfl : e = { size := sz, next := none, id := maxid } :=
        (Option.some.inj hi).symm
      show maxid < maxid + 1
      omega
    · rw [hA2 i hii] at hi
      have := hm.ids_lt i e hi
      omega
  · intro p lk c hp hc
    by_cases hpq : p = price
    · subst hpq
      rw [hgl2self] at hp
      obtain rfl : lk = { head := idx, tail := idx } := (Option.some.inj hp).symm
      have hcx : chain a1 (some idx) = some c := hc
      obtain rfl : c = [idx] := chain_det hcx hsingle
      simp [idsOf, hA1]
    · rw [hgl2ne p hpq] at hp
      obtain ⟨c0, hc0, hc0ne, hc0last⟩ := hm.chains p lk hp
      obtain ⟨hlifted, hnotin⟩ := chain_lift hc0 hA2 hA3
      obtain rfl : c = c0 := chain_det hc hlifted
      rw [idsOf_congr (fun x hx => hA2 x (fun hxi => hnotin (hxi ▸ hx)))]
      exact hm.ids_incr p lk c hp hc0

/-- Appending an entry at the tail of a non-empty price limit preserves
map-and-arena consistency; the limit's chain gains the fresh index at its
end, and every other limit's chain is untouched. -/
theorem WFm_insert_tail {a a1 : BookEntries} {pl0 : PriceLimits}
    {maxid price sz idx : Nat} {lk : Link} {te : BookEntry} {c : List Nat}
    (hm : WFm a pl0 maxid)
    (hs : 0 < sz)
    (hA1 : a1.get idx = some { size := sz, next := none, id := maxid })
    (hA2 : ∀ j, j ≠ idx → a1.get j = a.get j)
    (hA3 : a.get idx = none)
    (hA4 : idx < a1.slots.length)
    (hA5 : a.slots.length ≤ a1.slots.length)
    (hA6 : ∀ i ∈ a1.freeList, a1.get i = none ∧ i < a1.slots.length)
    (hA7 : a1.freeList.Nodup)
    (hglk : getLink pl0 price = some lk)
    (hc : chain a (some lk.head) = some c)
    (hlast : c.getLast? = some lk.tail)
    (hte : a.get lk.tail = some te) :
    WFm (a1.set lk.tail { te with next := some idx })
      (PriceLimits.setVal pl0 price { link := some { head := lk.head, tail := idx } })
      (maxid + 1) ∧
    chain (a1.set lk.tail { te with next := some idx }) (some lk.head) = some (c ++ [idx]) ∧
    (∀ p lk2 c2, p ≠ price → getLink pl0 p = some lk2 →
      chain a (some lk2.head) = some c2 →
      chain (a1.set lk.tail { te with next := some idx }) (some lk2.head) = some c2) := by
  have hkey : price ∈ PriceLimits.keys pl0 :=
    PriceLimits.get_some_key (getLink_eq_some.mp hglk)
  have hcg : chainGo a a.slots.length (some lk.head) = some c := hc
  have htmem : lk.tail ∈ c := mem_of_getLastQ hlast
  have hidxc : idx ∉ c := by
    intro hmem
    obtain ⟨e, he⟩ := chainGo_mem_get hcg hmem
    rw [hA3] at he
    exact Option.noConfusion he
  have htne : lk.tail ≠ idx := by
    intro h
    rw [h, hA3] at hte
    exact Option.noConfusion hte
  have htlt : lk.tail < a.slots.length := chainGo_mem_lt hcg htmem
  have ha1t : a1.get lk.tail = some te := by rw [hA2 lk.tail htne]; exact hte
  have hg3t : (a1.set lk.tail { te with next := some idx }).get lk.tail
      = some { te with next := some idx } :=
    Arena.get_set_self (by omega : lk.tail < a1.slots.length) _
  have hg3ne : ∀ j, j ≠ lk.tail →
      (a1.set lk.tail { te with next := some idx }).get j = a1.get j :=
    fun j hj => Arena.get_set_ne a1 hj _
  have hg3idx : (a1.set lk.tail { te with next := some idx }).get idx
      = some { size := sz, next := none, id := maxid } := by
    rw [hg3ne idx (fun h => htne h.symm), hA1]
  have hg3old : ∀ j, j ≠ idx → j ≠ lk.tail →
      (a1.set lk.tail { te with next := some idx }).get j = a.get j :=
    fun j h1 h2 => by rw [hg3ne j h2, hA2 j h1]
  have hsnoc : chainGo (a1.set lk.tail { te with next := some idx })
      (a.slots.length + 1) (some lk.head) = some (c ++ [idx]) :=
    chainGo_snoc hcg hlast hte
      (fun j hj hjt => hg3old j (fun hji => hidxc (hji ▸ hj)) hjt)
      hg3t hidxc hg3idx rfl
  have hchain3 : chain (a1.set lk.tail { te with next := some idx }) (some lk.head)
      = some (c ++ [idx]) := chain_of_chainGo hsnoc
  have hpres : ∀ p lk2 c2, p ≠ price → getLink pl0 p = some lk2 →
      chain a (some lk2.head) = some c2 →
      chain (a1.set lk.tail { te with next := some idx }) (some lk2.head) = some c2 := by
    intro p lk2 c2 hp hg2 hc2
    have hc2g : chainGo a a.slots.length (some lk2.head) = some c2 := hc2
    have hdisj := hm.disj p price lk2 lk c2 c hp hg2 hglk hc2 hc
    have htail2 : lk.tail ∉ c2 := fun hmem => hdisj lk.tail hmem htmem
    have hidx2 : idx ∉ c2 := by
      intro hmem
      obtain ⟨e, he⟩ := chainGo_mem_get hc2g hmem
      rw [hA3] at he
      exact Option.noConfusion he
    have hfr : chainGo (a1.set lk.tail { te with next := some idx })
        a.slots.length (some lk2.head) = some c2 :=
      chainGo_frame hc2g
        (fun j hj => hg3old j (fun h => hidx2 (h ▸ hj)) (fun h => htail2 (h ▸ hj)))
    exact chain_of_chainGo hfr
  have hg2self : getLink
      (PriceLimits.setVal pl0 price { link := some { head := lk.head, tail := idx } }) price
      = some { head := lk.head, tail := idx } := by
    unfold getLink
    rw [PriceLimits.get_setVal_self hkey]
  have hg2ne : ∀ q, q ≠ price →
      getLink (PriceLimits.setVal pl0 price { link := some { head := lk.head, tail := idx } }) q
      = getLink pl0 q := by
    intro q hq
    unfold getLink
    rw [PriceLimits.get_setVal_ne hq]
  refine ⟨⟨PriceLimits.setVal_sorted hm.sorted _ _, ?_, ?_, ?_, ?_, ?_, ?_, ?_, ?_⟩,
    hchain3, hpres⟩
  · intro q hq
    rcases mem_setVal_cases hq with hq0 | ⟨rfl, _⟩
    · exact hm.keys_pos q hq0
    · obtain ⟨lim, hlim⟩ := PriceLimits.get_mem_keys hkey
      exact hm.keys_pos (price, lim) (PriceLimits.get_some_mem hlim)
  · intro p lk2 hp
    by_cases hpq : p = price
    · subst hpq
      rw [hg2self] at hp
      obtain rfl : lk2 = { head := lk.head, tail := idx } := (Option.some.inj hp).symm
      refine ⟨c ++ [idx], hchain3, by simp, ?_⟩
      show (c ++ [idx]).getLast? = some idx
      exact List.getLast?_concat c
    · rw [hg2ne p hpq] at hp
      obtain ⟨c2, hc2, hc2ne, hc2last⟩ := hm.chains p lk2 hp
      exact ⟨c2, hpres p lk2 c2 hpq hp hc2, hc2ne, hc2last⟩
  · intro p1 p2 lk1 lk2 c1 c2 hne h1 h2 hc1 hc2
    by_cases hp1 : p1 = price
    · subst hp1
      rw [hg2self] at h1
      obtain rfl : lk1 = { head := lk.head, tail := idx } := (Option.some.inj h1).symm
      have hc1x : chain (a1.set lk.tail { te with next := some idx }) (some lk.head)
          = some c1 := hc1
      obtain rfl : c1 = c ++ [idx] := chain_det hc1x hchain3
      rw [hg2ne p2 (fun h => hne h.symm)] at h2
      obtain ⟨d2, hd2, hd2ne, hd2last⟩ := hm.chains p2 lk2 h2
      obtain rfl : c2 = d2 := chain_det hc2 (hpres p2 lk2 d2 (fun h => hne h.symm) h2 hd2)
      intro x hx
      rcases List.mem_append.mp hx with hx0 | hx0
      · exact hm.disj p1 p2 lk lk2 c c2 hne hglk h2 hc hd2 x hx0
      · rw [List.mem_singleton] at hx0
        subst hx0
        intro hmem
        obtain ⟨e, he⟩ := chainGo_mem_get (show chainGo a a.slots.length (some lk2.head)
          = some c2 from hd2) hmem
        rw [hA3] at he
        exact Option.noConfusion he
    · by_cases hp2 : p2 = price
      · subst hp2
        rw [hg2self] at h2
        obtain rfl : lk2 = { head := lk.head, tail := idx } := (Option.some.inj h2).symm
        have hc2x : chain (a1.set lk.tail { te with next := some idx }) (some lk.head)
            = some c2 := hc2
        obtain rfl : c2 = c ++ [idx] := chain_det hc2x hchain3
        rw [hg2ne p1 hp1] at h1
        obtain ⟨d1, hd1, hd1ne, hd1last⟩ := hm.chains p1 lk1 h1
        obtain rfl : c1 = d1 := chain_det hc1 (hpres p1 lk1 d1 hp1 h1 hd1)
        intro x hx
        intro hmem
        rcases List.mem_append.mp hmem with hx0 | hx0
        · exact hm.disj p1 p2 lk1 lk c1 c hp1 h1 hglk hd1 hc x hx hx0
        · rw [List.mem_singleton] at hx0
          subst hx0
          obtain ⟨e, he⟩ := chainGo_mem_get (show chainGo a a.slots.length (some lk1.head)
            = some c1 from hd1) hx
          rw [hA3] at he
          exact Option.noConfusion he
      · rw [hg2ne p1 hp1] at h1
        rw [hg2ne p2 hp2] at h2
        obtain ⟨d1, hd1, hd1ne, hd1last⟩ := hm.chains p1 lk1 h1
        obtain ⟨d2, hd2, hd2ne, hd2last⟩ := hm.chains p2 lk2 h2
        obtain rfl : c1 = d1 := chain_det hc1 (hpres p1 lk1 d1 hp1 h1 hd1)
        obtain rfl : c2 = d2 := chain_det hc2 (hpres p2 lk2 d2 hp2 h2 hd2)
        exact hm.disj p1 p2 lk1 lk2 c1 c2 hne h1 h2 hd1 hd2
  · intro i e hi
    by_cases hit : i = lk.tail
    · subst hit
      rw [hg3t] at hi
      obtain rfl : e = { te with next := some idx } := (Option.some.inj hi).symm
      exact hm.sizes_pos lk.tail te hte
    · by_cases hii : i = idx
      · subst hii
        rw [hg3idx] at hi
        obtain rfl : e = { size := sz, next := none, id := maxid } :=
          (Option.some.inj hi).symm
        exact hs
      · rw [hg3old i hii hit] at hi
        exact hm.sizes_pos i e hi
  · intro i e hi
    by_cases hit : i = lk.tail
    · subst hit
      rw [hg3t] at hi
      obtain rfl : e = { te with next := some idx } := (Option.some.inj hi).symm
      have := hm.ids_lt lk.tail te hte
      show te.id < maxid + 1
      omega
    · by_cases hii : i = idx
      · subst hii
        rw [hg3idx] at hi
        obtain rfl : e = { size := sz, next := none, id := maxid } :=
          (Option.some.inj hi).symm
        show maxid < maxid + 1
        omega
      · rw [hg3old i hii hit] at hi
        have := hm.ids_lt i e hi
        omega
  · intro p lk2 c2 hp hc2
    by_cases hpq : p = price
    · subst hpq
      rw [hg2self] at hp
      obtain rfl : lk2 = { head := lk.head, tail := idx } := (Option.some.inj hp).symm
      have hc2x : chain (a1.set lk.tail { te with next := some idx }) (some lk.head)
          = some c2 := hc2
      obtain rfl : c2 = c ++ [idx] := chain_det hc2x hchain3
      rw [idsOf_append]
      have hids1 : idsOf (a1.set lk.tail { te with next := some idx }) c = idsOf a c := by
        apply idsOf_congr_id
        intro x hx
        by_cases hxt : x = lk.tail
        · subst hxt
          rw [hg3t, hte]
          simp
        · rw [hg3old x (fun hxi => hidxc (hxi ▸ hx)) hxt]
      have hids2 : idsOf (a1.set lk.tail { te with next := some idx }) [idx] = [maxid] := by
        simp [idsOf, hg3idx]
      rw [hids1, hids2]
      rw [List.pairwise_append]
      refine ⟨hm.ids_incr p lk c hglk hc, List.pairwise_singleton _ _, ?_⟩
      intro y hy z hz
      rw [List.mem_singleton] at hz
      subst hz
      obtain ⟨x, hxc, e, he, hey⟩ := mem_idsOf hy
      have := hm.ids_lt x e he
      omega
    · rw [hg2ne p hpq] at hp
      obtain ⟨d2, hd2, hd2ne, hd2last⟩ := hm.chains p lk2 hp
      obtain rfl : c2 = d2 := chain_det hc2 (hpres p lk2 d2 hpq hp hd2)
      have hids : idsOf (a1.set lk.tail { te with next := some idx }) c2 = idsOf a c2 := by
        apply idsOf_congr
        intro x hx
        have hdisj := hm.disj p price lk2 lk c2 c hpq hp hglk hd2 hc
        have hxt : x ≠ lk.tail := fun h => hdisj x hx (h ▸ htmem)
        have hxi : x ≠ idx := by
          intro h
          obtain ⟨e, he⟩ := chainGo_mem_get (show chainGo a a.slots.length (some lk2.head)
            = some c2 from hd2) hx
          rw [h, hA3] at he
          exact Option.noConfusion he
        exact hg3old x hxi hxt
      rw [hids]
      exact hm.ids_incr p lk2 c2 hp hd2
  · intro i hi
    have hi1 : i ∈ a1.freeList := hi
    obtain ⟨hgn, hlt⟩ := hA6 i hi1
    have hit : i ≠ lk.tail := by
      intro h
      rw [h, ha1t] at hgn
      exact Option.noConfusion hgn
    constructor
    · rw [hg3ne i hit]
      exact hgn
    · rw [Arena.length_set]
      exact hlt
  · exact hA7

/-! ### One price limit crossed: drained or stopped -/

/-- Liquidity resting at one price (the chain's total size, `0` for an
absent or empty limit). -/
def liqAt (a : BookEntries) (pl : PriceLimits) (p : Nat) : Nat :=
  match getLink pl p with
  | none => 0
  | some lk => MatchingEngine.sizeAtLimitGo a a.slots.length (some lk.head)

/-- Liquidity over a list of prices. -/
def liqList (a : BookEntries) (pl : PriceLimits) (prices : List Nat) : Nat :=
  (prices.map (liqAt a pl)).sum

theorem liqList_nil (a : BookEntries) (pl : PriceLimits) : liqList a pl [] = 0 := rfl

theorem liqList_cons (a : BookEntries) (pl : PriceLimits) (p : Nat) (prices : List Nat) :
    liqList a pl (p :: prices) = liqAt a pl p + liqList a pl prices := by
  simp [liqList]

theorem liqAt_none {a : BookEntries} {pl : PriceLimits} {p : Nat}
    (h : getLink pl p = none) : liqAt a pl p = 0 := by
  simp [liqAt, h]

theorem liqAt_some {a : BookEntries} {pl : PriceLimits} {p : Nat} {lk : Link}
    {c : List Nat} (h : getLink pl p = some lk) (hc : chain a (some lk.head) = some c) :
    liqAt a pl p = sizeSum a c := by
  rw [liqAt, h]
  exact sizeAtLimitGo_spec hc

theorem exec_drain_spec {a : BookEntries} {pl : PriceLimits} {maxid p0 : Nat} {lk : Link}
    {c : List Nat} {order : Order}
    (hm : WFm a pl maxid)
    (hglk : getLink pl p0 = some lk)
    (hc : chain a (some lk.head) = some c)
    (hle : sizeSum a c ≤ order.size) :
    exec a lk order = (none, { order with size := order.size - sizeSum a c }, freeAll a c) ∧
    WFm (freeAll a c) (PriceLimits.setVal pl p0 { link := none }) maxid ∧
    (∀ p, p ≠ p0 → getLink (PriceLimits.setVal pl p0 { link := none }) p = getLink pl p) ∧
    getLink (PriceLimits.setVal pl p0 { link := none }) p0 = none ∧
    (∀ p lk2 c2, p ≠ p0 → getLink pl p = some lk2 → chain a (some lk2.head) = some c2 →
      chain (freeAll a c) (some lk2.head) = some c2 ∧
      ∀ x ∈ c2, (freeAll a c).get x = a.get x) := by
  have hcg : chainGo a a.slots.length (some lk.head) = some c := hc
  have hnd : c.Nodup := chainGo_nodup hcg
  have hkey : p0 ∈ PriceLimits.keys pl := PriceLimits.get_some_key (getLink_eq_some.mp hglk)
  have hexec : exec a lk order
      = (none, { order with size := order.size - sizeSum a c }, freeAll a c) :=
    (execGo_spec order hcg).1 hle
  have hgl2self : getLink (PriceLimits.setVal pl p0 { link := none }) p0 = none := by
    unfold getLink
    rw [PriceLimits.get_setVal_self hkey]
  have hgl2ne : ∀ p, p ≠ p0 →
      getLink (PriceLimits.setVal pl p0 { link := none }) p = getLink pl p := by
    intro p hp
    unfold getLink
    rw [PriceLimits.get_setVal_ne hp]
  have hframe : ∀ p lk2 c2, p ≠ p0 → getLink pl p = some lk2 →
      chain a (some lk2.head) = some c2 → ∀ x ∈ c2, (freeAll a c).get x = a.get x := by
    intro p lk2 c2 hp h2 hc2 x hx
    exact freeAll_get_not_mem (hm.disj p p0 lk2 lk c2 c hp h2 hglk hc2 hc x hx)
  have hpres : ∀ p lk2 c2, p ≠ p0 → getLink pl p = some lk2 →
      chain a (some lk2.head) = some c2 →
      chain (freeAll a c) (some lk2.head) = some c2 ∧
      ∀ x ∈ c2, (freeAll a c).get x = a.get x := by
    intro p lk2 c2 hp h2 hc2
    have hfr := hframe p lk2 c2 hp h2 hc2
    refine ⟨?_, hfr⟩
    exact chain_of_chainGo (chainGo_frame
      (show chainGo a a.slots.length (some lk2.head) = some c2 from hc2) hfr)
  refine ⟨hexec, ⟨PriceLimits.setVal_sorted hm.sorted _ _, ?_, ?_, ?_, ?_, ?_, ?_, ?_, ?_⟩,
    hgl2ne, hgl2self, hpres⟩
  · intro q hq
    rcases mem_setVal_cases hq with hq0 | ⟨rfl, _⟩
    · exact hm.keys_pos q hq0
    · obtain ⟨lim, hlim⟩ := PriceLimits.get_mem_keys hkey
      exact hm.keys_pos (p0, lim) (PriceLimits.get_some_mem hlim)
  · intro p lk2 hp
    by_cases hpq : p = p0
    · subst hpq
      rw [hgl2self] at hp
      exact Option.noConfusion hp
    · rw [hgl2ne p hpq] at hp
      obtain ⟨c2, hc2, hc2ne, hc2last⟩ := hm.chains p lk2 hp
      exact ⟨c2, (hpres p lk2 c2 hpq hp hc2).1, hc2ne, hc2last⟩
  · intro p1 p2 lk1 lk2 c1 c2 hne h1 h2 hc1 hc2
    by_cases hp1 : p1 = p0
    · subst hp1
      rw [hgl2self] at h1
      exact Option.noConfusion h1
    · by_cases hp2 : p2 = p0
      · subst hp2
        rw [hgl2self] at h2
        exact Option.noConfusion h2
      · rw [hgl2ne p1 hp1] at h1
        rw [hgl2ne p2 hp2] at h2
        obtain ⟨d1, hd1, hd1ne, hd1last⟩ := hm.chains p1 lk1 h1
        obtain ⟨d2, hd2, hd2ne, hd2last⟩ := hm.chains p2 lk2 h2
        obtain rfl : c1 = d1 := chain_det hc1 (hpres p1 lk1 d1 hp1 h1 hd1).1
        obtain rfl : c2 = d2 := chain_det hc2 (hpres p2 lk2 d2 hp2 h2 hd2).1
        exact hm.disj p1 p2 lk1 lk2 c1 c2 hne h1 h2 hd1 hd2
  · intro i e hi
    by_cases hic : i ∈ c
    · rw [freeAll_get_mem hnd hic] at hi
      exact Option.noConfusion hi
    · rw [freeAll_get_not_mem hic] at hi
      exact hm.sizes_pos i e hi
  · intro i e hi
    by_cases hic : i ∈ c
    · rw [freeAll_get_mem hnd hic] at hi
      exact Option.noConfusion hi
    · rw [freeAll_get_not_mem hic] at hi
      exact hm.ids_lt i e hi
  · intro p lk2 c2 hp hc2
    by_cases hpq : p = p0
    · subst hpq
      rw [hgl2self] at hp
      exact Option.noConfusion hp
    · rw [hgl2ne p hpq] at hp
      obtain ⟨d2, hd2, hd2ne, hd2last⟩ := hm.chains p lk2 hp
      obtain rfl : c2 = d2 := chain_det hc2 (hpres p lk2 d2 hpq hp hd2).1
      rw [idsOf_congr (hframe p lk2 c2 hpq hp hd2)]
      exact hm.ids_incr p lk2 c2 hp hd2
  · intro i hi
    rw [freeAll_freeList] at hi
    rcases List.mem_append.mp hi with hi0 | hi0
    · rw [List.mem_reverse] at hi0
      constructor
      · exact freeAll_get_mem hnd hi0
      · rw [freeAll_length]
        exact chainGo_mem_lt hcg hi0
    · obtain ⟨hgn, hlt⟩ := hm.free_valid i hi0
      have hic : i ∉ c := by
        intro hmem
        obtain ⟨e, he⟩ := chainGo_mem_get hcg hmem
        rw [hgn] at he
        exact Option.noConfusion he
      constructor
      · rw [freeAll_get_not_mem hic]
        exact hgn
      · rw [freeAll_length]
        exact hlt
  · rw [freeAll_freeList]
    rw [List.nodup_append]
    refine ⟨List.nodup_reverse.mpr hnd, hm.free_nodup, ?_⟩
    intro i hi1 hi2
    rw [List.mem_reverse] at hi1
    obtain ⟨e, he⟩ := chainGo_mem_get hcg hi1
    rw [(hm.free_valid i hi2).1] at he
    exact Option.noConfusion he

theorem exec_stop_spec {a : BookEntries} {pl : PriceLimits} {maxid p0 : Nat} {lk : Link}
    {c : List Nat} {order : Order}
    (hm : WFm a pl maxid)
    (hglk : getLink pl p0 = some lk)
    (hc : chain a (some lk.head) = some c)
    (hlast : c.getLast? = some lk.tail)
    (hlt : order.size < sizeSum a c) :
    ∃ pre j suf e,
      c = pre ++ j :: suf ∧
      a.get j = some e ∧
      sizeSum a pre ≤ order.size ∧
      order.size - sizeSum a pre < e.size ∧
      exec a lk order = (some j, { order with size := 0 },
        (freeAll a pre).set j { e with size := e.size - (order.size - sizeSum a pre) }) ∧
      WFm ((freeAll a pre).set j { e with size := e.size - (order.size - sizeSum a pre) })
        (PriceLimits.setVal pl p0 { link := some { head := j, tail := lk.tail } }) maxid ∧
      (∀ p, p ≠ p0 →
        getLink (PriceLimits.setVal pl p0 { link := some { head := j, tail := lk.tail } }) p
        = getLink pl p) ∧
      getLink (PriceLimits.setVal pl p0 { link := some { head := j, tail := lk.tail } }) p0
        = some { head := j, tail := lk.tail } ∧
      chain ((freeAll a pre).set j { e with size := e.size - (order.size - sizeSum a pre) })
        (some j) = some (j :: suf) ∧
      idsOf ((freeAll a pre).set j { e with size := e.size - (order.size - sizeSum a pre) })
        (j :: suf) = idsOf a (j :: suf) ∧
      sizeSum ((freeAll a pre).set j { e with size := e.size - (order.size - sizeSum a pre) })
        (j :: suf) = sizeSum a c - order.size ∧
      (∀ p lk2 c2, p ≠ p0 → getLink pl p = some lk2 → chain a (some lk2.head) = some c2 →
        chain ((freeAll a pre).set j { e with size := e.size - (order.size - sizeSum a pre) })
          (some lk2.head) = some c2 ∧
        ∀ x ∈ c2, ((freeAll a pre).set j
          { e with size := e.size - (order.size - sizeSum a pre) }).get x = a.get x) := by
  have hcg : chainGo a a.slots.length (some lk.head) = some c := hc
  have hnd : c.Nodup := chainGo_nodup hcg
  have hkey : p0 ∈ PriceLimits.keys pl := PriceLimits.get_some_key (getLink_eq_some.mp hglk)
  obtain ⟨pre, j, suf, e, hceq, hgj, hprele, hrem, hexec⟩ := (execGo_spec order hcg).2 hlt
  have hndsplit : pre.Nodup ∧ (j :: suf).Nodup ∧ pre.Disjoint (j :: suf) := by
    rw [hceq, List.nodup_append] at hnd
    exact hnd
  have hjpre : j ∉ pre := fun hmem => hndsplit.2.2 hmem (by simp)
  have hjsuf : j ∉ suf := (List.nodup_cons.mp hndsplit.2.1).1
  have hsufpre : ∀ x ∈ suf, x ∉ pre :=
    fun x hx hmem => hndsplit.2.2 hmem (List.mem_cons_of_mem _ hx)
  have hjc : j ∈ c := by rw [hceq]; simp
  have hjlt : j < a.slots.length := chainGo_mem_lt hcg hjc
  have ha2j : ((freeAll a pre).set j
      { e with size := e.size - (order.size - sizeSum a pre) }).get j
      = some { e with size := e.size - (order.size - sizeSum a pre) } :=
    Arena.get_set_self (by rw [freeAll_length]; exact hjlt) _
  have ha2ne : ∀ x, x ≠ j →
      ((freeAll a pre).set j { e with size := e.size - (order.size - sizeSum a pre) }).get x
      = (freeAll a pre).get x :=
    fun x hx => Arena.get_set_ne _ hx _
  have ha2old : ∀ x, x ≠ j → x ∉ pre →
      ((freeAll a pre).set j { e with size := e.size - (order.size - sizeSum a pre) }).get x
      = a.get x := by
    intro x hx hxp
    rw [ha2ne x hx, freeAll_get_not_mem hxp]
  have ha2suf : ∀ x ∈ suf,
      ((freeAll a pre).set j { e with size := e.size - (order.size - sizeSum a pre) }).get x
      = a.get x :=
    fun x hx => ha2old x (fun h => hjsuf (h ▸ hx)) (hsufpre x hx)
  have hdropj : chainGo a (a.slots.length - pre.length) (some j) = some (j :: suf) := by
    have hd := chainGo_drop hcg pre.length
    rw [hceq, List.drop_left] at hd
    exact hd
  obtain ⟨f0, e0, c0, hf0, hgj0, hnext, hcons⟩ := chainGo_cons_inv hdropj
  obtain rfl : e = e0 := by rw [hgj0] at hgj; exact (Option.some.inj hgj).symm
  obtain rfl : suf = c0 := (List.cons.inj hcons).2
  have hsufa2 : chainGo ((freeAll a pre).set j
      { e with size := e.size - (order.size - sizeSum a pre) }) f0 e.next = some suf :=
    chainGo_frame hnext ha2suf
  have hchain2go : chainGo ((freeAll a pre).set j
      { e with size := e.size - (order.size - sizeSum a pre) }) (f0 + 1) (some j)
      = some (j :: suf) := by
    rw [chainGo, ha2j]
    simp [hsufa2]
  have hchain2 : chain ((freeAll a pre).set j
      { e with size := e.size - (order.size - sizeSum a pre) }) (some j)
      = some (j :: suf) := chain_of_chainGo hchain2go
  have hlast2 : (j :: suf).getLast? = some lk.tail := by
    have h2 : (pre ++ j :: suf).getLast? = (j :: suf).getLast? :=
      List.getLast?_append_of_ne_nil pre (by simp)
    rw [← hceq, hlast] at h2
    exact h2.symm
  have hids2 : idsOf ((freeAll a pre).set j
      { e with size := e.size - (order.size - sizeSum a pre) }) (j :: suf)
      = idsOf a (j :: suf) := by
    apply idsOf_congr_id
    intro x hx
    rcases List.mem_cons.mp hx with rfl | hx0
    · rw [ha2j, hgj]
      simp
    · rw [ha2suf x hx0]
  have hsizes2 : sizeSum ((freeAll a pre).set j
      { e with size := e.size - (order.size - sizeSum a pre) }) (j :: suf)
      = sizeSum a c - order.size := by
    have h1 : sizeSum ((freeAll a pre).set j
        { e with size := e.size - (order.size - sizeSum a pre) }) suf = sizeSum a suf :=
      sizeSum_congr ha2suf
    rw [sizeSum_cons ha2j, h1]
    have h2 : sizeSum a c = sizeSum a pre + (e.size + sizeSum a suf) := by
      rw [hceq, sizeSum_append, sizeSum_cons hgj]
    show e.size - (order.size - sizeSum a pre) + sizeSum a suf = sizeSum a c - order.size
    omega
  have hframe : ∀ p lk2 c2, p ≠ p0 → getLink pl p = some lk2 →
      chain a (some lk2.head) = some c2 →
      ∀ x ∈ c2, ((freeAll a pre).set j
        { e with size := e.size - (order.size - sizeSum a pre) }).get x = a.get x := by
    intro p lk2 c2 hp h2 hc2 x hx
    have hdisj := hm.disj p p0 lk2 lk c2 c hp h2 hglk hc2 hc
    have hxc : x ∉ c := hdisj x hx
    refine ha2old x (fun h => hxc (h ▸ hjc)) (fun hmem => hxc ?_)
    rw [hceq]
    exact List.mem_append.mpr (Or.inl hmem)
  have hpres : ∀ p lk2 c2, p ≠ p0 → getLink pl p = some lk2 →
      chain a (some lk2.head) = some c2 →
      chain ((freeAll a pre).set j { e with size := e.size - (order.size - sizeSum a pre) })
        (some lk2.head) = some c2 ∧
      ∀ x ∈ c2, ((freeAll a pre).set j
        { e with size := e.size - (order.size - sizeSum a pre) }).get x = a.get x := by
    intro p lk2 c2 hp h2 hc2
    have hfr := hframe p lk2 c2 hp h2 hc2
    refine ⟨?_, hfr⟩
    exact chain_of_chainGo (chainGo_frame
      (show chainGo a a.slots.length (some lk2.head) = some c2 from hc2) hfr)
  have hgl2self : getLink
      (PriceLimits.setVal pl p0 { link := some { head := j, tail := lk.tail } }) p0
      = some { head := j, tail := lk.tail } := by
    unfold getLink
    rw [PriceLimits.get_setVal_self hkey]
  have hgl2ne : ∀ p, p ≠ p0 →
      getLink (PriceLimits.setVal pl p0 { link := some { head := j, tail := lk.tail } }) p
      = getLink pl p := by
    intro p hp
    unfold getLink
    rw [PriceLimits.get_setVal_ne hp]
  have hsubc : ∀ x ∈ j :: suf, x ∈ c := by
    intro x hx
    rw [hceq]
    exact List.mem_append.mpr (Or.inr hx)
  refine ⟨pre, j, suf, e, hceq, hgj, hprele, hrem, hexec,
    ⟨PriceLimits.setVal_sorted hm.sorted _ _, ?_, ?_, ?_, ?_, ?_, ?_, ?_, ?_⟩,
    hgl2ne, hgl2self, hchain2, hids2, hsizes2, hpres⟩
  · intro q hq
    rcases mem_setVal_cases hq with hq0 | ⟨rfl, _⟩
    · exact hm.keys_pos q hq0
    · obtain ⟨lim, hlim⟩ := PriceLimits.get_mem_keys hkey
      exact hm.keys_pos (p0, lim) (PriceLimits.get_some_mem hlim)
  · intro p lk2 hp
    by_cases hpq : p = p0
    · subst hpq
      rw [hgl2self] at hp
      obtain rfl : lk2 = { head := j, tail := lk.tail } := (Option.some.inj hp).symm
      exact ⟨j :: suf, hchain2, by simp, hlast2⟩
    · rw [hgl2ne p hpq] at hp
      obtain ⟨c2, hc2, hc2ne, hc2last⟩ := hm.chains p lk2 hp
      exact ⟨c2, (hpres p lk2 c2 hpq hp hc2).1, hc2ne, hc2last⟩
  · intro p1 p2 lk1 lk2 c1 c2 hne h1 h2 hc1 hc2
    by_cases hp1 : p1 = p0
    · subst hp1
      rw [hgl2self] at h1
      obtain rfl : lk1 = { head := j, tail := lk.tail } := (Option.some.inj h1).symm
      have hc1x : chain ((freeAll a pre).set j
          { e with size := e.size - (order.size - sizeSum a pre) }) (some j) = some c1 := hc1
      obtain rfl : c1 = j :: suf := chain_det hc1x hchain2
      rw [hgl2ne p2 (fun h => hne h.symm)] at h2
      obtain ⟨d2, hd2, hd2ne, hd2last⟩ := hm.chains p2 lk2 h2
      obtain rfl : c2 = d2 := chain_det hc2 (hpres p2 lk2 d2 (fun h => hne h.symm) h2 hd2).1
      intro x hx
      exact hm.disj p1 p2 lk lk2 c c2 (fun h => hne h) hglk h2 hc hd2 x (hsubc x hx)
    · by_cases hp2 : p2 = p0
      · subst hp2
        rw [hgl2self] at h2
        obtain rfl : lk2 = { head := j, tail := lk.tail } := (Option.some.inj h2).symm
        have hc2x : chain ((freeAll a pre).set j
            { e with size := e.size - (order.size - sizeSum a pre) }) (some j) = some c2 := hc2
        obtain rfl : c2 = j :: suf := chain_det hc2x hchain2
        rw [hgl2ne p1 hp1] at h1
        obtain ⟨d1, hd1, hd1ne, hd1last⟩ := hm.chains p1 lk1 h1
        obtain rfl : c1 = d1 := chain_det hc1 (hpres p1 lk1 d1 hp1 h1 hd1).1
        intro x hx hmem
        exact hm.disj p1 p2 lk1 lk c1 c hp1 h1 hglk hd1 hc x hx (hsubc x hmem)
      · rw [hgl2ne p1 hp1] at h1
        rw [hgl2ne p2 hp2] at h2
        obtain ⟨d1, hd1, hd1ne, hd1last⟩ := hm.chains p1 lk1 h1
        obtain ⟨d2, hd2, hd2ne, hd2last⟩ := hm.chains p2 lk2 h2
        obtain rfl : c1 = d1 := chain_det hc1 (hpres p1 lk1 d1 hp1 h1 hd1).1
        obtain rfl : c2 = d2 := chain_det hc2 (hpres p2 lk2 d2 hp2 h2 hd2).1
        exact hm.disj p1 p2 lk1 lk2 c1 c2 hne h1 h2 hd1 hd2
  · intro i e2 hi
    by_cases hij : i = j
    · subst hij
      rw [ha2j] at hi
      obtain rfl : e2 = { e with size := e.size - (order.size - sizeSum a pre) } :=
        (Option.some.inj hi).symm
      show 0 < e.size - (order.size - sizeSum a pre)
      omega
    · by_cases hip : i ∈ pre
      · rw [ha2ne i hij, freeAll_get_mem hndsplit.1 hip] at hi
        exact Option.noConfusion hi
      · rw [ha2old i hij hip] at hi
        exact hm.sizes_pos i e2 hi
  · intro i e2 hi
    by_cases hij : i = j
    · subst hij
      rw [ha2j] at hi
      obtain rfl : e2 = { e with size := e.size - (order.size - sizeSum a pre) } :=
        (Option.some.inj hi).symm
      show e.id < maxid
      exact hm.ids_lt i e hgj
    · by_cases hip : i ∈ pre
      · rw [ha2ne i hij, freeAll_get_mem hndsplit.1 hip] at hi
        exact Option.noConfusion hi
      · rw [ha2old i hij hip] at hi
        exact hm.ids_lt i e2 hi
  · intro p lk2 c2 hp hc2
    by_cases hpq : p = p0
    · subst hpq
      rw [hgl2self] at hp
      obtain rfl : lk2 = { head := j, tail := lk.tail } := (Option.some.inj hp).symm
      have hc2x : chain ((freeAll a pre).set j
          { e with size := e.size - (order.size - sizeSum a pre) }) (some j) = some c2 := hc2
      obtain rfl : c2 = j :: suf := chain_det hc2x hchain2
      rw [hids2]
      have hall : (idsOf a c).Pairwise (· < ·) := hm.ids_incr p lk c hglk hc
      rw [hceq, idsOf_append] at hall
      exact (List.pairwise_append.mp hall).2.1
    · rw [hgl2ne p hpq] at hp
      obtain ⟨d2, hd2, hd2ne, hd2last⟩ := hm.chains p lk2 hp
      obtain rfl : c2 = d2 := chain_det hc2 (hpres p lk2 d2 hpq hp hd2).1
      rw [idsOf_congr (hframe p lk2 c2 hpq hp hd2)]
      exact hm.ids_incr p lk2 c2 hp hd2
  · intro i hi
    have hi1 : i ∈ (freeAll a pre).freeList := hi
    rw [freeAll_freeList] at hi1
    have hij : i ≠ j := by
      intro h
      subst h
      rcases List.mem_append.mp hi1 with hi0 | hi0
      · rw [List.mem_reverse] at hi0
        exact hjpre hi0
      · rw [(hm.free_valid i hi0).1] at hgj
        exact Option.noConfusion hgj
    rcases List.mem_append.mp hi1 with hi0 | hi0
    · rw [List.mem_reverse] at hi0
      constructor
      · rw [ha2ne i hij]
        exact freeAll_get_mem hndsplit.1 hi0
      · rw [Arena.length_set, freeAll_length]
        exact chainGo_mem_lt hcg (by rw [hceq]; exact List.mem_append.mpr (Or.inl hi0))
    · obtain ⟨hgn, hlt2⟩ := hm.free_valid i hi0
      have hip : i ∉ pre := by
        intro hmem
        have hic : i ∈ c := by rw [hceq]; exact List.mem_append.mpr (Or.inl hmem)
        obtain ⟨e2, he2⟩ := chainGo_mem_get hcg hic
        rw [hgn] at he2
        exact Option.noConfusion he2
      constructor
      · rw [ha2old i hij hip]
        exact hgn
      · rw [Arena.length_set, freeAll_length]
        exact hlt2
  · show (freeAll a pre).freeList.Nodup
    rw [freeAll_freeList, List.nodup_append]
    refine ⟨List.nodup_reverse.mpr hndsplit.1, hm.free_nodup, ?_⟩
    intro i hi1 hi2
    rw [List.mem_reverse] at hi1
    have hic : i ∈ c := by rw [hceq]; exact List.mem_append.mpr (Or.inl hi1)
    obtain ⟨e2, he2⟩ := chainGo_mem_get hcg hic
    rw [(hm.free_valid i hi2).1] at he2
    exact Option.noConfusion he2

theorem liqAt_congr {a a2 : BookEntries} {pl pl2 : PriceLimits} {maxid q : Nat}
    (hm : WFm a pl maxid)
    (hgl : getLink pl2 q = getLink pl q)
    (hch : ∀ lk c, getLink pl q = some lk → chain a (some lk.head) = some c →
      chain a2 (some lk.head) = some c ∧ ∀ x ∈ c, a2.get x = a.get x) :
    liqAt a2 pl2 q = liqAt a pl q := by
  unfold liqAt
  rw [hgl]
  cases hg : getLink pl q with
  | none => rfl
  | some lk =>
    obtain ⟨c, hc, hcne, hclast⟩ := hm.chains q lk hg
    obtain ⟨hc2, hget⟩ := hch lk c hg hc
    show MatchingEngine.sizeAtLimitGo a2 a2.slots.length (some lk.head)
      = MatchingEngine.sizeAtLimitGo a a.slots.length (some lk.head)
    rw [sizeAtLimitGo_spec (show chainGo a a.slots.length (some lk.head) = some c from hc),
      sizeAtLimitGo_spec (show chainGo a2 a2.slots.length (some lk.head) = some c from hc2)]
    exact sizeSum_congr hget

theorem liqList_congr {a a2 : BookEntries} {pl pl2 : PriceLimits} {maxid : Nat}
    (hm : WFm a pl maxid) {prices : List Nat}
    (hgl : ∀ q ∈ prices, getLink pl2 q = getLink pl q)
    (hch : ∀ q ∈ prices, ∀ lk c, getLink pl q = some lk → chain a (some lk.head) = some c →
      chain a2 (some lk.head) = some c ∧ ∀ x ∈ c, a2.get x = a.get x) :
    liqList a2 pl2 prices = liqList a pl prices := by
  unfold liqList
  congr 1
  apply List.map_congr_left
  intro q hq
  exact liqAt_congr hm (hgl q hq) (hch q hq)

theorem liqAt_pos {a : BookEntries} {pl : PriceLimits} {maxid q : Nat}
    (hm : WFm a pl maxid) {lk : Link} (hg : getLink pl q = some lk) :
    0 < liqAt a pl q := by
  obtain ⟨c, hc, hcne, hclast⟩ := hm.chains q lk hg
  rw [liqAt_some hg hc]
  cases c with
  | nil => exact absurd rfl hcne
  | cons x c0 =>
    have hx : x ∈ x :: c0 := by simp
    obtain ⟨e, he⟩ := chainGo_mem_get
      (show chainGo a a.slots.length (some lk.head) = some (x :: c0) from hc) hx
    rw [sizeSum_cons he]
    have := hm.sizes_pos x e he
    omega

theorem liqAt_zero_none {a : BookEntries} {pl : PriceLimits} {maxid q : Nat}
    (hm : WFm a pl maxid) (h : liqAt a pl q = 0) : getLink pl q = none := by
  cases hg : getLink pl q with
  | none => rfl
  | some lk =>
    have := liqAt_pos hm hg
    omega

theorem exitPrice_size (order : Order) (s : Nat) :
    exitPrice { order with size := s } = exitPrice order := rfl

/-! ### The crossing walk over a price range -/

theorem execRangeGo_spec {maxid : Nat} (prices : List Nat) :
    ∀ (a : BookEntries) (pl : PriceLimits) (order : Order) (res : ExecResult),
    WFm a pl maxid → prices.Nodup →
    (liqList a pl prices = 0 →
      execRangeGo a order res prices pl = (exitPrice order, res, a, pl)) ∧
    (0 < liqList a pl prices → liqList a pl prices ≤ order.size →
      ∃ a2 pl2,
        execRangeGo a order res prices pl =
          (exitPrice order,
           .Filled { order with size := order.size - liqList a pl prices }, a2, pl2) ∧
        WFm a2 pl2 maxid ∧
        (∀ p ∈ prices, getLink pl2 p = none) ∧
        (∀ p, p ∉ prices → getLink pl2 p = getLink pl p) ∧
        (∀ p lk2 c2, p ∉ prices → getLink pl p = some lk2 →
          chain a (some lk2.head) = some c2 →
          chain a2 (some lk2.head) = some c2 ∧ ∀ x ∈ c2, a2.get x = a.get x)) ∧
    (order.size < liqList a pl prices →
      ∃ done stop rest a2 pl2,
        prices = done ++ stop :: rest ∧
        liqList a pl done ≤ order.size ∧
        order.size < liqList a pl done + liqAt a pl stop ∧
        execRangeGo a order res prices pl = (stop, .Filled { order with size := 0 }, a2, pl2) ∧
        WFm a2 pl2 maxid ∧
        (∀ p ∈ done, getLink pl2 p = none) ∧
        (∀ p, p ∉ done → p ≠ stop → getLink pl2 p = getLink pl p) ∧
        (∀ p lk2 c2, p ∉ done → p ≠ stop → getLink pl p = some lk2 →
          chain a (some lk2.head) = some c2 →
          chain a2 (some lk2.head) = some c2 ∧ ∀ x ∈ c2, a2.get x = a.get x) ∧
        (∃ lk c pre j suf e,
          getLink pl stop = some lk ∧ chain a (some lk.head) = some c ∧
          c = pre ++ j :: suf ∧ a.get j = some e ∧
          getLink pl2 stop = some { head := j, tail := lk.tail } ∧
          chain a2 (some j) = some (j :: suf) ∧
          idsOf a2 (j :: suf) = idsOf a (j :: suf) ∧
          sizeSum a2 (j :: suf) = liqList a pl (done ++ [stop]) - order.size ∧
          sizeSum a pre ≤ order.size - liqList a pl done ∧
          order.size - liqList a pl done - sizeSum a pre < e.size)) := by
  induction prices with
  | nil =>
    intro a pl order res hm hnd
    refine ⟨?_, ?_, ?_⟩
    · intro h0
      rfl
    · intro hpos hle
      rw [liqList_nil] at hpos
      omega
    · intro hlt
      rw [liqList_nil] at hlt
      omega
  | cons p rest0 ih =>
    intro a pl order res hm hnd
    have hndr : rest0.Nodup := (List.nodup_cons.mp hnd).2
    have hpnr : p ∉ rest0 := (List.nodup_cons.mp hnd).1
    cases hgl : getLink pl p with
    | none =>
      have hliqp : liqAt a pl p = 0 := liqAt_none hgl
      have hstep : execRangeGo a order res (p :: rest0) pl
          = execRangeGo a order res rest0 pl := by
        cases hget : PriceLimits.get pl p with
        | none => simp only [execRangeGo, hget]
        | some lim =>
          have hln : lim.link = none := by
            have h0 : getLink pl p = lim.link := by unfold getLink; rw [hget]
            rw [hgl] at h0
            exact h0.symm
          simp only [execRangeGo, hget, hln]
      obtain ⟨ihA, ihB, ihC⟩ := ih a pl order res hm hndr
      have hliqcons : liqList a pl (p :: rest0) = liqList a pl rest0 := by
        rw [liqList_cons, hliqp]
        omega
      refine ⟨?_, ?_, ?_⟩
      · intro h0
        rw [hliqcons] at h0
        rw [hstep]
        exact ihA h0
      · intro hpos hle
        rw [hliqcons] at hpos hle
        obtain ⟨a2, pl2, hres, hwf, hdrained, huntch, hpres⟩ := ihB hpos hle
        refine ⟨a2, pl2, ?_, hwf, ?_, ?_, ?_⟩
        · rw [hstep, hres, hliqcons]
        · intro q hq
          rcases List.mem_cons.mp hq with rfl | hq0
          · rw [huntch q hpnr]
            exact hgl
          · exact hdrained q hq0
        · intro q hq
          have hq0 : q ∉ rest0 := fun h => hq (List.mem_cons_of_mem _ h)
          exact huntch q hq0
        · intro q lk2 c2 hq h2 hc2
          have hq0 : q ∉ rest0 := fun h => hq (List.mem_cons_of_mem _ h)
          exact hpres q lk2 c2 hq0 h2 hc2
      · intro hlt
        rw [hliqcons] at hlt
        obtain ⟨done, stop, rest, a2, pl2, hsplit, hdle, hdlt, hres, hwf, hdrained,
          huntch, hpres, hdetail⟩ := ihC hlt
        have hpd : p ∉ done := fun h => hpnr (by
          rw [hsplit]
          exact List.mem_append.mpr (Or.inl h))
        have hps : p ≠ stop := fun h => hpnr (by
          rw [hsplit]
          exact List.mem_append.mpr (Or.inr (h ▸ List.mem_cons_self _ _)))
        have hliqd : liqList a pl (p :: done) = liqList a pl done := by
          rw [liqList_cons, hliqp]
          omega
        refine ⟨p :: done, stop, rest, a2, pl2, by rw [hsplit, List.cons_append],
          by rw [hliqd]; exact hdle, by rw [hliqd]; exact hdlt, ?_, hwf, ?_, ?_, ?_, ?_⟩
        · rw [hstep, hres]
        · intro q hq
          rcases List.mem_cons.mp hq with rfl | hq0
          · rw [huntch q hpd hps]
            exact hgl
          · exact hdrained q hq0
        · intro q hq hqs
          have hq0 : q ∉ done := fun h => hq (List.mem_cons_of_mem _ h)
          exact huntch q hq0 hqs
        · intro q lk2 c2 hq hqs h2 hc2
          have hq0 : q ∉ done := fun h => hq (List.mem_cons_of_mem _ h)
          exact hpres q lk2 c2 hq0 hqs h2 hc2
        · obtain ⟨lk, c, pre, j, suf, e, hdgl, hdc, hdceq, hdgj, hd5, hd6, hd7, hd8,
            hd9, hd10⟩ := hdetail
          refine ⟨lk, c, pre, j, suf, e, hdgl, hdc, hdceq, hdgj, hd5, hd6, hd7, ?_, ?_, ?_⟩
          · rw [hd8]
            have : liqList a pl ((p :: done) ++ [stop]) = liqList a pl (done ++ [stop]) := by
              rw [List.cons_append, liqList_cons, hliqp]
              omega
            rw [this]
          · rw [hliqd]
            exact hd9
          · rw [hliqd]
            exact hd10
    | some lk =>
      have hget : PriceLimits.get pl p = some { link := some lk } := getLink_eq_some.mp hgl
      obtain ⟨c, hc, hcne, hclast⟩ := hm.chains p lk hgl
      have hliqp : liqAt a pl p = sizeSum a c := liqAt_some hgl hc
      have hliqppos : 0 < sizeSum a c := by
        have := liqAt_pos hm hgl
        omega
      by_cases hdr : sizeSum a c ≤ order.size
      · -- this limit is fully drained, continue into the rest of the range
        obtain ⟨hexec, hwf1, hgl1ne, hgl1self, hpres1⟩ :=
          exec_drain_spec hm hgl hc hdr
        have hstep : execRangeGo a order res (p :: rest0) pl
            = execRangeGo (freeAll a c) { order with size := order.size - sizeSum a c }
              (.Filled { order with size := order.size - sizeSum a c }) rest0
              (PriceLimits.setVal pl p { link := none }) := by
          simp only [execRangeGo, hget, hexec]
        have hglr : ∀ q ∈ rest0, getLink (PriceLimits.setVal pl p { link := none }) q
            = getLink pl q :=
          fun q hq => hgl1ne q (fun h => hpnr (h ▸ hq))
        have hchr : ∀ q ∈ rest0, ∀ lk2 c2, getLink pl q = some lk2 →
            chain a (some lk2.head) = some c2 →
            chain (freeAll a c) (some lk2.head) = some c2 ∧
            ∀ x ∈ c2, (freeAll a c).get x = a.get x :=
          fun q hq lk2 c2 h2 hc2 => hpres1 q lk2 c2 (fun h => hpnr (h ▸ hq)) h2 hc2
        have hliqr : liqList (freeAll a c) (PriceLimits.setVal pl p { link := none }) rest0
            = liqList a pl rest0 :=
          liqList_congr hm hglr hchr
        obtain ⟨ihA, ihB, ihC⟩ := ih (freeAll a c) (PriceLimits.setVal pl p { link := none })
          { order with size := order.size - sizeSum a c }
          (.Filled { order with size := order.size - sizeSum a c }) hwf1 hndr
        have hliqcons : liqList a pl (p :: rest0) = sizeSum a c + liqList a pl rest0 := by
          rw [liqList_cons, hliqp]
        refine ⟨?_, ?_, ?_⟩
        · intro h0
          rw [hliqcons] at h0
          omega
        · intro hpos hle
          rw [hliqcons] at hle
          by_cases hr0 : liqList a pl rest0 = 0
          · have hresA := ihA (by rw [hliqr]; exact hr0)
            refine ⟨freeAll a c, PriceLimits.setVal pl p { link := none }, ?_, hwf1,
              ?_, ?_, ?_⟩
            · rw [hstep, hresA]
              have hsz : order.size - sizeSum a c = order.size - liqList a pl (p :: rest0) := by
                rw [hliqcons, hr0]
                omega
              exact congrArg (fun s => (exitPrice order,
                ExecResult.Filled { order with size := s }, freeAll a c,
                PriceLimits.setVal pl p { link := none })) hsz
            · intro q hq
              rcases List.mem_cons.mp hq with rfl | hq0
              · exact hgl1self
              · have hq1 : liqAt a pl q = 0 := by
                  have hsum := hr0
                  unfold liqList at hsum
                  rw [List.sum_eq_zero_iff] at hsum
                  exact hsum _ (List.mem_map.mpr ⟨q, hq0, rfl⟩)
                rw [hglr q hq0]
                exact liqAt_zero_none hm hq1
            · intro q hq
              have hq0 : q ∉ rest0 := fun h => hq (List.mem_cons_of_mem _ h)
              have hqp : q ≠ p := fun h => hq (h ▸ List.mem_cons_self _ _)
              exact hgl1ne q hqp
            · intro q lk2 c2 hq h2 hc2
              have hqp : q ≠ p := fun h => hq (h ▸ List.mem_cons_self _ _)
              exact hpres1 q lk2 c2 hqp h2 hc2
          · have hpos2 : 0 < liqList (freeAll a c)
                (PriceLimits.setVal pl p { link := none }) rest0 := by
              rw [hliqr]; omega
            have hle2 : liqList (freeAll a c)
                (PriceLimits.setVal pl p { link := none }) rest0
                ≤ ({ order with size := order.size - sizeSum a c } : Order).size := by
              rw [hliqr]
              show liqList a pl rest0 ≤ order.size - sizeSum a c
              omega
            obtain ⟨a2, pl2, hres, hwf, hdrained, huntch, hpres⟩ := ihB hpos2 hle2
            refine ⟨a2, pl2, ?_, hwf, ?_, ?_, ?_⟩
            · rw [hstep, hres]
              have hsz : ({ order with size := order.size - sizeSum a c } : Order).size
                  - liqList (freeAll a c) (PriceLimits.setVal pl p { link := none }) rest0
                  = order.size - liqList a pl (p :: rest0) := by
                rw [hliqr]
                show order.size - sizeSum a c - liqList a pl rest0
                  = order.size - liqList a pl (p :: rest0)
                rw [hliqcons]
                omega
              exact congrArg (fun s => (exitPrice order,
                ExecResult.Filled { order with size := s }, a2, pl2)) hsz
            · intro q hq
              rcases List.mem_cons.mp hq with rfl | hq0
              · rw [huntch q hpnr]
                exact hgl1self
              · exact hdrained q hq0
            · intro q hq
              have hq0 : q ∉ rest0 := fun h => hq (List.mem_cons_of_mem _ h)
              have hqp : q ≠ p := fun h => hq (h ▸ List.mem_cons_self _ _)
              rw [huntch q hq0]
              exact hgl1ne q hqp
            · intro q lk2 c2 hq h2 hc2
              have hq0 : q ∉ rest0 := fun h => hq (List.mem_cons_of_mem _ h)
              have hqp : q ≠ p := fun h => hq (h ▸ List.mem_cons_self _ _)
              obtain ⟨hch1, hget1⟩ := hpres1 q lk2 c2 hqp h2 hc2
              obtain ⟨hch2, hget2⟩ := hpres q lk2 c2 hq0 (by rw [hgl1ne q hqp]; exact h2) hch1
              exact ⟨hch2, fun x hx => by rw [hget2 x hx, hget1 x hx]⟩
        · intro hlt
          rw [hliqcons] at hlt
          have hlt2 : ({ order with size := order.size - sizeSum a c } : Order).size
              < liqList (freeAll a c) (PriceLimits.setVal pl p { link := none }) rest0 := by
            rw [hliqr]
            show order.size - sizeSum a c < liqList a pl rest0
            omega
          obtain ⟨done, stop, rest, a2, pl2, hsplit, hdle, hdlt, hres, hwf, hdrained,
            huntch, hpres, hdetail⟩ := ihC hlt2
          have hsd : stop ∈ rest0 := by
            rw [hsplit]
            exact List.mem_append.mpr (Or.inr (List.mem_cons_self _ _))
          have hsp : stop ≠ p := fun h => hpnr (h ▸ hsd)
          have hdsub : ∀ q ∈ done, q ∈ rest0 := by
            intro q hq
            rw [hsplit]
            exact List.mem_append.mpr (Or.inl hq)
          have hliqd : liqList (freeAll a c) (PriceLimits.setVal pl p { link := none }) done
              = liqList a pl done :=
            liqList_congr hm (fun q hq => hglr q (hdsub q hq))
              (fun q hq => hchr q (hdsub q hq))
          have hliqs : liqAt (freeAll a c) (PriceLimits.setVal pl p { link := none }) stop
              = liqAt a pl stop :=
            liqAt_congr hm (hglr stop hsd) (hchr stop hsd)
          have hliqps : liqList a pl (p :: done) = sizeSum a c + liqList a pl done := by
            rw [liqList_cons, hliqp]
          refine ⟨p :: done, stop, rest, a2, pl2, by rw [hsplit, List.cons_append], ?_, ?_,
            ?_, hwf, ?_, ?_, ?_, ?_⟩
          · rw [hliqps]
            rw [hliqd] at hdle
            have : liqList a pl done ≤ order.size - sizeSum a c := hdle
            omega
          · rw [hliqps]
            rw [hliqd] at hdlt
            rw [hliqs] at hdlt
            have : order.size - sizeSum a c < liqList a pl done + liqAt a pl stop := hdlt
            omega
          · rw [hstep, hres]
          · intro q hq
            rcases List.mem_cons.mp hq with rfl | hq0
            · rw [huntch q (fun h => hpnr (hdsub q h)) (fun h => hpnr (h ▸ hsd))]
              exact hgl1self
            · exact hdrained q hq0
          · intro q hq hqs
            have hq0 : q ∉ done := fun h => hq (List.mem_cons_of_mem _ h)
            have hqp : q ≠ p := fun h => hq (h ▸ List.mem_cons_self _ _)
            rw [huntch q hq0 hqs]
            exact hgl1ne q hqp
          · intro q lk2 c2 hq hqs h2 hc2
            have hq0 : q ∉ done := fun h => hq (List.mem_cons_of_mem _ h)
            have hqp : q ≠ p := fun h => hq (h ▸ List.mem_cons_self _ _)
            obtain ⟨hch1, hget1⟩ := hpres1 q lk2 c2 hqp h2 hc2
            obtain ⟨hch2, hget2⟩ := hpres q lk2 c2 hq0 hqs
              (by rw [hgl1ne q hqp]; exact h2) hch1
            exact ⟨hch2, fun x hx => by rw [hget2 x hx, hget1 x hx]⟩
          · obtain ⟨lkS, cS, pre, j, suf, e, hdgl, hdc, hdceq, hdgj, hd5, hd6, hd7, hd8,
              hd9, hd10⟩ := hdetail
            rw [hglr stop hsd] at hdgl
            obtain ⟨c0, hc0, hc0ne, hc0last⟩ := hm.chains stop lkS hdgl
            obtain ⟨hch1, hget1⟩ := hchr stop hsd lkS c0 hdgl hc0
            obtain rfl : cS = c0 := chain_det hdc hch1
            have hjc : j ∈ cS := by rw [hdceq]; simp
            have hgja : a.get j = some e := by
              rw [← hget1 j hjc]
              exact hdgj
            have hidsc : idsOf (freeAll a c) (j :: suf) = idsOf a (j :: suf) :=
              idsOf_congr (fun x hx => hget1 x (by
                rw [hdceq]
                exact List.mem_append.mpr (Or.inr hx)))
            refine ⟨lkS, cS, pre, j, suf, e, hdgl, hc0, hdceq, hgja, hd5, hd6,
              hd7.trans hidsc, ?_, ?_, ?_⟩
            · rw [hd8]
              have hds : ∀ q ∈ done ++ [stop], q ∈ rest0 := by
                intro q hq
                rcases List.mem_append.mp hq with hq0 | hq0
                · exact hdsub q hq0
                · rw [List.mem_singleton] at hq0
                  exact hq0 ▸ hsd
              have h1 : liqList (freeAll a c) (PriceLimits.setVal pl p { link := none })
                  (done ++ [stop]) = liqList a pl (done ++ [stop]) :=
                liqList_congr hm (fun q hq => hglr q (hds q hq))
                  (fun q hq => hchr q (hds q hq))
              rw [h1]
              have h2 : liqList a pl ((p :: done) ++ [stop])
                  = sizeSum a c + liqList a pl (done ++ [stop]) := by
                rw [List.cons_append, liqList_cons, hliqp]
              rw [h2]
              show liqList a pl (done ++ [stop])
                  - ({ order with size := order.size - sizeSum a c } : Order).size
                = sizeSum a c + liqList a pl (done ++ [stop]) - order.size
              show liqList a pl (done ++ [stop]) - (order.size - sizeSum a c)
                = sizeSum a c + liqList a pl (done ++ [stop]) - order.size
              omega
            · have h1 : sizeSum (freeAll a c) pre = sizeSum a pre := by
                apply sizeSum_congr
                intro x hx
                apply hget1
                rw [hdceq]
                exact List.mem_append.mpr (Or.inl hx)
              rw [hliqd] at hd9
              rw [h1] at hd9
              rw [hliqps]
              show sizeSum a pre ≤ order.size - (sizeSum a c + liqList a pl done)
              have h3 : sizeSum a pre
                  ≤ ({ order with size := order.size - sizeSum a c } : Order).size
                    - liqList a pl done := hd9
              have h4 : sizeSum a pre ≤ order.size - sizeSum a c - liqList a pl done := h3
              omega
            · have h1 : sizeSum (freeAll a c) pre = sizeSum a pre := by
                apply sizeSum_congr
                intro x hx
                apply hget1
                rw [hdceq]
                exact List.mem_append.mpr (Or.inl hx)
              rw [hliqd, h1] at hd10
              rw [hliqps]
              have h4 : ({ order with size := order.size - sizeSum a c } : Order).size
                  - liqList a pl done - sizeSum a pre < e.size := hd10
              have h5 : order.size - sizeSum a c - liqList a pl done - sizeSum a pre
                  < e.size := h4
              omega
      · -- the crossing stops inside this limit
        push_neg at hdr
        obtain ⟨pre, j, suf, e, hceq, hgj, hprele, hrem, hexec, hwf2, hgl2ne, hgl2self,
          hchain2, hids2, hsizes2, hpres2⟩ := exec_stop_spec hm hgl hc hclast hdr
        have hstep : execRangeGo a order res (p :: rest0) pl
            = (p, .Filled { order with size := 0 },
               (freeAll a pre).set j { e with size := e.size - (order.size - sizeSum a pre) },
               PriceLimits.setVal pl p { link := some { head := j, tail := lk.tail } }) := by
          simp only [execRangeGo, hget, hexec]
        refine ⟨?_, ?_, ?_⟩
        · intro h0
          rw [liqList_cons, hliqp] at h0
          omega
        · intro hpos hle
          rw [liqList_cons, hliqp] at hle
          omega
        · intro hlt
          refine ⟨[], p, rest0, _, _, rfl, by rw [liqList_nil]; omega,
            by rw [liqList_nil, hliqp]; omega, hstep, hwf2, by simp, ?_, ?_, ?_⟩
          · intro q hq hqs
            exact hgl2ne q hqs
          · intro q lk2 c2 hq hqs h2 hc2
            exact hpres2 q lk2 c2 hqs h2 hc2
          · refine ⟨lk, c, pre, j, suf, e, hgl, hc, hceq, hgj, hgl2self, hchain2, hids2,
              ?_, by rw [liqList_nil]; omega, by rw [liqList_nil]; omega⟩
            rw [hsizes2]
            have : liqList a pl ([] ++ [p]) = sizeSum a c := by
              rw [List.nil_append]
              show liqList a pl [p] = sizeSum a c
              rw [liqList_cons, liqList_nil, hliqp]
              omega
            rw [this]

theorem insert_order_spec (me : MatchingEngine) (order : Order)
    (hm : WFm me.entries me.price_limits me.max_entry_id)
    (hsz : 0 < order.size) (hpp : 0 < order.price) (hpm : order.price < PMAX) :
    (me.insert_order order).1 = me.max_entry_id ∧
    (me.insert_order order).2.max_entry_id = me.max_entry_id + 1 ∧
    (me.insert_order order).2.best_bid =
      (match order.side with
       | .Buy => if me.best_bid < order.price then order.price else me.best_bid
       | .Sell => me.best_bid) ∧
    (me.insert_order order).2.best_ask =
      (match order.side with
       | .Sell => if order.price < me.best_ask then order.price else me.best_ask
       | .Buy => me.best_ask) ∧
    WFm (me.insert_order order).2.entries (me.insert_order order).2.price_limits
      (me.insert_order order).2.max_entry_id ∧
    (∀ p, p ≠ order.price →
      getLink (me.insert_order order).2.price_limits p = getLink me.price_limits p) ∧
    getLink (me.insert_order order).2.price_limits order.price ≠ none ∧
    (∀ p lk c, p ≠ order.price → getLink me.price_limits p = some lk →
      chain me.entries (some lk.head) = some c →
      chain (me.insert_order order).2.entries (some lk.head) = some c) ∧
    (∃ idx lk2 c2,
      getLink (me.insert_order order).2.price_limits order.price = some lk2 ∧
      chain (me.insert_order order).2.entries (some lk2.head) = some c2 ∧
      (me.insert_order order).2.entries.get idx =
        some { size := order.size, next := none, id := me.max_entry_id } ∧
      ((getLink me.price_limits order.price = none ∧ c2 = [idx]) ∨
       (∃ lk c, getLink me.price_limits order.price = some lk ∧
         chain me.entries (some lk.head) = some c ∧ c2 = c ++ [idx]))) := by
  obtain ⟨idx, a1, hAv⟩ :
      ∃ idx a1, me.entries.alloc { size := order.size, next := none, id := me.max_entry_id }
        = (idx, a1) :=
    ⟨_, _, rfl⟩
  obtain ⟨hA1, hA2, hA3, hA4, hA5, hA6, hA7⟩ :
      a1.get idx = some { size := order.size, next := none, id := me.max_entry_id } ∧
      (∀ j, j ≠ idx → a1.get j = me.entries.get j) ∧
      me.entries.get idx = none ∧
      idx < a1.slots.length ∧
      me.entries.slots.length ≤ a1.slots.length ∧
      (∀ i ∈ a1.freeList, a1.get i = none ∧ i < a1.slots.length) ∧
      a1.freeList.Nodup := by
    have h := alloc_spec me.entries
      { size := order.size, next := none, id := me.max_entry_id } hm.free_valid hm.free_nodup
    rw [hAv] at h
    exact h
  cases hglk : getLink me.price_limits order.price with
  | none =>
    cases hget : PriceLimits.get me.price_limits order.price with
    | none =>
      have hnk : order.price ∉ PriceLimits.keys me.price_limits :=
        PriceLimits.get_none_iff.mp hget
      have hgi : PriceLimits.get
          (PriceLimits.insertSorted me.price_limits order.price { link := none }) order.price
          = some { link := none } :=
        PriceLimits.get_insertSorted_self _ _ _ hnk
      have hr : me.insert_order order =
          (me.max_entry_id,
           { price_limits := PriceLimits.setVal
               (PriceLimits.insertSorted me.price_limits order.price { link := none })
               order.price { link := some { head := idx, tail := idx } },
             entries := a1,
             best_bid :=
               match order.side with
               | .Buy => if me.best_bid < order.price then order.price else me.best_bid
               | .Sell => me.best_bid,
             best_ask :=
               match order.side with
               | .Sell => if order.price < me.best_ask then order.price else me.best_ask
               | .Buy => me.best_ask,
             max_entry_id := me.max_entry_id + 1 }) := by
        simp only [MatchingEngine.insert_order, hAv, hget, hgi, Option.getD_some]
      have hkA : order.price ∈ PriceLimits.keys
          (PriceLimits.insertSorted me.price_limits order.price { link := none }) :=
        (PriceLimits.keys_insertSorted _ _ _).mpr (Or.inl rfl)
      have hwf : WFm a1
          (PriceLimits.setVal
            (PriceLimits.insertSorted me.price_limits order.price { link := none })
            order.price { link := some { head := idx, tail := idx } })
          (me.max_entry_id + 1) :=
        WFm_insert_fresh hm hsz hpp hpm hA1 hA2 hA3 hA4 hA6 hA7 hglk
          (PriceLimits.insertSorted_sorted hm.sorted hnk _)
          (fun q hq => by
            rcases mem_insertSorted_cases hq with rfl | hq0
            · exact ⟨hpp, hpm⟩
            · exact hm.keys_pos q hq0)
          (fun q hq => PriceLimits.get_insertSorted_ne _ _ _ hq)
          hkA
      have hgl2self : getLink
          (PriceLimits.setVal
            (PriceLimits.insertSorted me.price_limits order.price { link := none })
            order.price { link := some { head := idx, tail := idx } }) order.price
          = some { head := idx, tail := idx } := by
        unfold getLink
        rw [PriceLimits.get_setVal_self hkA]
      rw [hr]
      refine ⟨rfl, rfl, rfl, rfl, hwf, ?_, ?_, ?_, ?_⟩
      · intro p hp
        show getLink (PriceLimits.setVal
            (PriceLimits.insertSorted me.price_limits order.price { link := none })
            order.price { link := some { head := idx, tail := idx } }) p
          = getLink me.price_limits p
        unfold getLink
        rw [PriceLimits.get_setVal_ne hp, PriceLimits.get_insertSorted_ne _ _ _ hp]
      · show getLink (PriceLimits.setVal
            (PriceLimits.insertSorted me.price_limits order.price { link := none })
            order.price { link := some { head := idx, tail := idx } }) order.price ≠ none
        rw [hgl2self]
        simp
      · intro p lk c hp hg hc
        exact (chain_lift hc hA2 hA3).1
      · refine ⟨idx, { head := idx, tail := idx }, [idx], hgl2self,
          chain_singleton hA1 rfl hA4, hA1, Or.inl ⟨rfl, rfl⟩⟩
    | some lim =>
      have hln : lim.link = none := by
        have h0 : getLink me.price_limits order.price = lim.link := by
          unfold getLink
          rw [hget]
        rw [hglk] at h0
        exact h0.symm
      obtain ⟨l⟩ := lim
      obtain rfl : l = none := hln
      have hkA : order.price ∈ PriceLimits.keys me.price_limits :=
        PriceLimits.get_some_key hget
      have hr : me.insert_order order =
          (me.max_entry_id,
           { price_limits := PriceLimits.setVal me.price_limits
               order.price { link := some { head := idx, tail := idx } },
             entries := a1,
             best_bid :=
               match order.side with
               | .Buy => if me.best_bid < order.price then order.price else me.best_bid
               | .Sell => me.best_bid,
             best_ask :=
               match order.side with
               | .Sell => if order.price < me.best_ask then order.price else me.best_ask
               | .Buy => me.best_ask,
             max_entry_id := me.max_entry_id + 1 }) := by
        simp only [MatchingEngine.insert_order, hAv, hget, Option.getD_some]
      have hwf : WFm a1
          (PriceLimits.setVal me.price_limits
            order.price { link := some { head := idx, tail := idx } })
          (me.max_entry_id + 1) :=
        WFm_insert_fresh hm hsz hpp hpm hA1 hA2 hA3 hA4 hA6 hA7 hglk
          hm.sorted hm.keys_pos (fun q hq => rfl) hkA
      have hgl2self : getLink
          (PriceLimits.setVal me.price_limits
            order.price { link := some { head := idx, tail := idx } }) order.price
          = some { head := idx, tail := idx } := by
        unfold getLink
        rw [PriceLimits.get_setVal_self hkA]
      rw [hr]
      refine ⟨rfl, rfl, rfl, rfl, hwf, ?_, ?_, ?_, ?_⟩
      · intro p hp
        show getLink (PriceLimits.setVal me.price_limits
            order.price { link := some { head := idx, tail := idx } }) p
          = getLink me.price_limits p
        unfold getLink
        rw [PriceLimits.get_setVal_ne hp]
      · show getLink (PriceLimits.setVal me.price_limits
            order.price { link := some { head := idx, tail := idx } }) order.price ≠ none
        rw [hgl2self]
        simp
      · intro p lk c hp hg hc
        exact (chain_lift hc hA2 hA3).1
      · refine ⟨idx, { head := idx, tail := idx }, [idx], hgl2self,
          chain_singleton hA1 rfl hA4, hA1, Or.inl ⟨rfl, rfl⟩⟩
  | some lk =>
    have hget : PriceLimits.get me.price_limits order.price = some { link := some lk } :=
      getLink_eq_some.mp hglk
    obtain ⟨c, hc, hcne, hclast⟩ := hm.chains order.price lk hglk
    have htmem : lk.tail ∈ c := mem_of_getLastQ hclast
    obtain ⟨te, hte⟩ := chainGo_mem_get
      (show chainGo me.entries me.entries.slots.length (some lk.head) = some c from hc) htmem
    have htne : lk.tail ≠ idx := by
      intro h
      rw [h, hA3] at hte
      exact Option.noConfusion hte
    have ha1t : a1.get lk.tail = some te := by rw [hA2 lk.tail htne]; exact hte
    have hr : me.insert_order order =
        (me.max_entry_id,
         { price_limits := PriceLimits.setVal me.price_limits
             order.price { link := some { head := lk.head, tail := idx } },
           entries := a1.set lk.tail { te with next := some idx },
           best_bid :=
             match order.side with
             | .Buy => if me.best_bid < order.price then order.price else me.best_bid
             | .Sell => me.best_bid,
           best_ask :=
             match order.side with
             | .Sell => if order.price < me.best_ask then order.price else me.best_ask
             | .Buy => me.best_ask,
           max_entry_id := me.max_entry_id + 1 }) := by
      simp only [MatchingEngine.insert_order, hAv, hget, Option.getD_some, ha1t]
    obtain ⟨hwf, hchain3, hpres⟩ :=
      WFm_insert_tail hm hsz hA1 hA2 hA3 hA4 hA5 hA6 hA7 hglk hc hclast hte
    have hkey : order.price ∈ PriceLimits.keys me.price_limits :=
      PriceLimits.get_some_key hget
    have hgl2self : getLink
        (PriceLimits.setVal me.price_limits
          order.price { link := some { head := lk.head, tail := idx } }) order.price
        = some { head := lk.head, tail := idx } := by
      unfold getLink
      rw [PriceLimits.get_setVal_self hkey]
    have hg3idx : (a1.set lk.tail { te with next := some idx }).get idx
        = some { size := order.size, next := none, id := me.max_entry_id } := by
      rw [Arena.get_set_ne a1 (fun h => htne h.symm) _, hA1]
    rw [hr]
    refine ⟨rfl, rfl, rfl, rfl, hwf, ?_, ?_, ?_, ?_⟩
    · intro p hp
      show getLink (PriceLimits.setVal me.price_limits
          order.price { link := some { head := lk.head, tail := idx } }) p
        = getLink me.price_limits p
      unfold getLink
      rw [PriceLimits.get_setVal_ne hp]
    · show getLink (PriceLimits.setVal me.price_limits
          order.price { link := some { head := lk.head, tail := idx } }) order.price ≠ none
      rw [hgl2self]
      simp
    · intro p lk2 c2 hp hg hc2
      exact hpres p lk2 c2 hp hg hc2
    · exact ⟨idx, { head := lk.head, tail := idx }, c ++ [idx], hgl2self, hchain3,
        hg3idx, Or.inr ⟨lk, c, rfl, hc, rfl⟩⟩

/-! ### Insertion preserves the full invariant -/

theorem WF_insert_buy (me : MatchingEngine) (order : Order)
    (hwf : WF me) (hs : 0 < order.size) (hpp : 0 < order.price) (hpm : order.price < PMAX)
    (hside : order.side = Side.Buy)
    (hlt : order.price < me.best_ask) :
    WF (me.insert_order order).2 ∧
    (me.insert_order order).1 = me.max_entry_id ∧
    (me.insert_order order).2.max_entry_id = me.max_entry_id + 1 ∧
    ∃ i, (me.insert_order order).2.entries.get i
      = some { size := order.size, next := none, id := me.max_entry_id } := by
  obtain ⟨h1, h2, hbb, hba, hwfm, hglne, hglp, hpres, idx, lk2, c2, hgl2, hch2, hgi2, hrest⟩ :=
    insert_order_spec me order hwf.m hs hpp hpm
  have hbb2 : (me.insert_order order).2.best_bid
      = if me.best_bid < order.price then order.price else me.best_bid := by
    rw [hbb, hside]
  have hba2 : (me.insert_order order).2.best_ask = me.best_ask := by
    rw [hba, hside]
  refine ⟨⟨hwfm, ?_, ?_, ?_, ?_, ?_⟩, h1, h2, idx, hgi2⟩
  · intro hnz
    rw [hbb2] at hnz ⊢
    by_cases hbp : me.best_bid < order.price
    · rw [if_pos hbp] at hnz ⊢
      exact hglp
    · rw [if_neg hbp] at hnz ⊢
      by_cases hbq : me.best_bid = order.price
      · rw [hbq]
        exact hglp
      · rw [hglne me.best_bid hbq]
        exact hwf.i1 hnz
  · intro hnz
    rw [hba2] at hnz ⊢
    have hap : me.best_ask ≠ order.price := fun h => lt_irrefl _ (h ▸ hlt)
    rw [hglne me.best_ask hap]
    exact hwf.i2 hnz
  · intro p lk hpl
    rw [hbb2, hba2]
    by_cases hpq : p = order.price
    · subst hpq
      left
      by_cases hbp : me.best_bid < order.price
      · rw [if_pos hbp]
      · rw [if_neg hbp]
        omega
    · rw [hglne p hpq] at hpl
      rcases hwf.i3 p lk hpl with h | h
      · left
        by_cases hbp : me.best_bid < order.price
        · rw [if_pos hbp]
          omega
        · rw [if_neg hbp]
          exact h
      · right
        exact h
  · rw [hbb2, hba2]
    have := hwf.i4
    by_cases hbp : me.best_bid < order.price
    · rw [if_pos hbp]
      exact hlt
    · rw [if_neg hbp]
      exact this
  · rw [hba2]
    exact hwf.ask_le

theorem WF_insert_sell (me : MatchingEngine) (order : Order)
    (hwf : WF me) (hs : 0 < order.size) (hpp : 0 < order.price) (hpm : order.price < PMAX)
    (hside : order.side = Side.Sell)
    (hlt : me.best_bid < order.price) :
    WF (me.insert_order order).2 ∧
    (me.insert_order order).1 = me.max_entry_id ∧
    (me.insert_order order).2.max_entry_id = me.max_entry_id + 1 ∧
    ∃ i, (me.insert_order order).2.entries.get i
      = some { size := order.size, next := none, id := me.max_entry_id } := by
  obtain ⟨h1, h2, hbb, hba, hwfm, hglne, hglp, hpres, idx, lk2, c2, hgl2, hch2, hgi2, hrest⟩ :=
    insert_order_spec me order hwf.m hs hpp hpm
  have hbb2 : (me.insert_order order).2.best_bid = me.best_bid := by
    rw [hbb, hside]
  have hba2 : (me.insert_order order).2.best_ask
      = if order.price < me.best_ask then order.price else me.best_ask := by
    rw [hba, hside]
  refine ⟨⟨hwfm, ?_, ?_, ?_, ?_, ?_⟩, h1, h2, idx, hgi2⟩
  · intro hnz
    rw [hbb2] at hnz ⊢
    have hbp : me.best_bid ≠ order.price := fun h => lt_irrefl _ (h ▸ hlt)
    rw [hglne me.best_bid hbp]
    exact hwf.i1 hnz
  · intro hnz
    rw [hba2] at hnz ⊢
    by_cases hap : order.price < me.best_ask
    · rw [if_pos hap] at hnz ⊢
      exact hglp
    · rw [if_neg hap] at hnz ⊢
      by_cases haq : me.best_ask = order.price
      · rw [haq]
        exact hglp
      · rw [hglne me.best_ask haq]
        exact hwf.i2 hnz
  · intro p lk hpl
    rw [hbb2, hba2]
    by_cases hpq : p = order.price
    · subst hpq
      right
      by_cases hap : order.price < me.best_ask
      · rw [if_pos hap]
      · rw [if_neg hap]
        omega
    · rw [hglne p hpq] at hpl
      rcases hwf.i3 p lk hpl with h | h
      · left
        exact h
      · right
        by_cases hap : order.price < me.best_ask
        · rw [if_pos hap]
          omega
        · rw [if_neg hap]
          exact h
  · rw [hbb2, hba2]
    have := hwf.i4
    by_cases hap : order.price < me.best_ask
    · rw [if_pos hap]
      exact hlt
    · rw [if_neg hap]
      exact this
  · rw [hba2]
    by_cases hap : order.price < me.best_ask
    · rw [if_pos hap]
      omega
    · rw [if_neg hap]
      exact hwf.ask_le

/-! ### The public `limit` call characterized (buy side) -/

theorem limit_spec_buy (me : MatchingEngine) (order : Order)
    (hwf : WF me) (hval : validOrder order) (hside : order.side = Side.Buy) :
    WF (me.limit order).2 ∧
    ((me.limit order).1 = none ↔
      me.best_ask ≤ order.price ∧
      order.size ≤ liqList me.entries me.price_limits
        (PriceLimits.rangeKeys me.price_limits me.best_ask order.price)) ∧
    ((me.limit order).1 ≠ none →
      (me.limit order).1 = some me.max_entry_id ∧
      (me.limit order).2.max_entry_id = me.max_entry_id + 1) ∧
    ((me.limit order).1 = none →
      (me.limit order).2.max_entry_id = me.max_entry_id) ∧
    (me.best_ask ≤ order.price →
      order.size < liqList me.entries me.price_limits
        (PriceLimits.rangeKeys me.price_limits me.best_ask order.price) →
      ∃ done stop rest,
        PriceLimits.rangeKeys me.price_limits me.best_ask order.price
          = done ++ stop :: rest ∧
        (∀ p ∈ done, getLink (me.limit order).2.price_limits p = none) ∧
        (∀ p ∈ rest, getLink (me.limit order).2.price_limits p = getLink me.price_limits p) ∧
        (∃ lk c pre j suf e,
          getLink me.price_limits stop = some lk ∧
          chain me.entries (some lk.head) = some c ∧
          c = pre ++ j :: suf ∧ me.entries.get j = some e ∧
          getLink (me.limit order).2.price_limits stop
            = some { head := j, tail := lk.tail } ∧
          chain (me.limit order).2.entries (some j) = some (j :: suf) ∧
          idsOf (me.limit order).2.entries (j :: suf) = idsOf me.entries (j :: suf))) := by
  obtain ⟨hs, hpp, hpm⟩ := hval
  have hm := hwf.m
  by_cases hmk : me.best_ask ≤ order.price
  · -- marketable: the order crosses the ask range
    have hsortR : (PriceLimits.rangeKeys me.price_limits me.best_ask order.price).Pairwise
        (· < ·) := PriceLimits.rangeKeys_sorted hm.sorted _ _
    have hndR : (PriceLimits.rangeKeys me.price_limits me.best_ask order.price).Nodup :=
      hsortR.imp (fun h => Nat.ne_of_lt h)
    have hasklt : me.best_ask < PMAX := lt_of_le_of_lt hmk hpm
    obtain ⟨lk0, hlk0⟩ := getLink_ne_none (hwf.i2 (ne_of_lt hasklt))
    have hmem0 : me.best_ask
        ∈ PriceLimits.rangeKeys me.price_limits me.best_ask order.price := by
      rw [PriceLimits.mem_rangeKeys]
      exact ⟨PriceLimits.get_some_key (getLink_eq_some.mp hlk0), le_rfl, hmk⟩
    have hLpos : 0 < liqList me.entries me.price_limits
        (PriceLimits.rangeKeys me.price_limits me.best_ask order.price) := by
      have h1 := liqAt_pos hm hlk0
      have h2 : liqAt me.entries me.price_limits me.best_ask
          ≤ liqList me.entries me.price_limits
            (PriceLimits.rangeKeys me.price_limits me.best_ask order.price) :=
        List.single_le_sum (fun x hx => Nat.zero_le x) _
          (List.mem_map.mpr ⟨me.best_ask, hmem0, rfl⟩)
      omega
    have hRb : ∀ q ∈ PriceLimits.rangeKeys me.price_limits me.best_ask order.price,
        me.best_ask ≤ q ∧ q ≤ order.price := by
      intro q hq
      have := PriceLimits.mem_rangeKeys.mp hq
      exact ⟨this.2.1, this.2.2⟩
    have hbid0 : me.best_bid < me.best_ask := hwf.i4
    have hbidR : me.best_bid
        ∉ PriceLimits.rangeKeys me.price_limits me.best_ask order.price := by
      intro hmem
      have := (hRb _ hmem).1
      omega
    have hexitp : exitPrice order = order.price + 1 := by
      unfold exitPrice
      rw [hside]
    obtain ⟨caseA, caseB, caseC⟩ := execRangeGo_spec
      (PriceLimits.rangeKeys me.price_limits me.best_ask order.price)
      me.entries me.price_limits order .NotExecuted hm hndR
    rcases Nat.lt_or_ge order.size (liqList me.entries me.price_limits
        (PriceLimits.rangeKeys me.price_limits me.best_ask order.price)) with hOL | hLO
    · -- the crossing stops inside the range: fills completely, no remainder
      obtain ⟨done, stop, rest, a2, pl2, hsplit, hdle, hdlt, hres, hwfm2, hdrained,
        huntch, hpres, lkS, cS, pre, j, suf, e, hglS, hcS, hceqS, hgjS, hgl2S, hch2S,
        hids2S, hsz2S, hpreS, hremS⟩ := caseC hOL
      have hstopR : stop ∈ PriceLimits.rangeKeys me.price_limits me.best_ask order.price := by
        rw [hsplit]
        exact List.mem_append.mpr (Or.inr (List.mem_cons_self _ _))
      have hstopb := hRb stop hstopR
      have hstopkey : stop ∈ PriceLimits.keys me.price_limits :=
        PriceLimits.get_some_key (getLink_eq_some.mp hglS)
      have hstoplt : stop < PMAX := by
        obtain ⟨lim, hlim⟩ := PriceLimits.get_mem_keys hstopkey
        exact (hm.keys_pos (stop, lim) (PriceLimits.get_some_mem hlim)).2
      have hrestgt : ∀ p ∈ rest, stop < p := by
        have h1 : (done ++ stop :: rest).Pairwise (· < ·) := by rw [← hsplit]; exact hsortR
        have h2 := (List.pairwise_append.mp h1).2.1
        exact (List.pairwise_cons.mp h2).1
      have hdonend : ∀ p ∈ rest, p ∉ done ∧ p ≠ stop := by
        have h1 : (done ++ stop :: rest).Nodup := by rw [← hsplit]; exact hndR
        rw [List.nodup_append] at h1
        intro p hp
        constructor
        · intro hpd
          exact h1.2.2 hpd (List.mem_cons_of_mem _ hp)
        · intro hps
          exact (List.nodup_cons.mp h1.2.1).1 (hps ▸ hp)
      obtain ⟨bp, hfb⟩ : ∃ bp, PriceLimits.findBestAsc pl2 stop PMAX = some bp := by
        cases hfb0 : PriceLimits.findBestAsc pl2 stop PMAX with
        | none =>
          have h0 := findBestAsc_none hfb0 stop le_rfl (le_of_lt hstoplt)
          rw [hgl2S] at h0
          exact absurd h0 (by simp)
        | some bp => exact ⟨bp, rfl⟩
      obtain ⟨hbp1, hbp2, hbp3, hbp4⟩ := findBestAsc_some hwfm2.sorted hfb
      have hbps : bp = stop := by
        by_contra hne
        have h0 := hbp4 stop le_rfl (le_of_lt hstoplt) (by omega)
        rw [hgl2S] at h0
        exact Option.noConfusion h0
      have hr : me.limit order
          = (none, { me with entries := a2, price_limits := pl2, best_ask := bp }) := by
        simp [MatchingEngine.limit, hside, hmk, hres, hfb]
      rw [hr]
      refine ⟨⟨hwfm2, ?_, ?_, ?_, ?_, ?_⟩, ?_, ?_, ?_, ?_⟩
      · intro hnz
        show getLink pl2 me.best_bid ≠ none
        have hbd : me.best_bid ∉ done := by
          intro hmem
          have : me.best_bid ∈ PriceLimits.rangeKeys me.price_limits me.best_ask
              order.price := by
            rw [hsplit]
            exact List.mem_append.mpr (Or.inl hmem)
          exact hbidR this
        have hbs : me.best_bid ≠ stop := by
          intro h
          exact hbidR (h ▸ hstopR)
        rw [huntch me.best_bid hbd hbs]
        exact hwf.i1 hnz
      · intro hnz
        show getLink pl2 bp ≠ none
        rw [hbps, hgl2S]
        simp
      · intro p lk hpl
        show p ≤ me.best_bid ∨ bp ≤ p
        rw [hbps]
        by_cases hpd : p ∈ done
        · rw [hdrained p hpd] at hpl
          exact Option.noConfusion hpl
        · by_cases hps : p = stop
          · right
            omega
          · rw [huntch p hpd hps] at hpl
            rcases hwf.i3 p lk hpl with h | h
            · exact Or.inl h
            · right
              by_cases hpR : p ∈ PriceLimits.rangeKeys me.price_limits me.best_ask
                  order.price
              · have : p ∈ rest := by
                  rw [hsplit] at hpR
                  rcases List.mem_append.mp hpR with h2 | h2
                  · exact absurd h2 hpd
                  · rcases List.mem_cons.mp h2 with h3 | h3
                    · exact absurd h3 hps
                    · exact h3
                exact le_of_lt (hrestgt p this)
              · have hkey : p ∈ PriceLimits.keys me.price_limits :=
                  PriceLimits.get_some_key (getLink_eq_some.mp hpl)
                have : ¬ (me.best_ask ≤ p ∧ p ≤ order.price) := by
                  intro hb
                  exact hpR (PriceLimits.mem_rangeKeys.mpr ⟨hkey, hb.1, hb.2⟩)
                omega
      · show me.best_bid < bp
        omega
      · show bp ≤ PMAX
        exact hbp2
      · constructor
        · intro h
          exact ⟨hmk, le_of_lt hOL⟩
        · intro h
          rfl
      · intro h
        exact absurd rfl h
      · intro h
        rfl
      · intro hmk2 hOL2
        refine ⟨done, stop, rest, hsplit, hdrained, ?_,
          lkS, cS, pre, j, suf, e, hglS, hcS, hceqS, hgjS, hgl2S, hch2S, hids2S⟩
        intro p hp
        obtain ⟨h1, h2⟩ := hdonend p hp
        exact huntch p h1 h2
    · -- the range is fully drained; remainder (possibly zero) rests at the limit
      obtain ⟨a2, pl2, hres, hwfm2, hdrained, huntch, hpres⟩ := caseB hLpos hLO
      have hfbgoal : ∀ bp, PriceLimits.findBestAsc pl2 (order.price + 1) PMAX = some bp →
          WF { me with entries := a2, price_limits := pl2, best_ask := bp } := by
        intro bp hfb
        obtain ⟨hbp1, hbp2, hbp3, hbp4⟩ := findBestAsc_some hwfm2.sorted hfb
        refine ⟨hwfm2, ?_, ?_, ?_, ?_, ?_⟩
        · intro hnz
          show getLink pl2 me.best_bid ≠ none
          rw [huntch me.best_bid hbidR]
          exact hwf.i1 hnz
        · intro hnz
          exact hbp3
        · intro p lk hpl
          show p ≤ me.best_bid ∨ bp ≤ p
          by_cases hpR : p ∈ PriceLimits.rangeKeys me.price_limits me.best_ask order.price
          · rw [hdrained p hpR] at hpl
            exact Option.noConfusion hpl
          · have hpl0 := hpl
            rw [huntch p hpR] at hpl
            rcases hwf.i3 p lk hpl with h | h
            · exact Or.inl h
            · right
              have hkey : p ∈ PriceLimits.keys me.price_limits :=
                PriceLimits.get_some_key (getLink_eq_some.mp hpl)
              have hplt : p < PMAX := by
                obtain ⟨lim, hlim⟩ := PriceLimits.get_mem_keys hkey
                exact (hm.keys_pos (p, lim) (PriceLimits.get_some_mem hlim)).2
              have hnb : ¬ (me.best_ask ≤ p ∧ p ≤ order.price) := by
                intro hb
                exact hpR (PriceLimits.mem_rangeKeys.mpr ⟨hkey, hb.1, hb.2⟩)
              have hgt : order.price + 1 ≤ p := by omega
              by_contra hbpp
              have h0 := hbp4 p hgt (le_of_lt hplt) (by omega)
              rw [h0] at hpl0
              exact Option.noConfusion hpl0
        · show me.best_bid < bp
          omega
        · show bp ≤ PMAX
          exact hbp2
      have hfbnone : PriceLimits.findBestAsc pl2 (order.price + 1) PMAX = none →
          WF { me with entries := a2, price_limits := pl2, best_ask := PMAX } := by
        intro hfb
        refine ⟨hwfm2, ?_, ?_, ?_, ?_, ?_⟩
        · intro hnz
          show getLink pl2 me.best_bid ≠ none
          rw [huntch me.best_bid hbidR]
          exact hwf.i1 hnz
        · intro hnz
          exact absurd rfl hnz
        · intro p lk hpl
          show p ≤ me.best_bid ∨ PMAX ≤ p
          by_cases hpR : p ∈ PriceLimits.rangeKeys me.price_limits me.best_ask order.price
          · rw [hdrained p hpR] at hpl
            exact Option.noConfusion hpl
          · have hpl0 := hpl
            rw [huntch p hpR] at hpl
            rcases hwf.i3 p lk hpl with h | h
            · exact Or.inl h
            · have hkey : p ∈ PriceLimits.keys me.price_limits :=
                PriceLimits.get_some_key (getLink_eq_some.mp hpl)
              have hplt : p < PMAX := by
                obtain ⟨lim, hlim⟩ := PriceLimits.get_mem_keys hkey
                exact (hm.keys_pos (p, lim) (PriceLimits.get_some_mem hlim)).2
              have hnb : ¬ (me.best_ask ≤ p ∧ p ≤ order.price) := by
                intro hb
                exact hpR (PriceLimits.mem_rangeKeys.mpr ⟨hkey, hb.1, hb.2⟩)
              have hgt : order.price + 1 ≤ p := by omega
              have h0 := findBestAsc_none hfb p hgt (le_of_lt hplt)
              rw [h0] at hpl0
              exact Option.noConfusion hpl0
        · show me.best_bid < PMAX
          have := hwf.ask_le
          omega
        · exact le_rfl
      by_cases hposrem : 0 < order.size - liqList me.entries me.price_limits
          (PriceLimits.rangeKeys me.price_limits me.best_ask order.price)
      · -- positive remainder: it is inserted at the order price
        cases hfb : PriceLimits.findBestAsc pl2 (order.price + 1) PMAX with
        | some bp =>
          obtain ⟨hbp1, hbp2, hbp3, hbp4⟩ := findBestAsc_some hwfm2.sorted hfb
          have hwf2 := hfbgoal bp hfb
          have hr : me.limit order
              = (some (MatchingEngine.insert_order
                  { me with entries := a2, price_limits := pl2, best_ask := bp }
                  { order with
                      size := order.size - liqList me.entries me.price_limits
                        (PriceLimits.rangeKeys me.price_limits me.best_ask order.price) }).1,
                 (MatchingEngine.insert_order
                  { me with entries := a2, price_limits := pl2, best_ask := bp }
                  { order with
                      size := order.size - liqList me.entries me.price_limits
                        (PriceLimits.rangeKeys me.price_limits me.best_ask order.price) }).2) := by
            simp [MatchingEngine.limit, hside, hmk, hres, hexitp, hfb, hposrem]
          obtain ⟨hwf3, hid3, hmax3, hex3⟩ := WF_insert_buy
            { me with entries := a2, price_limits := pl2, best_ask := bp }
            { order with
                size := order.size - liqList me.entries me.price_limits
                  (PriceLimits.rangeKeys me.price_limits me.best_ask order.price) }
            hwf2 hposrem hpp hpm hside (by show order.price < bp; omega)
          rw [hr]
          refine ⟨hwf3, ?_, ?_, ?_, ?_⟩
          · constructor
            · intro h
              exact absurd h (by simp)
            · rintro ⟨h1, h2⟩
              omega
          · intro h
            constructor
            · show some _ = some me.max_entry_id
              rw [hid3]
            · exact hmax3
          · intro h
            exact absurd h (by simp)
          · intro hmk2 hOL2
            omega
        | none =>
          have hwf2 := hfbnone hfb
          have hr : me.limit order
              = (some (MatchingEngine.insert_order
                  { me with entries := a2, price_limits := pl2, best_ask := PMAX }
                  { order with
                      size := order.size - liqList me.entries me.price_limits
                        (PriceLimits.rangeKeys me.price_limits me.best_ask order.price) }).1,
                 (MatchingEngine.insert_order
                  { me with entries := a2, price_limits := pl2, best_ask := PMAX }
                  { order with
                      size := order.size - liqList me.entries me.price_limits
                        (PriceLimits.rangeKeys me.price_limits me.best_ask order.price) }).2) := by
            simp [MatchingEngine.limit, hside, hmk, hres, hexitp, hfb, hposrem]
          obtain ⟨hwf3, hid3, hmax3, hex3⟩ := WF_insert_buy
            { me with entries := a2, price_limits := pl2, best_ask := PMAX }
            { order with
                size := order.size - liqList me.entries me.price_limits
                  (PriceLimits.rangeKeys me.price_limits me.best_ask order.price) }
            hwf2 hposrem hpp hpm hside (by show order.price < PMAX; omega)
          rw [hr]
          refine ⟨hwf3, ?_, ?_, ?_, ?_⟩
          · constructor
            · intro h
              exact absurd h (by simp)
            · rintro ⟨h1, h2⟩
              omega
          · intro h
            constructor
            · show some _ = some me.max_entry_id
              rw [hid3]
            · exact hmax3
          · intro h
            exact absurd h (by simp)
          · intro hmk2 hOL2
            omega
      · -- the crossed liquidity covers the order exactly: nothing rests
        have hLeq : liqList me.entries me.price_limits
            (PriceLimits.rangeKeys me.price_limits me.best_ask order.price)
            = order.size := by omega
        have hrem0 : order.size - liqList me.entries me.price_limits
            (PriceLimits.rangeKeys me.price_limits me.best_ask order.price) = 0 := by omega
        cases hfb : PriceLimits.findBestAsc pl2 (order.price + 1) PMAX with
        | some bp =>
          have hwf2 := hfbgoal bp hfb
          have hr : me.limit order
              = (none, { me with entries := a2, price_limits := pl2, best_ask := bp }) := by
            simp [MatchingEngine.limit, hside, hmk, hres, hexitp, hfb, hrem0]
          rw [hr]
          refine ⟨hwf2, ?_, ?_, ?_, ?_⟩
          · constructor
            · intro h
              exact ⟨hmk, by omega⟩
            · intro h
              rfl
          · intro h
            exact absurd rfl h
          · intro h
            rfl
          · intro hmk2 hOL2
            omega
        | none =>
          have hwf2 := hfbnone hfb
          have hr : me.limit order
              = (none,
                 { me with entries := a2, price_limits := pl2, best_ask := PMAX }) := by
            simp [MatchingEngine.limit, hside, hmk, hres, hexitp, hfb, hrem0]
          rw [hr]
          refine ⟨hwf2, ?_, ?_, ?_, ?_⟩
          · constructor
            · intro h
              exact ⟨hmk, by omega⟩
            · intro h
              rfl
          · intro h
            exact absurd rfl h
          · intro h
            rfl
          · intro hmk2 hOL2
            omega
  · -- not marketable: straight insertion
    have hr : me.limit order
        = (some (me.insert_order order).1, (me.insert_order order).2) := by
      simp [MatchingEngine.limit, hside, hmk]
    obtain ⟨hwf2, hid, hmax, hex⟩ := WF_insert_buy me order hwf hs hpp hpm hside (by omega)
    rw [hr]
    refine ⟨hwf2, ?_, ?_, ?_, ?_⟩
    · constructor
      · intro h
        exact absurd h (by simp)
      · rintro ⟨h, _⟩
        exact absurd h hmk
    · intro h
      constructor
      · show some _ = some me.max_entry_id
        rw [hid]
      · exact hmax
    · intro h
      exact absurd h (by simp)
    · intro h
      exact absurd h hmk

/-! ### The public `limit` call characterized (sell side) -/

theorem limit_spec_sell (me : MatchingEngine) (order : Order)
    (hwf : WF me) (hval : validOrder order) (hside : order.side = Side.Sell) :
    WF (me.limit order).2 ∧
    ((me.limit order).1 = none ↔
      order.price ≤ me.best_bid ∧
      order.size ≤ liqList me.entries me.price_limits
        ((PriceLimits.rangeKeys me.price_limits order.price me.best_bid).reverse)) ∧
    ((me.limit order).1 ≠ none →
      (me.limit order).1 = some me.max_entry_id ∧
      (me.limit order).2.max_entry_id = me.max_entry_id + 1) ∧
    ((me.limit order).1 = none →
      (me.limit order).2.max_entry_id = me.max_entry_id) ∧
    (order.price ≤ me.best_bid →
      order.size < liqList me.entries me.price_limits
        ((PriceLimits.rangeKeys me.price_limits order.price me.best_bid).reverse) →
      ∃ done stop rest,
        (PriceLimits.rangeKeys me.price_limits order.price me.best_bid).reverse
          = done ++ stop :: rest ∧
        (∀ p ∈ done, getLink (me.limit order).2.price_limits p = none) ∧
        (∀ p ∈ rest, getLink (me.limit order).2.price_limits p = getLink me.price_limits p) ∧
        (∃ lk c pre j suf e,
          getLink me.price_limits stop = some lk ∧
          chain me.entries (some lk.head) = some c ∧
          c = pre ++ j :: suf ∧ me.entries.get j = some e ∧
          getLink (me.limit order).2.price_limits stop
            = some { head := j, tail := lk.tail } ∧
          chain (me.limit order).2.entries (some j) = some (j :: suf) ∧
          idsOf (me.limit order).2.entries (j :: suf) = idsOf me.entries (j :: suf))) := by
  obtain ⟨hs, hpp, hpm⟩ := hval
  have hm := hwf.m
  by_cases hmk : order.price ≤ me.best_bid
  · -- marketable: the order crosses the bid range (descending)
    have hsortR0 : (PriceLimits.rangeKeys me.price_limits order.price me.best_bid).Pairwise
        (· < ·) := PriceLimits.rangeKeys_sorted hm.sorted _ _
    have hsortR : ((PriceLimits.rangeKeys me.price_limits order.price me.best_bid).reverse).Pairwise
        (fun x y => y < x) := by
      rw [List.pairwise_reverse]
      exact hsortR0
    have hndR : ((PriceLimits.rangeKeys me.price_limits order.price me.best_bid).reverse).Nodup := by
      rw [List.nodup_reverse]
      exact hsortR0.imp (fun h => Nat.ne_of_lt h)
    have hbidpos : me.best_bid ≠ 0 := by omega
    obtain ⟨lk0, hlk0⟩ := getLink_ne_none (hwf.i1 hbidpos)
    have hmem0 : me.best_bid
        ∈ (PriceLimits.rangeKeys me.price_limits order.price me.best_bid).reverse := by
      rw [List.mem_reverse, PriceLimits.mem_rangeKeys]
      exact ⟨PriceLimits.get_some_key (getLink_eq_some.mp hlk0), hmk, le_rfl⟩
    have hLpos : 0 < liqList me.entries me.price_limits
        ((PriceLimits.rangeKeys me.price_limits order.price me.best_bid).reverse) := by
      have h1 := liqAt_pos hm hlk0
      have h2 : liqAt me.entries me.price_limits me.best_bid
          ≤ liqList me.entries me.price_limits
            ((PriceLimits.rangeKeys me.price_limits order.price me.best_bid).reverse) :=
        List.single_le_sum (fun x hx => Nat.zero_le x) _
          (List.mem_map.mpr ⟨me.best_bid, hmem0, rfl⟩)
      omega
    have hRb : ∀ q ∈ (PriceLimits.rangeKeys me.price_limits order.price me.best_bid).reverse,
        order.price ≤ q ∧ q ≤ me.best_bid := by
      intro q hq
      rw [List.mem_reverse] at hq
      have := PriceLimits.mem_rangeKeys.mp hq
      exact ⟨this.2.1, this.2.2⟩
    have hbid0 : me.best_bid < me.best_ask := hwf.i4
    have haskR : me.best_ask
        ∉ (PriceLimits.rangeKeys me.price_limits order.price me.best_bid).reverse := by
      intro hmem
      have := (hRb _ hmem).2
      omega
    have hexitp : exitPrice order = order.price - 1 := by
      unfold exitPrice
      rw [hside]
    obtain ⟨caseA, caseB, caseC⟩ := execRangeGo_spec
      ((PriceLimits.rangeKeys me.price_limits order.price me.best_bid).reverse)
      me.entries me.price_limits order .NotExecuted hm hndR
    rcases Nat.lt_or_ge order.size (liqList me.entries me.price_limits
        ((PriceLimits.rangeKeys me.price_limits order.price me.best_bid).reverse))
      with hOL | hLO
    · -- the crossing stops inside the range
      obtain ⟨done, stop, rest, a2, pl2, hsplit, hdle, hdlt, hres, hwfm2, hdrained,
        huntch, hpres, lkS, cS, pre, j, suf, e, hglS, hcS, hceqS, hgjS, hgl2S, hch2S,
        hids2S, hsz2S, hpreS, hremS⟩ := caseC hOL
      have hstopR : stop
          ∈ (PriceLimits.rangeKeys me.price_limits order.price me.best_bid).reverse := by
        rw [hsplit]
        exact List.mem_append.mpr (Or.inr (List.mem_cons_self _ _))
      have hstopb := hRb stop hstopR
      have hstopkey : stop ∈ PriceLimits.keys me.price_limits :=
        PriceLimits.get_some_key (getLink_eq_some.mp hglS)
      have hrestlt : ∀ p ∈ rest, p < stop := by
        have h1 : (done ++ stop :: rest).Pairwise (fun x y => y < x) := by
          rw [← hsplit]; exact hsortR
        have h2 := (List.pairwise_append.mp h1).2.1
        exact (List.pairwise_cons.mp h2).1
      have hdonend : ∀ p ∈ rest, p ∉ done ∧ p ≠ stop := by
        have h1 : (done ++ stop :: rest).Nodup := by rw [← hsplit]; exact hndR
        rw [List.nodup_append] at h1
        intro p hp
        constructor
        · intro hpd
          exact h1.2.2 hpd (List.mem_cons_of_mem _ hp)
        · intro hps
          exact (List.nodup_cons.mp h1.2.1).1 (hps ▸ hp)
      obtain ⟨bp, hfb⟩ : ∃ bp, PriceLimits.findBestDesc pl2 0 stop = some bp := by
        cases hfb0 : PriceLimits.findBestDesc pl2 0 stop with
        | none =>
          have h0 := findBestDesc_none hfb0 stop (Nat.zero_le _) le_rfl
          rw [hgl2S] at h0
          exact absurd h0 (by simp)
        | some bp => exact ⟨bp, rfl⟩
      obtain ⟨hbp1, hbp2, hbp3, hbp4⟩ := findBestDesc_some hwfm2.sorted hfb
      have hbps : bp = stop := by
        by_contra hne
        have h0 := hbp4 stop (Nat.zero_le _) le_rfl (by omega)
        rw [hgl2S] at h0
        exact Option.noConfusion h0
      have hr : me.limit order
          = (none, { me with entries := a2, price_limits := pl2, best_bid := bp }) := by
        simp [MatchingEngine.limit, hside, hmk, hres, hfb]
      rw [hr]
      refine ⟨⟨hwfm2, ?_, ?_, ?_, ?_, ?_⟩, ?_, ?_, ?_, ?_⟩
      · intro hnz
        show getLink pl2 bp ≠ none
        rw [hbps, hgl2S]
        simp
      · intro hnz
        show getLink pl2 me.best_ask ≠ none
        have had : me.best_ask ∉ done := by
          intro hmem
          have : me.best_ask
              ∈ (PriceLimits.rangeKeys me.price_limits order.price me.best_bid).reverse := by
            rw [hsplit]
            exact List.mem_append.mpr (Or.inl hmem)
          exact haskR this
        have has : me.best_ask ≠ stop := by
          intro h
          exact haskR (h ▸ hstopR)
        rw [huntch me.best_ask had has]
        exact hwf.i2 hnz
      · intro p lk hpl
        show p ≤ bp ∨ me.best_ask ≤ p
        rw [hbps]
        by_cases hpd : p ∈ done
        · rw [hdrained p hpd] at hpl
          exact Option.noConfusion hpl
        · by_cases hps : p = stop
          · left
            omega
          · rw [huntch p hpd hps] at hpl
            rcases hwf.i3 p lk hpl with h | h
            · left
              by_cases hpR : p
                  ∈ (PriceLimits.rangeKeys me.price_limits order.price me.best_bid).reverse
              · have : p ∈ rest := by
                  rw [hsplit] at hpR
                  rcases List.mem_append.mp hpR with h2 | h2
                  · exact absurd h2 hpd
                  · rcases List.mem_cons.mp h2 with h3 | h3
                    · exact absurd h3 hps
                    · exact h3
                exact le_of_lt (hrestlt p this)
              · have hkey : p ∈ PriceLimits.keys me.price_limits :=
                  PriceLimits.get_some_key (getLink_eq_some.mp hpl)
                have : ¬ (order.price ≤ p ∧ p ≤ me.best_bid) := by
                  intro hb
                  apply hpR
                  rw [List.mem_reverse]
                  exact PriceLimits.mem_rangeKeys.mpr ⟨hkey, hb.1, hb.2⟩
                omega
            · exact Or.inr h
      · show bp < me.best_ask
        omega
      · show me.best_ask ≤ PMAX
        exact hwf.ask_le
      · constructor
        · intro h
          exact ⟨hmk, le_of_lt hOL⟩
        · intro h
          rfl
      · intro h
        exact absurd rfl h
      · intro h
        rfl
      · intro hmk2 hOL2
        refine ⟨done, stop, rest, hsplit, hdrained, ?_,
          lkS, cS, pre, j, suf, e, hglS, hcS, hceqS, hgjS, hgl2S, hch2S, hids2S⟩
        intro p hp
        obtain ⟨h1, h2⟩ := hdonend p hp
        exact huntch p h1 h2
    · -- the range is fully drained
      obtain ⟨a2, pl2, hres, hwfm2, hdrained, huntch, hpres⟩ := caseB hLpos hLO
      have hfbgoal : ∀ bp, PriceLimits.findBestDesc pl2 0 (order.price - 1) = some bp →
          WF { me with entries := a2, price_limits := pl2, best_bid := bp } := by
        intro bp hfb
        obtain ⟨hbp1, hbp2, hbp3, hbp4⟩ := findBestDesc_some hwfm2.sorted hfb
        refine ⟨hwfm2, ?_, ?_, ?_, ?_, ?_⟩
        · intro hnz
          exact hbp3
        · intro hnz
          show getLink pl2 me.best_ask ≠ none
          rw [huntch me.best_ask haskR]
          exact hwf.i2 hnz
        · intro p lk hpl
          show p ≤ bp ∨ me.best_ask ≤ p
          by_cases hpR : p
              ∈ (PriceLimits.rangeKeys me.price_limits order.price me.best_bid).reverse
          · rw [hdrained p hpR] at hpl
            exact Option.noConfusion hpl
          · have hpl0 := hpl
            rw [huntch p hpR] at hpl
            rcases hwf.i3 p lk hpl with h | h
            · left
              have hkey : p ∈ PriceLimits.keys me.price_limits :=
                PriceLimits.get_some_key (getLink_eq_some.mp hpl)
              have hnb : ¬ (order.price ≤ p ∧ p ≤ me.best_bid) := by
                intro hb
                apply hpR
                rw [List.mem_reverse]
                exact PriceLimits.mem_rangeKeys.mpr ⟨hkey, hb.1, hb.2⟩
              have hlt2 : p ≤ order.price - 1 := by omega
              by_contra hbpp
              have h0 := hbp4 p (Nat.zero_le _) hlt2 (by omega)
              rw [h0] at hpl0
              exact Option.noConfusion hpl0
            · exact Or.inr h
        · show bp < me.best_ask
          omega
        · show me.best_ask ≤ PMAX
          exact hwf.ask_le
      have hfbnone : PriceLimits.findBestDesc pl2 0 (order.price - 1) = none →
          WF { me with entries := a2, price_limits := pl2, best_bid := 0 } := by
        intro hfb
        refine ⟨hwfm2, ?_, ?_, ?_, ?_, ?_⟩
        · intro hnz
          exact absurd rfl hnz
        · intro hnz
          show getLink pl2 me.best_ask ≠ none
          rw [huntch me.best_ask haskR]
          exact hwf.i2 hnz
        · intro p lk hpl
          show p ≤ 0 ∨ me.best_ask ≤ p
          by_cases hpR : p
              ∈ (PriceLimits.rangeKeys me.price_limits order.price me.best_bid).reverse
          · rw [hdrained p hpR] at hpl
            exact Option.noConfusion hpl
          · have hpl0 := hpl
            rw [huntch p hpR] at hpl
            rcases hwf.i3 p lk hpl with h | h
            · have hkey : p ∈ PriceLimits.keys me.price_limits :=
                PriceLimits.get_some_key (getLink_eq_some.mp hpl)
              have hnb : ¬ (order.price ≤ p ∧ p ≤ me.best_bid) := by
                intro hb
                apply hpR
                rw [List.mem_reverse]
                exact PriceLimits.mem_rangeKeys.mpr ⟨hkey, hb.1, hb.2⟩
              have hlt2 : p ≤ order.price - 1 := by omega
              have h0 := findBestDesc_none hfb p (Nat.zero_le _) hlt2
              rw [h0] at hpl0
              exact Option.noConfusion hpl0
            · exact Or.inr h
        · show (0 : Nat) < me.best_ask
          omega
        · show me.best_ask ≤ PMAX
          exact hwf.ask_le
      by_cases hposrem : 0 < order.size - liqList me.entries me.price_limits
          ((PriceLimits.rangeKeys me.price_limits order.price me.best_bid).reverse)
      · cases hfb : PriceLimits.findBestDesc pl2 0 (order.price - 1) with
        | some bp =>
          obtain ⟨hbp1, hbp2, hbp3, hbp4⟩ := findBestDesc_some hwfm2.sorted hfb
          have hwf2 := hfbgoal bp hfb
          have hr : me.limit order
              = (some (MatchingEngine.insert_order
                  { me with entries := a2, price_limits := pl2, best_bid := bp }
                  { order with
                      size := order.size - liqList me.entries me.price_limits
                        ((PriceLimits.rangeKeys me.price_limits order.price
                          me.best_bid).reverse) }).1,
                 (MatchingEngine.insert_order
                  { me with entries := a2, price_limits := pl2, best_bid := bp }
                  { order with
                      size := order.size - liqList me.entries me.price_limits
                        ((PriceLimits.rangeKeys me.price_limits order.price
                          me.best_bid).reverse) }).2) := by
            simp [MatchingEngine.limit, hside, hmk, hres, hexitp, hfb, hposrem]
          obtain ⟨hwf3, hid3, hmax3, hex3⟩ := WF_insert_sell
            { me with entries := a2, price_limits := pl2, best_bid := bp }
            { order with
                size := order.size - liqList me.entries me.price_limits
                  ((PriceLimits.rangeKeys me.price_limits order.price me.best_bid).reverse) }
            hwf2 hposrem hpp hpm hside (by show bp < order.price; omega)
          rw [hr]
          refine ⟨hwf3, ?_, ?_, ?_, ?_⟩
          · constructor
            · intro h
              exact absurd h (by simp)
            · rintro ⟨h1, h2⟩
              omega
          · intro h
            constructor
            · show some _ = some me.max_entry_id
              rw [hid3]
            · exact hmax3
          · intro h
            exact absurd h (by simp)
          · intro hmk2 hOL2
            omega
        | none =>
          have hwf2 := hfbnone hfb
          have hr : me.limit order
              = (some (MatchingEngine.insert_order
                  { me with entries := a2, price_limits := pl2, best_bid := 0 }
                  { order with
                      size := order.size - liqList me.entries me.price_limits
                        ((PriceLimits.rangeKeys me.price_limits order.price
                          me.best_bid).reverse) }).1,
                 (MatchingEngine.insert_order
                  { me with entries := a2, price_limits := pl2, best_bid := 0 }
                  { order with
                      size := order.size - liqList me.entries me.price_limits
                        ((PriceLimits.rangeKeys me.price_limits order.price
                          me.best_bid).reverse) }).2) := by
            simp [MatchingEngine.limit, hside, hmk, hres, hexitp, hfb, hposrem]
          obtain ⟨hwf3, hid3, hmax3, hex3⟩ := WF_insert_sell
            { me with entries := a2, price_limits := pl2, best_bid := 0 }
            { order with
                size := order.size - liqList me.entries me.price_limits
                  ((PriceLimits.rangeKeys me.price_limits order.price me.best_bid).reverse) }
            hwf2 hposrem hpp hpm hside (by show 0 < order.price; omega)
          rw [hr]
          refine ⟨hwf3, ?_, ?_, ?_, ?_⟩
          · constructor
            · intro h
              exact absurd h (by simp)
            · rintro ⟨h1, h2⟩
              omega
          · intro h
            constructor
            · show some _ = some me.max_entry_id
              rw [hid3]
            · exact hmax3
          · intro h
            exact absurd h (by simp)
          · intro hmk2 hOL2
            omega
      · have hrem0 : order.size - liqList me.entries me.price_limits
            ((PriceLimits.rangeKeys me.price_limits order.price me.best_bid).reverse)
            = 0 := by omega
        cases hfb : PriceLimits.findBestDesc pl2 0 (order.price - 1) with
        | some bp =>
          have hwf2 := hfbgoal bp hfb
          have hr : me.limit order
              = (none,
                 { me with entries := a2, price_limits := pl2, best_bid := bp }) := by
            simp [MatchingEngine.limit, hside, hmk, hres, hexitp, hfb, hrem0]
          rw [hr]
          refine ⟨hwf2, ?_, ?_, ?_, ?_⟩
          · constructor
            · intro h
              exact ⟨hmk, by omega⟩
            · intro h
              rfl
          · intro h
            exact absurd rfl h
          · intro h
            rfl
          · intro hmk2 hOL2
            omega
        | none =>
          have hwf2 := hfbnone hfb
          have hr : me.limit order
              = (none,
                 { me with entries := a2, price_limits := pl2, best_bid := 0 }) := by
            simp [MatchingEngine.limit, hside, hmk, hres, hexitp, hfb, hrem0]
          rw [hr]
          refine ⟨hwf2, ?_, ?_, ?_, ?_⟩
          · constructor
            · intro h
              exact ⟨hmk, by omega⟩
            · intro h
              rfl
          · intro h
            exact absurd rfl h
          · intro h
            rfl
          · intro hmk2 hOL2
            omega
  · -- not marketable: straight insertion
    have hr : me.limit order
        = (some (me.insert_order order).1, (me.insert_order order).2) := by
      simp [MatchingEngine.limit, hside, hmk]
    obtain ⟨hwf2, hid, hmax, hex⟩ := WF_insert_sell me order hwf hs hpp hpm hside (by omega)
    rw [hr]
    refine ⟨hwf2, ?_, ?_, ?_, ?_⟩
    · constructor
      · intro h
        exact absurd h (by simp)
      · rintro ⟨h, _⟩
        exact absurd h hmk
    · intro h
      constructor
      · show some _ = some me.max_entry_id
        rw [hid]
      · exact hmax
    · intro h
      exact absurd h (by simp)
    · intro h
      exact absurd h hmk

/-! ### Engine runs -/

/-- Fold a sequence of `limit` calls over the engine, keeping the book. -/
def applyOrders (me : MatchingEngine) (orders : List Order) : MatchingEngine :=
  orders.foldl (fun m o => (m.limit o).2) me

theorem applyOrders_nil (me : MatchingEngine) : applyOrders me [] = me := rfl

theorem applyOrders_cons (me : MatchingEngine) (o : Order) (rest : List Order) :
    applyOrders me (o :: rest) = applyOrders (me.limit o).2 rest := rfl

theorem WF_limit (me : MatchingEngine) (o : Order) (hwf : WF me) (hv : validOrder o) :
    WF (me.limit o).2 := by
  cases hside : o.side with
  | Buy => exact (limit_spec_buy me o hwf hv hside).1
  | Sell => exact (limit_spec_sell me o hwf hv hside).1

theorem WF_applyOrders (orders : List Order) :
    ∀ me : MatchingEngine, WF me → (∀ o ∈ orders, validOrder o) →
    WF (applyOrders me orders) := by
  induction orders with
  | nil =>
    intro me hwf hv
    exact hwf
  | cons o rest ih =>
    intro me hwf hv
    rw [applyOrders_cons]
    exact ih _ (WF_limit me o hwf (hv o (List.mem_cons_self _ _)))
      (fun x hx => hv x (List.mem_cons_of_mem _ hx))

/-- The ids returned by a sequence of `limit` calls, in call order, together
with the final engine. -/
def runIds (me : MatchingEngine) : List Order → List Nat × MatchingEngine
  | [] => ([], me)
  | o :: rest =>
    ((match (me.limit o).1 with
      | some id => id :: (runIds (me.limit o).2 rest).1
      | none => (runIds (me.limit o).2 rest).1),
     (runIds (me.limit o).2 rest).2)

theorem runIds_nil (me : MatchingEngine) : runIds me [] = ([], me) := rfl

theorem runIds_cons (me : MatchingEngine) (o : Order) (rest : List Order) :
    runIds me (o :: rest)
    = ((match (me.limit o).1 with
        | some id => id :: (runIds (me.limit o).2 rest).1
        | none => (runIds (me.limit o).2 rest).1),
       (runIds (me.limit o).2 rest).2) := rfl

theorem limit_id_facts (me : MatchingEngine) (o : Order) (hwf : WF me) (hv : validOrder o) :
    ((me.limit o).1 ≠ none →
      (me.limit o).1 = some me.max_entry_id ∧
      (me.limit o).2.max_entry_id = me.max_entry_id + 1) ∧
    ((me.limit o).1 = none → (me.limit o).2.max_entry_id = me.max_entry_id) := by
  cases hside : o.side with
  | Buy => exact ⟨(limit_spec_buy me o hwf hv hside).2.2.1,
      (limit_spec_buy me o hwf hv hside).2.2.2.1⟩
  | Sell => exact ⟨(limit_spec_sell me o hwf hv hside).2.2.1,
      (limit_spec_sell me o hwf hv hside).2.2.2.1⟩

theorem runIds_spec (orders : List Order) :
    ∀ me : MatchingEngine, WF me → (∀ o ∈ orders, validOrder o) →
    WF (runIds me orders).2 ∧
    me.max_entry_id ≤ (runIds me orders).2.max_entry_id ∧
    (runIds me orders).1
      = List.range' me.max_entry_id
          ((runIds me orders).2.max_entry_id - me.max_entry_id) := by
  induction orders with
  | nil =>
    intro me hwf hv
    refine ⟨hwf, le_rfl, ?_⟩
    simp [runIds_nil]
  | cons o rest ih =>
    intro me hwf hv
    have hvo := hv o (List.mem_cons_self _ _)
    have hwf2 : WF (me.limit o).2 := WF_limit me o hwf hvo
    obtain ⟨hsomef, hnonef⟩ := limit_id_facts me o hwf hvo
    obtain ⟨ih1, ih2, ih3⟩ := ih (me.limit o).2 hwf2
      (fun x hx => hv x (List.mem_cons_of_mem _ hx))
    rw [runIds_cons]
    cases hid : (me.limit o).1 with
    | some id =>
      obtain ⟨hid2, hmax2⟩ := hsomef (by rw [hid]; simp)
      have hidm : id = me.max_entry_id := by
        rw [hid] at hid2
        exact Option.some.inj hid2
      rw [hmax2] at ih2 ih3
      refine ⟨ih1, by simp; omega, ?_⟩
      have hk : (runIds (me.limit o).2 rest).2.max_entry_id - me.max_entry_id
          = ((runIds (me.limit o).2 rest).2.max_entry_id - (me.max_entry_id + 1)) + 1 := by
        omega
      show id :: (runIds (me.limit o).2 rest).1 = _
      rw [ih3, hidm, hk]
      rfl
    | none =>
      have hmax2 := hnonef hid
      rw [hmax2] at ih2 ih3
      exact ⟨ih1, by simpa using ih2, by simpa using ih3⟩

/-! ### Fixtures for the claim witnesses -/

def ordS1 : Order := { price := 100, size := 2, side := Side.Sell, owner := 1 }

def ordS2 : Order := { price := 100, size := 3, side := Side.Sell, owner := 2 }

def ordS3 : Order := { price := 101, size := 4, side := Side.Sell, owner := 3 }

def ordB1 : Order := { price := 101, size := 8, side := Side.Buy, owner := 4 }

def ordB2 : Order := { price := 5, size := 2, side := Side.Buy, owner := 5 }

/-- C3's and C5's concrete book: two asks at 100 (FIFO pair) and one at 101. -/
def meAsks : MatchingEngine := applyOrders (MatchingEngine.new 8) [ordS1, ordS2, ordS3]

/-- C3: after every prefix of a valid run the four best-limit invariants hold:
a non-sentinel best bid (resp. ask) points at a non-empty limit, the open
interval between the bests holds no non-empty limit, and the bests never
cross. -/
theorem C3_book_invariants (cap : Nat) (orders : List Order)
    (hval : ∀ o ∈ orders, validOrder o) (pre suf : List Order)
    (hsplit : orders = pre ++ suf) :
    ((applyOrders (MatchingEngine.new cap) pre).best_bid ≠ 0 →
      getLink (applyOrders (MatchingEngine.new cap) pre).price_limits
        (applyOrders (MatchingEngine.new cap) pre).best_bid ≠ none) ∧
    ((applyOrders (MatchingEngine.new cap) pre).best_ask ≠ PMAX →
      getLink (applyOrders (MatchingEngine.new cap) pre).price_limits
        (applyOrders (MatchingEngine.new cap) pre).best_ask ≠ none) ∧
    (∀ p, (applyOrders (MatchingEngine.new cap) pre).best_bid < p →
      p < (applyOrders (MatchingEngine.new cap) pre).best_ask →
      getLink (applyOrders (MatchingEngine.new cap) pre).price_limits p = none) ∧
    (applyOrders (MatchingEngine.new cap) pre).best_bid
      < (applyOrders (MatchingEngine.new cap) pre).best_ask := by
  have hvalpre : ∀ o ∈ pre, validOrder o := by
    intro o ho
    exact hval o (by rw [hsplit]; exact List.mem_append.mpr (Or.inl ho))
  have hwf : WF (applyOrders (MatchingEngine.new cap) pre) :=
    WF_applyOrders pre (MatchingEngine.new cap) (WF_new cap) hvalpre
  refine ⟨hwf.i1, hwf.i2, ?_, hwf.i4⟩
  intro p h1 h2
  by_contra hne
  obtain ⟨lk, hlk⟩ := getLink_ne_none hne
  rcases hwf.i3 p lk hlk with h | h
  · omega
  · omega

/-- C3 witness: the invariants after each of the three calls of a concrete
valid run. -/
theorem C3_book_invariants_witness :
    (((applyOrders (MatchingEngine.new 8) [ordS1, ordS2]).best_bid ≠ 0 →
      getLink (applyOrders (MatchingEngine.new 8) [ordS1, ordS2]).price_limits
        (applyOrders (MatchingEngine.new 8) [ordS1, ordS2]).best_bid ≠ none) ∧
    ((applyOrders (MatchingEngine.new 8) [ordS1, ordS2]).best_ask ≠ PMAX →
      getLink (applyOrders (MatchingEngine.new 8) [ordS1, ordS2]).price_limits
        (applyOrders (MatchingEngine.new 8) [ordS1, ordS2]).best_ask ≠ none) ∧
    (∀ p, (applyOrders (MatchingEngine.new 8) [ordS1, ordS2]).best_bid < p →
      p < (applyOrders (MatchingEngine.new 8) [ordS1, ordS2]).best_ask →
      getLink (applyOrders (MatchingEngine.new 8) [ordS1, ordS2]).price_limits p = none) ∧
    (applyOrders (MatchingEngine.new 8) [ordS1, ordS2]).best_bid
      < (applyOrders (MatchingEngine.new 8) [ordS1, ordS2]).best_ask) :=
  C3_book_invariants 8 [ordS1, ordS2, ordB1] (by decide) [ordS1, ordS2] [ordB1] rfl

/-- C4: a valid order returns `None` exactly when it is marketable and the
opposite range's resting liquidity covers its size (it is fully consumed by
crossing); otherwise it returns `Some id` with `id` drawn from the engine's
id counter, which then increments; over a run from a fresh engine the
returned ids are exactly `0, 1, 2, …` in call order. -/
theorem C4_limit_ids (me : MatchingEngine) (o : Order) (hwf : WF me) (hv : validOrder o)
    (cap : Nat) (orders : List Order) (hvs : ∀ x ∈ orders, validOrder x) :
    ((me.limit o).1 = none ↔
      (match o.side with
       | Side.Buy => me.best_ask ≤ o.price ∧
           o.size ≤ liqList me.entries me.price_limits
             (PriceLimits.rangeKeys me.price_limits me.best_ask o.price)
       | Side.Sell => o.price ≤ me.best_bid ∧
           o.size ≤ liqList me.entries me.price_limits
             ((PriceLimits.rangeKeys me.price_limits o.price me.best_bid).reverse))) ∧
    ((me.limit o).1 ≠ none →
      (me.limit o).1 = some me.max_entry_id ∧
      (me.limit o).2.max_entry_id = me.max_entry_id + 1) ∧
    ((me.limit o).1 = none → (me.limit o).2.max_entry_id = me.max_entry_id) ∧
    (runIds (MatchingEngine.new cap) orders).1
      = List.range (runIds (MatchingEngine.new cap) orders).2.max_entry_id := by
  have hrun := runIds_spec orders (MatchingEngine.new cap) (WF_new cap) hvs
  have hrange : (runIds (MatchingEngine.new cap) orders).1
      = List.range (runIds (MatchingEngine.new cap) orders).2.max_entry_id := by
    rw [hrun.2.2]
    show List.range' 0 ((runIds (MatchingEngine.new cap) orders).2.max_entry_id - 0) = _
    rw [Nat.sub_zero, List.range_eq_range']
  cases hside : o.side with
  | Buy =>
    obtain ⟨h1, h2, h3, h4, h5⟩ := limit_spec_buy me o hwf hv hside
    exact ⟨h2, h3, h4, hrange⟩
  | Sell =>
    obtain ⟨h1, h2, h3, h4, h5⟩ := limit_spec_sell me o hwf hv hside
    exact ⟨h2, h3, h4, hrange⟩

/-- C4 witness: a fresh engine with a resting ask pair; the marketable buy
covering the book returns `None`, and the run's ids are `0, 1, 2`. -/
theorem C4_limit_ids_witness :
    ((meAsks.limit ordB1).1 = none ↔
      (match ordB1.side with
       | Side.Buy => meAsks.best_ask ≤ ordB1.price ∧
           ordB1.size ≤ liqList meAsks.entries meAsks.price_limits
             (PriceLimits.rangeKeys meAsks.price_limits meAsks.best_ask ordB1.price)
       | Side.Sell => ordB1.price ≤ meAsks.best_bid ∧
           ordB1.size ≤ liqList meAsks.entries meAsks.price_limits
             ((PriceLimits.rangeKeys meAsks.price_limits ordB1.price
               meAsks.best_bid).reverse))) ∧
    ((meAsks.limit ordB1).1 ≠ none →
      (meAsks.limit ordB1).1 = some meAsks.max_entry_id ∧
      (meAsks.limit ordB1).2.max_entry_id = meAsks.max_entry_id + 1) ∧
    ((meAsks.limit ordB1).1 = none →
      (meAsks.limit ordB1).2.max_entry_id = meAsks.max_entry_id) ∧
    (runIds (MatchingEngine.new 8) [ordS1, ordS2, ordS3]).1
      = List.range (runIds (MatchingEngine.new 8) [ordS1, ordS2, ordS3]).2.max_entry_id :=
  C4_limit_ids meAsks ordB1
    (WF_applyOrders [ordS1, ordS2, ordS3] (MatchingEngine.new 8) (WF_new 8) (by decide))
    (by decide) 8 [ordS1, ordS2, ordS3] (by decide)

/-- C5: within every price the resting ids increase from the head (the
oldest entry sits at `head`), and a partially-filling crossing consumes
whole limits in ascending price order for a buy (descending for a sell),
leaving the lower (resp. higher) prices empty, the prices beyond the stop
untouched, and at the stop limit a tail suffix of the original FIFO queue. -/
theorem C5_price_time_priority (me : MatchingEngine) (order : Order)
    (hwf : WF me) (hv : validOrder order) :
    (∀ p lk c, getLink me.price_limits p = some lk →
      chain me.entries (some lk.head) = some c →
      (idsOf me.entries c).Pairwise (· < ·)) ∧
    (order.side = Side.Buy → me.best_ask ≤ order.price →
      order.size < liqList me.entries me.price_limits
        (PriceLimits.rangeKeys me.price_limits me.best_ask order.price) →
      ∃ done stop rest,
        PriceLimits.rangeKeys me.price_limits me.best_ask order.price
          = done ++ stop :: rest ∧
        (∀ p ∈ done, p < stop) ∧ (∀ p ∈ rest, stop < p) ∧
        (∀ p ∈ done, getLink (me.limit order).2.price_limits p = none) ∧
        (∀ p ∈ rest, getLink (me.limit order).2.price_limits p
          = getLink me.price_limits p) ∧
        ∃ lk c k lk2 c2,
          getLink me.price_limits stop = some lk ∧
          chain me.entries (some lk.head) = some c ∧
          getLink (me.limit order).2.price_limits stop = some lk2 ∧
          chain (me.limit order).2.entries (some lk2.head) = some c2 ∧
          idsOf (me.limit order).2.entries c2 = (idsOf me.entries c).drop k) ∧
    (order.side = Side.Sell → order.price ≤ me.best_bid →
      order.size < liqList me.entries me.price_limits
        ((PriceLimits.rangeKeys me.price_limits order.price me.best_bid).reverse) →
      ∃ done stop rest,
        (PriceLimits.rangeKeys me.price_limits order.price me.best_bid).reverse
          = done ++ stop :: rest ∧
        (∀ p ∈ done, stop < p) ∧ (∀ p ∈ rest, p < stop) ∧
        (∀ p ∈ done, getLink (me.limit order).2.price_limits p = none) ∧
        (∀ p ∈ rest, getLink (me.limit order).2.price_limits p
          = getLink me.price_limits p) ∧
        ∃ lk c k lk2 c2,
          getLink me.price_limits stop = some lk ∧
          chain me.entries (some lk.head) = some c ∧
          getLink (me.limit order).2.price_limits stop = some lk2 ∧
          chain (me.limit order).2.entries (some lk2.head) = some c2 ∧
          idsOf (me.limit order).2.entries c2 = (idsOf me.entries c).drop k) := by
  refine ⟨hwf.m.ids_incr, ?_, ?_⟩
  · intro hside hmk hOL
    obtain ⟨done, stop, rest, hsplit, hdrained, hrest, lk, c, pre, j, suf, e,
      hgl, hc, hceq, hgj, hgl2, hch2, hids2⟩ :=
      (limit_spec_buy me order hwf hv hside).2.2.2.2 hmk hOL
    have hsort : (done ++ stop :: rest).Pairwise (· < ·) := by
      rw [← hsplit]
      exact PriceLimits.rangeKeys_sorted hwf.m.sorted _ _
    refine ⟨done, stop, rest, hsplit, ?_, ?_, hdrained, hrest,
      lk, c, (idsOf me.entries pre).length, { head := j, tail := lk.tail }, j :: suf,
      hgl, hc, hgl2, hch2, ?_⟩
    · intro p hp
      exact (List.pairwise_append.mp hsort).2.2 p hp stop (List.mem_cons_self _ _)
    · intro p hp
      exact (List.pairwise_cons.mp (List.pairwise_append.mp hsort).2.1).1 p hp
    · rw [hids2, hceq, idsOf_append, List.drop_left]
  · intro hside hmk hOL
    obtain ⟨done, stop, rest, hsplit, hdrained, hrest, lk, c, pre, j, suf, e,
      hgl, hc, hceq, hgj, hgl2, hch2, hids2⟩ :=
      (limit_spec_sell me order hwf hv hside).2.2.2.2 hmk hOL
    have hsort : (done ++ stop :: rest).Pairwise (fun x y => y < x) := by
      rw [← hsplit, List.pairwise_reverse]
      exact PriceLimits.rangeKeys_sorted hwf.m.sorted _ _
    refine ⟨done, stop, rest, hsplit, ?_, ?_, hdrained, hrest,
      lk, c, (idsOf me.entries pre).length, { head := j, tail := lk.tail }, j :: suf,
      hgl, hc, hgl2, hch2, ?_⟩
    · intro p hp
      exact (List.pairwise_append.mp hsort).2.2 p hp stop (List.mem_cons_self _ _)
    · intro p hp
      exact (List.pairwise_cons.mp (List.pairwise_append.mp hsort).2.1).1 p hp
    · rw [hids2, hceq, idsOf_append, List.drop_left]

/-- C5 witness: the concrete ask book crossed by a partially-filling buy. -/
theorem C5_price_time_priority_witness :
    (∀ p lk c, getLink meAsks.price_limits p = some lk →
      chain meAsks.entries (some lk.head) = some c →
      (idsOf meAsks.entries c).Pairwise (· < ·)) ∧
    (ordB1.side = Side.Buy → meAsks.best_ask ≤ ordB1.price →
      ordB1.size < liqList meAsks.entries meAsks.price_limits
        (PriceLimits.rangeKeys meAsks.price_limits meAsks.best_ask ordB1.price) →
      ∃ done stop rest,
        PriceLimits.rangeKeys meAsks.price_limits meAsks.best_ask ordB1.price
          = done ++ stop :: rest ∧
        (∀ p ∈ done, p < stop) ∧ (∀ p ∈ rest, stop < p) ∧
        (∀ p ∈ done, getLink (meAsks.limit ordB1).2.price_limits p = none) ∧
        (∀ p ∈ rest, getLink (meAsks.limit ordB1).2.price_limits p
          = getLink meAsks.price_limits p) ∧
        ∃ lk c k lk2 c2,
          getLink meAsks.price_limits stop = some lk ∧
          chain meAsks.entries (some lk.head) = some c ∧
          getLink (meAsks.limit ordB1).2.price_limits stop = some lk2 ∧
          chain (meAsks.limit ordB1).2.entries (some lk2.head) = some c2 ∧
          idsOf (meAsks.limit ordB1).2.entries c2 = (idsOf meAsks.entries c).drop k) ∧
    (ordB1.side = Side.Sell → ordB1.price ≤ meAsks.best_bid →
      ordB1.size < liqList meAsks.entries meAsks.price_limits
        ((PriceLimits.rangeKeys meAsks.price_limits ordB1.price meAsks.best_bid).reverse) →
      ∃ done stop rest,
        (PriceLimits.rangeKeys meAsks.price_limits ordB1.price meAsks.best_bid).reverse
          = done ++ stop :: rest ∧
        (∀ p ∈ done, stop < p) ∧ (∀ p ∈ rest, p < stop) ∧
        (∀ p ∈ done, getLink (meAsks.limit ordB1).2.price_limits p = none) ∧
        (∀ p ∈ rest, getLink (meAsks.limit ordB1).2.price_limits p
          = getLink meAsks.price_limits p) ∧
        ∃ lk c k lk2 c2,
          getLink meAsks.price_limits stop = some lk ∧
          chain meAsks.entries (some lk.head) = some c ∧
          getLink (meAsks.limit ordB1).2.price_limits stop = some lk2 ∧
          chain (meAsks.limit ordB1).2.entries (some lk2.head) = some c2 ∧
          idsOf (meAsks.limit ordB1).2.entries c2 = (idsOf meAsks.entries c).drop k) :=
  C5_price_time_priority meAsks ordB1
    (WF_applyOrders [ordS1, ordS2, ordS3] (MatchingEngine.new 8) (WF_new 8) (by decide))
    (by decide)

/-! ### Machine (wrapping) arithmetic model of the crossing

Modelled from the spec: the `Price` scalar (a `u64`, spec §3) is not among
the sources — the crate root defining it is missing — so the machine width
`2^64` is taken from the spec.  The sized arithmetic of `exec`/`exec_range`
is replayed with explicit wrap-around; claim C6 compares it with the ideal
`Nat` model. -/

/-- Modelled from the spec: the u64 machine width of `Price` and of the
order sizes (spec §3). -/
def W64 : Nat := 2 ^ 64

/-- Wrapping u64 addition. -/
def wadd (a b : Nat) : Nat := (a + b) % W64

/-- Wrapping u64 subtraction. -/
def wsub (a b : Nat) : Nat := (a + (W64 - b % W64)) % W64

theorem wadd_eq {a b : Nat} (h : a + b < W64) : wadd a b = a + b :=
  Nat.mod_eq_of_lt h

theorem wsub_eq {a b : Nat} (hba : b ≤ a) (ha : a < W64) : wsub a b = a - b := by
  unfold wsub
  have hb : b < W64 := lt_of_le_of_lt hba ha
  rw [Nat.mod_eq_of_lt hb]
  have h1 : a + (W64 - b) = (a - b) + W64 := by omega
  rw [h1, Nat.add_mod_right, Nat.mod_eq_of_lt (by omega)]

/-- The `exec_range` exit price with u64 wrapping. -/
def exitPriceW (order : Order) : Nat :=
  match order.side with
  | .Buy => wadd order.price 1
  | .Sell => wsub order.price 1

theorem exitPriceW_eq {order : Order} (hpp : 0 < order.price) (hpm : order.price < PMAX) :
    exitPriceW order = exitPrice order := by
  unfold exitPriceW exitPrice
  have hW : PMAX + 1 = W64 := by norm_num [PMAX, W64]
  cases order.side with
  | Buy =>
    show wadd order.price 1 = order.price + 1
    rw [wadd_eq (by omega)]
  | Sell =>
    show wsub order.price 1 = order.price - 1
    rw [wsub_eq (by omega) (by omega)]

/-- `Executor::exec` with wrapping u64 size arithmetic. -/
def execGoW (a : BookEntries) : Nat → Option Nat → Order →
    Option Nat × Order × BookEntries
  | _, none, order => (none, order, a)
  | 0, some i, order => (some i, order, a)
  | fuel + 1, some index, order =>
    match a.get index with
    | none => (some index, order, a)
    | some entry =>
      if entry.size ≤ order.size then
        execGoW ((a.set index { entry with size := 0 }).free index) fuel entry.next
          { order with size := wsub order.size entry.size }
      else
        (some index, { order with size := 0 },
         a.set index { entry with size := wsub entry.size order.size })

def execW (a : BookEntries) (link : Link) (order : Order) :
    Option Nat × Order × BookEntries :=
  execGoW a a.slots.length (some link.head) order

/-- `Executor::exec_range` with wrapping arithmetic. -/
def execRangeGoW (a : BookEntries) (order : Order) (res : ExecResult)
    (prices : List Nat) (pl : PriceLimits) :
    Nat × ExecResult × BookEntries × PriceLimits :=
  match prices with
  | [] => (exitPriceW order, res, a, pl)
  | p :: rest =>
    match PriceLimits.get pl p with
    | none => execRangeGoW a order res rest pl
    | some lim =>
      match lim.link with
      | none => execRangeGoW a order res rest pl
      | some link =>
        match execW a link order with
        | (maybeIndex, order2, a2) =>
          match maybeIndex with
          | some index =>
            (p, .Filled order2, a2,
             PriceLimits.setVal pl p { link := some { head := index, tail := link.tail } })
          | none =>
            execRangeGoW a2 order2 (.Filled order2) rest
              (PriceLimits.setVal pl p { link := none })

/-- `MatchingEngine::limit` with wrapping arithmetic in the crossing. -/
def limitW (me : MatchingEngine) (order : Order) : Option Nat × MatchingEngine :=
  let step :=
    match order.side with
    | .Buy =>
      if me.best_ask ≤ order.price then
        execRangeGoW me.entries order .NotExecuted
          (PriceLimits.rangeKeys me.price_limits me.best_ask order.price) me.price_limits
      else (0, .NotExecuted, me.entries, me.price_limits)
    | .Sell =>
      if order.price ≤ me.best_bid then
        execRangeGoW me.entries order .NotExecuted
          ((PriceLimits.rangeKeys me.price_limits order.price me.best_bid).reverse)
          me.price_limits
      else (0, .NotExecuted, me.entries, me.price_limits)
  let new_price := step.1
  let exec_result := step.2.1
  let me1 : MatchingEngine := { me with entries := step.2.2.1, price_limits := step.2.2.2 }
  match exec_result with
  | .NotExecuted =>
    let im := MatchingEngine.insert_order me1 order
    (some im.1, im.2)
  | .Filled updated_order =>
    let me2 :=
      match order.side with
      | .Buy =>
        match PriceLimits.findBestAsc me1.price_limits new_price PMAX with
        | some best_price => { me1 with best_ask := best_price }
        | none => { me1 with best_ask := PMAX }
      | .Sell =>
        match PriceLimits.findBestDesc me1.price_limits 0 new_price with
        | some best_price => { me1 with best_bid := best_price }
        | none => { me1 with best_bid := 0 }
    if 0 < updated_order.size then
      let im := MatchingEngine.insert_order me2 updated_order
      (some im.1, im.2)
    else (none, me2)

/-- Every live entry size fits in a u64 (trivially true of any state the
Rust engine can hold). -/
def sizesBounded (a : BookEntries) : Prop :=
  ∀ x ∈ a.slots, (x.map (fun e => e.size)).getD 0 < W64

instance (a : BookEntries) : Decidable (sizesBounded a) := by
  unfold sizesBounded
  infer_instance

theorem sizesBounded_get {a : BookEntries} {i : Nat} {e : BookEntry}
    (h : sizesBounded a) (hg : a.get i = some e) : e.size < W64 := by
  have hmem : some e ∈ a.slots := by
    unfold Arena.get at hg
    rw [List.getD_eq_getElem?_getD] at hg
    cases hge : a.slots[i]? with
    | none =>
      rw [hge] at hg
      exact Option.noConfusion hg
    | some x =>
      rw [hge] at hg
      have hx : x = some e := hg
      obtain ⟨hlt, hEq⟩ := List.getElem?_eq_some.mp hge
      rw [← hx, ← hEq]
      exact List.getElem_mem hlt
  have := h _ hmem
  simpa using this

theorem sizesBounded_set {a : BookEntries} {i : Nat} {v : BookEntry}
    (h : sizesBounded a) (hv : v.size < W64) : sizesBounded (a.set i v) := by
  intro x hx
  rcases List.mem_or_eq_of_mem_set hx with hx0 | rfl
  · exact h x hx0
  · simpa using hv

theorem sizesBounded_free {a : BookEntries} {i : Nat}
    (h : sizesBounded a) : sizesBounded (a.free i) := by
  intro x hx
  rcases List.mem_or_eq_of_mem_set hx with hx0 | rfl
  · exact h x hx0
  · show ((none : Option BookEntry).map (fun e => e.size)).getD 0 < W64
    show 0 < W64
    norm_num [W64]

theorem execGoW_eq (fuel : Nat) :
    ∀ (a : BookEntries) (mi : Option Nat) (order : Order),
    sizesBounded a → order.size < W64 →
    execGoW a fuel mi order = execGo a fuel mi order ∧
    sizesBounded (execGo a fuel mi order).2.2 ∧
    (execGo a fuel mi order).2.1.size < W64 ∧
    (execGo a fuel mi order).2.1.price = order.price := by
  induction fuel with
  | zero =>
    intro a mi order hb ho
    cases mi with
    | none => exact ⟨rfl, hb, ho, rfl⟩
    | some i => exact ⟨rfl, hb, ho, rfl⟩
  | succ fuel ih =>
    intro a mi order hb ho
    cases mi with
    | none => exact ⟨rfl, hb, ho, rfl⟩
    | some i =>
      cases hg : a.get i with
      | none =>
        refine ⟨?_, ?_, ?_, ?_⟩ <;> simp [execGoW, execGo, hg, hb, ho]
      | some entry =>
        have hent : entry.size < W64 := sizesBounded_get hb hg
        by_cases hle : entry.size ≤ order.size
        · have hb2 : sizesBounded ((a.set i { entry with size := 0 }).free i) :=
            sizesBounded_free (sizesBounded_set hb (by show 0 < W64; norm_num [W64]))
          have ho2 : order.size - entry.size < W64 := by omega
          have hwsub : wsub order.size entry.size = order.size - entry.size :=
            wsub_eq hle ho
          obtain ⟨ih1, ih2, ih3, ih4⟩ := ih ((a.set i { entry with size := 0 }).free i)
            entry.next { order with size := order.size - entry.size } hb2 ho2
          refine ⟨?_, ?_, ?_, ?_⟩
          · rw [execGoW, execGo, hg]
            simp only [hg, if_pos hle, hwsub]
            exact ih1
          · rw [execGo]
            simp only [hg, if_pos hle]
            exact ih2
          · rw [execGo]
            simp only [hg, if_pos hle]
            exact ih3
          · rw [execGo]
            simp only [hg, if_pos hle]
            exact ih4
        · have hwsub : wsub entry.size order.size = entry.size - order.size :=
            wsub_eq (by omega) hent
          refine ⟨?_, ?_, ?_, ?_⟩
          · rw [execGoW, execGo]
            simp only [hg, if_neg hle, hwsub]
          · rw [execGo]
            simp only [hg, if_neg hle]
            exact sizesBounded_set hb (by show entry.size - order.size < W64; omega)
          · rw [execGo]
            simp only [hg, if_neg hle]
            show (0 : Nat) < W64
            norm_num [W64]
          · rw [execGo]
            simp only [hg, if_neg hle]

theorem execRangeGoW_eq (prices : List Nat) :
    ∀ (a : BookEntries) (pl : PriceLimits) (order : Order) (res : ExecResult),
    sizesBounded a → order.size < W64 → 0 < order.price → order.price < PMAX →
    execRangeGoW a order res prices pl = execRangeGo a order res prices pl := by
  induction prices with
  | nil =>
    intro a pl order res hb ho hpp hpm
    show (exitPriceW order, res, a, pl) = (exitPrice order, res, a, pl)
    rw [exitPriceW_eq hpp hpm]
  | cons p rest ih =>
    intro a pl order res hb ho hpp hpm
    cases hget : PriceLimits.get pl p with
    | none =>
      rw [execRangeGoW, execRangeGo]
      simp only [hget]
      exact ih a pl order res hb ho hpp hpm
    | some lim =>
      cases hln : lim.link with
      | none =>
        rw [execRangeGoW, execRangeGo]
        simp only [hget, hln]
        exact ih a pl order res hb ho hpp hpm
      | some link =>
        obtain ⟨he1, he2, he3, he4⟩ := execGoW_eq a.slots.length a (some link.head)
          order hb ho
        have hexecW : execW a link order = exec a link order := he1
        rw [execRangeGoW, execRangeGo]
        simp only [hget, hln, hexecW]
        cases hr : exec a link order with
        | mk mi rest2 =>
          obtain ⟨order2, a2⟩ := rest2
          cases mi with
          | some index => rfl
          | none =>
            have he2x : sizesBounded (exec a link order).2.2 := he2
            have he3x : (exec a link order).2.1.size < W64 := he3
            have he4x : (exec a link order).2.1.price = order.price := he4
            rw [hr] at he2x he3x he4x
            have hb2 : sizesBounded a2 := he2x
            have ho2 : order2.size < W64 := he3x
            have hp2 : order2.price = order.price := he4x
            exact ih a2 (PriceLimits.setVal pl p { link := none }) order2
              (.Filled order2) hb2 ho2 (by omega) (by omega)

theorem limitW_eq (me : MatchingEngine) (order : Order)
    (hb : sizesBounded me.entries) (hsz : order.size < W64)
    (hpp : 0 < order.price) (hpm : order.price < PMAX) :
    limitW me order = me.limit order := by
  cases hside : order.side with
  | Buy =>
    have h1 := execRangeGoW_eq
      (PriceLimits.rangeKeys me.price_limits me.best_ask order.price)
      me.entries me.price_limits order .NotExecuted hb hsz hpp hpm
    simp only [limitW, MatchingEngine.limit, hside, h1]
  | Sell =>
    have h1 := execRangeGoW_eq
      ((PriceLimits.rangeKeys me.price_limits order.price me.best_bid).reverse)
      me.entries me.price_limits order .NotExecuted hb hsz hpp hpm
    simp only [limitW, MatchingEngine.limit, hside, h1]

/-- C6's concrete book: a resting bid at 5 and a resting ask at 100. -/
def meC6 : MatchingEngine := applyOrders (MatchingEngine.new 8) [ordB2, ordS1]

/-- An order violating the boundary contract (`price = 0`): the source's
`Order` struct has public fields, so nothing rejects this value. -/
def ordBad : Order := { price := 0, size := 2, side := Side.Sell, owner := 9 }

/-- C6: for every order that satisfies the boundary contract (`size > 0`,
`0 < price < P_MAX`) and u64-representable sizes, every arithmetic step of
`limit` — the guarded size subtractions of `exec` and the `price ± 1` of the
`exec_range` exit — is exact: the u64-wrapping replay of the crossing
computes the very same result as the ideal arithmetic, so nothing overflows
or panics. -/
theorem C6_no_overflow (me : MatchingEngine) (order : Order)
    (hb : sizesBounded me.entries) (hv : validOrder order) (hsz : order.size < W64) :
    limitW me order = me.limit order :=
  limitW_eq me order hb hsz hv.2.1 hv.2.2

/-- C6 witness: the wrapping and ideal crossings agree on the concrete book
for a valid marketable sell. -/
theorem C6_no_overflow_witness :
    limitW meC6 { price := 4, size := 1, side := Side.Sell, owner := 7 }
      = meC6.limit { price := 4, size := 1, side := Side.Sell, owner := 7 } :=
  C6_no_overflow meC6 { price := 4, size := 1, side := Side.Sell, owner := 7 }
    (by decide) (by decide) (by decide)

/-- C6 counterexample: the claim's "rejected by construction" premise fails —
`Order` has public fields, so a sell with `price = 0` is a perfectly
constructible input, and on it the machine's wrapping `price - 1` diverges
from the ideal arithmetic: the wrapped exit price `2^64 - 1` makes the
best-bid repair scan the whole key range and adopt the resting ask as the
new best bid, crossing the book. -/
theorem C6_counterexample_price_zero :
    ¬ validOrder ordBad ∧
    limitW meC6 ordBad ≠ meC6.limit ordBad ∧
    (limitW meC6 ordBad).2.best_bid = (meC6.limit ordBad).2.best_ask := by
  refine ⟨by decide, ?_, by decide⟩
  decide

end ME

end TradeRS
